import Mathlib

/-!
go-dcpp: the ADC codec (`adc/codec.go`) and the hublist auto-registration
protocol (`hublist/autoreg/autoreg.go`).

Shallow embedding of the two Go source files and the properties proved about
them.  Go strings and byte slices are lists of byte values (`Bytes`); Go `int`
and `int64` are `Int` restricted to the 64-bit range where it matters, `uint64`
is `Nat` below `2 ^ 64`.
-/

set_option autoImplicit false

/-! ## Part 1: definitions -/

/-- A Go `string` / `[]byte`: the list of its byte values. -/
abbrev Bytes := List Nat

/-- The bytes of an ASCII literal. -/
def str (s : String) : Bytes := s.toList.map Char.toNat

/-! ### `strconv` (Go standard library), base 10, 64-bit `int` -/

namespace Strconv

/-- Decimal digits of `n`, most significant first, pushed in front of `acc`. -/
def fmtDigits : Nat → Nat → Bytes → Bytes
  | 0, _, acc => acc
  | fuel + 1, n, acc =>
    if n < 10 then (48 + n) :: acc else fmtDigits fuel (n / 10) ((48 + n % 10) :: acc)

/-- `strconv.FormatUint(n, 10)` for a `uint64` (at most twenty digits). -/
def FormatUint (n : Nat) : Bytes := fmtDigits 20 n []

/-- `strconv.FormatInt(i, 10)` for an `int64`: a minus sign for negative values. -/
def FormatInt (i : Int) : Bytes :=
  if i < 0 then 45 :: FormatUint i.natAbs else FormatUint i.toNat

/-- `strconv.Itoa(i)` is `FormatInt(int64(i), 10)`. -/
def Itoa (i : Int) : Bytes := FormatInt i

/-- The digit loop of `strconv.ParseUint(s, 10, 64)`: `none` on a byte that is
not a decimal digit and on a value that leaves the `uint64` range. -/
def parseDigits : Bytes → Nat → Option Nat
  | [], n => some n
  | c :: cs, n =>
    if 48 ≤ c ∧ c ≤ 57 then
      if n * 10 + (c - 48) < 2 ^ 64 then parseDigits cs (n * 10 + (c - 48)) else none
    else none

/-- `strconv.ParseUint(s, 10, 64)`; `none` stands for the returned error. -/
def ParseUint (s : Bytes) : Option Nat :=
  if s = [] then none else parseDigits s 0

/-- `strconv.ParseInt(s, 10, 64)`: an optional sign, then `ParseUint` and the
range check against `1 << 63`; `none` stands for the returned error. -/
def ParseInt (s : Bytes) : Option Int :=
  match s with
  | [] => none
  | c :: rest =>
    let neg := decide (c = 45)
    let ds := if c = 43 ∨ c = 45 then rest else s
    match ParseUint ds with
    | none => none
    | some un =>
      if !neg && decide (2 ^ 63 ≤ un) then none
      else if neg && decide (2 ^ 63 < un) then none
      else some (if neg then -(un : Int) else (un : Int))

/-- `strconv.Atoi(s)` on a 64-bit platform agrees with `ParseInt(s, 10, 0)`. -/
def Atoi (s : Bytes) : Option Int := ParseInt s

end Strconv

/-! ### Package `adc` (`adc/codec.go`) -/

namespace Adc

/-- `escape`: the replacer `escaper` (backslash to two backslashes, space to
backslash-s, newline to backslash-n), one byte at a time. -/
def escape : Bytes → Bytes
  | [] => []
  | b :: rest =>
    (if b = 92 then [92, 92]
     else if b = 32 then [92, 115]
     else if b = 10 then [92, 110]
     else [b]) ++ escape rest

/-- `unescape`: the replacer `unescaper`.  At each position the two-byte keys
backslash-s, backslash-n and backslash-backslash are tried; on a match the
replacement is written and both bytes are skipped, otherwise one byte is copied. -/
def unescape : Bytes → Bytes
  | [] => []
  | [b] => [b]
  | a :: b :: rest =>
    if a = 92 ∧ b = 115 then 32 :: unescape rest
    else if a = 92 ∧ b = 110 then 10 :: unescape rest
    else if a = 92 ∧ b = 92 then 92 :: unescape rest
    else a :: unescape (b :: rest)

/-! #### Values, types and records

`Marshal` and `Unmarshal` inspect their argument by reflection.  The embedding
makes the inspected shape explicit: a record is the list of its struct fields in
declaration order, each with its name, whether it is exported, its `adc` tag and
its current value, and a value carries its Go type.  `reflect` panics when
`Interface()` is called on a value obtained from an unexported field, and
`codec.go` never tests for that; the panic is part of the model.  Covered field
types: `string`, `int`, `int64`,
`bool` and `uint64` (two kinds without built-in support), types with a custom
codec (value receiver `MarshalAdc`, pointer receiver `UnmarshalAdc`, as asserted
for `CID` and `tiger.Hash` at the top of the file), pointers to these, and
slices of these. -/

/-- Go types of single values. -/
inductive Ty where
  | string
  | int
  | int64
  | bool
  | uint64
  | custom (id : Nat)
  | ptr (elem : Ty)
  deriving DecidableEq, Repr

/-- Go values of the types `Ty`; a custom-codec value is its raw payload. -/
inductive Val where
  | str (s : Bytes)
  | int (i : Int)
  | int64 (i : Int)
  | bool (b : Bool)
  | uint64 (n : Nat)
  | custom (id : Nat) (payload : Bytes)
  | ptrNil (elem : Ty)
  | ptrTo (v : Val)
  deriving DecidableEq, Repr

/-- The value of a struct field: a single value, a nil slice, or a non-nil slice
with its element type and elements. -/
inductive FieldVal where
  | one (v : Val)
  | sliceNil (elem : Ty)
  | slice (elem : Ty) (vs : List Val)
  deriving DecidableEq, Repr

/-- A struct field: `fld.Name`, whether the field is exported
(`fld.PkgPath == ""`), `fld.Tag.Get("adc")` and `rv.Field(i)`.  A value that
`reflect` obtained from an unexported field refuses `Interface()` with a
run-time panic. -/
structure Field where
  name : String
  exported : Bool
  tag : Bytes
  val : FieldVal
  deriving DecidableEq, Repr

/-- A struct value: its fields in declaration order. -/
abbrev Record := List Field

/-- Error values of `codec.go`. -/
inductive Err where
  | strconvErr (s : Bytes)
  | unknownType
  | unsupportedType
  | onField (name : String) (e : Err)
  | expectedSingle (name : String)
  | cannotMarshal (name : String) (e : Err)
  | codec (code : Nat)
  deriving DecidableEq, Repr

/-- Result of a call: a value, an error value, or a run-time panic. -/
inductive Res (α : Type) where
  | ok (a : α)
  | error (e : Err)
  | panic
  deriving DecidableEq, Repr

/-- How `isZero` tests a value of a custom type, by the kind of the type:
`v.IsNil()` for a slice kind, `==` on the interface values for a comparable
kind, and a run-time panic of that `==` for a kind that cannot be compared (a
map, a func, a struct or array that holds one). -/
inductive ZeroKind where
  | isNil
  | equal
  | uncomparable
  deriving DecidableEq, Repr

/-- The custom codecs (`MarshalAdc` / `UnmarshalAdc` of `CID`, `tiger.Hash`, ...),
which live outside the file: for each custom type the encoder of a payload, the
decoder (from the data and the receiver's old payload to the new payload and
the error), the payload of the zero value, and how `isZero` tests a value of
the type. -/
structure Codec where
  MarshalAdc : Nat → Bytes → Except Err Bytes
  UnmarshalAdc : Nat → Bytes → Bytes → Bytes × Option Err
  zero : Nat → Bytes
  zeroKind : Nat → ZeroKind

/-- `reflect.Zero(t)`. -/
def zeroOf (cd : Codec) : Ty → Val
  | Ty.string => Val.str []
  | Ty.int => Val.int 0
  | Ty.int64 => Val.int64 0
  | Ty.bool => Val.bool false
  | Ty.uint64 => Val.uint64 0
  | Ty.custom id => Val.custom id (cd.zero id)
  | Ty.ptr e => Val.ptrNil e

/-- The Go type of a value. -/
def typeOf : Val → Ty
  | Val.str _ => Ty.string
  | Val.int _ => Ty.int
  | Val.int64 _ => Ty.int64
  | Val.bool _ => Ty.bool
  | Val.uint64 _ => Ty.uint64
  | Val.custom id _ => Ty.custom id
  | Val.ptrNil e => Ty.ptr e
  | Val.ptrTo v => Ty.ptr (typeOf v)

/-! #### `unmarshalValue` -/

/-- `unmarshalValue(s, rv)` for `rv` of type `t` holding `old`: the value of `rv`
afterwards and the error returned. -/
def unmarshalTy (cd : Codec) (s : Bytes) : Ty → Val → Val × Option Err
  | Ty.custom id, old =>
    match old with
    | Val.custom _ p => ((Val.custom id (cd.UnmarshalAdc id s p).1), (cd.UnmarshalAdc id s p).2)
    | _ => ((Val.custom id (cd.UnmarshalAdc id s (cd.zero id)).1),
            (cd.UnmarshalAdc id s (cd.zero id)).2)
  | Ty.int, old =>
    if s = [] then (Val.int 0, none)
    else match Strconv.Atoi s with
      | none => (old, some (Err.strconvErr s))
      | some i => (Val.int i, none)
  | Ty.int64, old =>
    if s = [] then (Val.int64 0, none)
    else match Strconv.ParseInt s with
      | none => (old, some (Err.strconvErr s))
      | some i => (Val.int64 i, none)
  | Ty.string, _ =>
    if s = [] then (Val.str [], none) else (Val.str (unescape s), none)
  | Ty.ptr e, old =>
    if s = [] then (Val.ptrNil e, none)
    else
      match unmarshalTy cd s e (zeroOf cd e) with
      | (nv, none) => (Val.ptrTo nv, none)
      | (_, some err) => (old, some err)
  | Ty.bool, old =>
    if s = [] then (Val.bool false, none) else (old, some Err.unknownType)
  | Ty.uint64, old =>
    if s = [] then (Val.uint64 0, none) else (old, some Err.unknownType)

/-- `unmarshalValue(s, rv)` for `rv` holding the single value `v`. -/
def unmarshalValue (cd : Codec) (s : Bytes) (v : Val) : Val × Option Err :=
  unmarshalTy cd s (typeOf v) v

/-- `unmarshalValue(s, rv)` for `rv` an exported struct field: a slice-typed `rv`
has no custom decoder and no supported kind, so only the empty input succeeds.
(For an unexported field `rv.Addr().Interface()` panics; `unmarshalField` has
that case.) -/
def unmarshalFieldVal (cd : Codec) (s : Bytes) : FieldVal → FieldVal × Option Err
  | FieldVal.one v => (FieldVal.one (unmarshalValue cd s v).1, (unmarshalValue cd s v).2)
  | FieldVal.sliceNil e => if s = [] then (FieldVal.sliceNil e, none)
                           else (FieldVal.sliceNil e, some Err.unknownType)
  | FieldVal.slice e vs => if s = [] then (FieldVal.sliceNil e, none)
                           else (FieldVal.slice e vs, some Err.unknownType)

/-! #### `Unmarshal` -/

/-- How `Unmarshal` ended: nil error, an error value, or a panic. -/
inductive Outcome where
  | ok
  | error (e : Err)
  | panic
  deriving DecidableEq, Repr

/-- The elements `nv.Index(j)` after the loop over `vals` in the slice branch, or
the first error. -/
def unmarshalElems (cd : Codec) (e : Ty) : List Bytes → Except Err (List Val)
  | [] => .ok []
  | sv :: rest =>
    match unmarshalTy cd sv e (zeroOf cd e) with
    | (_, some err) => .error err
    | (v, none) =>
      match unmarshalElems cd e rest with
      | .error err => .error err
      | .ok vs => .ok (v :: vs)

/-- The values selected for a tag: every token of `sub` that starts with the
tag, with the tag cut off (`bytes.HasPrefix` / `bytes.TrimPrefix`). -/
def matching (tag : Bytes) (sub : List Bytes) : List Bytes :=
  (sub.filter fun ss => tag.isPrefixOf ss).map fun ss => ss.drop tag.length

/-- One pass of the field loop of `Unmarshal`: the field afterwards, the token
list `sub` afterwards, and whether the loop goes on (`Outcome.ok`) or the call
ends with an error or a panic. -/
def unmarshalField (cd : Codec) (f : Field) (sub : List Bytes) : Field × List Bytes × Outcome :=
  if f.tag = [] ∨ f.tag = str "-" then (f, sub, Outcome.ok)
  else if f.tag = str "#" then
    match sub with
    | [] => (f, sub, Outcome.panic)
    | v :: sub1 =>
      -- `rv.Addr().Interface()` in `unmarshalValue` panics for an unexported field
      if f.exported = false then (f, sub1, Outcome.panic)
      else
      match unmarshalFieldVal cd v f.val with
      | (fv, some err) => ({ f with val := fv }, sub1, Outcome.error (Err.onField f.name err))
      | (fv, none) => ({ f with val := fv }, sub1, Outcome.ok)
  else
    match matching f.tag sub with
    | [] => (f, sub, Outcome.ok)
    | v0 :: vrest =>
      -- `rv.Field(i).Addr().Interface()` panics for an unexported field
      if f.exported = false then (f, sub, Outcome.panic)
      else
      match f.val with
      | FieldVal.one (Val.custom id p) =>
        match cd.UnmarshalAdc id v0 p with
        | (p1, some err) =>
          ({ f with val := FieldVal.one (Val.custom id p1) }, sub,
            Outcome.error (Err.onField f.name err))
        | (p1, none) => ({ f with val := FieldVal.one (Val.custom id p1) }, sub, Outcome.ok)
      | FieldVal.sliceNil e =>
        match unmarshalElems cd e (v0 :: vrest) with
        | .error err => (f, sub, Outcome.error (Err.onField f.name err))
        | .ok vs => ({ f with val := FieldVal.slice e vs }, sub, Outcome.ok)
      | FieldVal.slice e _ =>
        match unmarshalElems cd e (v0 :: vrest) with
        | .error err => (f, sub, Outcome.error (Err.onField f.name err))
        | .ok vs => ({ f with val := FieldVal.slice e vs }, sub, Outcome.ok)
      | FieldVal.one v =>
        if vrest ≠ [] then (f, sub, Outcome.error (Err.expectedSingle f.name))
        else
          match unmarshalValue cd v0 v with
          | (nv, some err) =>
            ({ f with val := FieldVal.one nv }, sub, Outcome.error (Err.onField f.name err))
          | (nv, none) => ({ f with val := FieldVal.one nv }, sub, Outcome.ok)

/-- The field loop of `Unmarshal` over the fields still to be visited. -/
def unmarshalFields (cd : Codec) : List Field → List Bytes → List Field × Outcome
  | [], _ => ([], Outcome.ok)
  | f :: fs, sub =>
    match unmarshalField cd f sub with
    | (f1, sub1, Outcome.ok) => (f1 :: (unmarshalFields cd fs sub1).1, (unmarshalFields cd fs sub1).2)
    | (f1, _, out) => (f1 :: fs, out)

/-- `Unmarshal(s, &o)` for a struct `o` without `UnmarshalAdc` of its own: the
struct afterwards and how the call ended.  `bytes.Split(s, " ")` is
`List.splitOn 32`. -/
def Unmarshal (cd : Codec) (s : Bytes) (o : Record) : Record × Outcome :=
  unmarshalFields cd o (s.splitOn 32)

/-! #### `marshalValue`, `isZero`, `Marshal` -/

/-- `marshalValue(o)`.  A pointer to a custom-codec type also satisfies
`Marshaller`; calling the value method through a nil pointer panics. -/
def marshalValue (cd : Codec) : Val → Res Bytes
  | Val.custom id p =>
    match cd.MarshalAdc id p with
    | .ok sv => Res.ok sv
    | .error e => Res.error e
  | Val.ptrTo (Val.custom id p) =>
    match cd.MarshalAdc id p with
    | .ok sv => Res.ok sv
    | .error e => Res.error e
  | Val.ptrNil (Ty.custom _) => Res.panic
  | Val.str s => Res.ok (escape s)
  | Val.int i => Res.ok (Strconv.Itoa i)
  | Val.int64 i => Res.ok (Strconv.FormatInt i)
  | Val.ptrNil _ => Res.ok []
  | Val.ptrTo v => marshalValue cd v
  | Val.bool _ => Res.error Err.unsupportedType
  | Val.uint64 _ => Res.error Err.unsupportedType

/-- `isZero(v)` for `v = rv.Field(i)`; `ro` says that the field is unexported.
`none` is a run-time panic: of `v.Interface()` for an unexported field, or of
`==` for a custom type that cannot be compared.  Pointers and slices are tested
with `IsNil`, which does not panic. -/
def isZero (cd : Codec) (ro : Bool) : FieldVal → Option Bool
  | FieldVal.one (Val.ptrNil _) => some true
  | FieldVal.one (Val.ptrTo _) => some false
  | FieldVal.sliceNil _ => some true
  | FieldVal.slice _ _ => some false
  | FieldVal.one (Val.custom id p) =>
    match cd.zeroKind id with
    | ZeroKind.isNil => some (decide (p = cd.zero id))
    | ZeroKind.equal => if ro then none else some (decide (p = cd.zero id))
    | ZeroKind.uncomparable => none
  | FieldVal.one v => if ro then none else some (decide (v = zeroOf cd (typeOf v)))

/-- The variables `buf` and `first` of `Marshal`. -/
structure WState where
  buf : Bytes
  first : Bool
  deriving DecidableEq, Repr

/-- The closure `writeItem(tag, sv)`. -/
def writeItem (st : WState) (tag : Bytes) (sv : Bytes) : WState :=
  { buf := st.buf ++ (if st.first then [] else [32]) ++ (if tag = str "#" then sv else tag ++ sv),
    first := false }

/-- The loop over the elements in the slice branch of `Marshal`. -/
def marshalElems (cd : Codec) (name : String) (tag : Bytes) : List Val → WState → Res WState
  | [], st => Res.ok st
  | v :: rest, st =>
    match marshalValue cd v with
    | Res.ok sv => marshalElems cd name tag rest (writeItem st tag sv)
    | Res.error e => Res.error (Err.cannotMarshal name e)
    | Res.panic => Res.panic

/-- One pass of the field loop of `Marshal`. -/
def marshalField (cd : Codec) (f : Field) (st : WState) : Res WState :=
  if f.tag = [] ∨ f.tag = str "-" then Res.ok st
  else
    -- `omit && isZero(rv.Field(i))`: `isZero` is called for a prefixed field only
    match (if f.tag ≠ str "#" then isZero cd (!f.exported) f.val else some false) with
    | none => Res.panic
    | some true => Res.ok st
    | some false =>
      -- `rv.Field(i).Interface()` panics for an unexported field
      if f.exported = false then Res.panic
      else
      match f.val with
      | FieldVal.one v =>
        -- `m.MarshalAdc()` in the `Marshaller` branch is what `marshalValue` calls first,
        -- and both branches wrap the error and call `writeItem` alike
        match marshalValue cd v with
        | Res.ok sv => Res.ok (writeItem st f.tag sv)
        | Res.error e => Res.error (Err.cannotMarshal f.name e)
        | Res.panic => Res.panic
      | FieldVal.sliceNil _ =>
        if f.tag ≠ str "#" then Res.ok st
        else Res.error (Err.cannotMarshal f.name Err.unsupportedType)
      | FieldVal.slice _ vs =>
        if f.tag ≠ str "#" then marshalElems cd f.name f.tag vs st
        else Res.error (Err.cannotMarshal f.name Err.unsupportedType)

/-- The field loop of `Marshal`. -/
def marshalFields (cd : Codec) : List Field → WState → Res WState
  | [], st => Res.ok st
  | f :: fs, st =>
    match marshalField cd f st with
    | Res.ok st1 => marshalFields cd fs st1
    | Res.error e => Res.error e
    | Res.panic => Res.panic

/-- `Marshal(o)` for a struct `o` (or a pointer to one) without `MarshalAdc` of
its own. -/
def Marshal (cd : Codec) (o : Record) : Res Bytes :=
  match marshalFields cd o { buf := [], first := true } with
  | Res.ok st => Res.ok st.buf
  | Res.error e => Res.error e
  | Res.panic => Res.panic

/-- A codec environment for records without custom-codec fields. -/
def noCodec : Codec where
  MarshalAdc := fun _ p => .ok p
  UnmarshalAdc := fun _ s _ => (s, none)
  zero := fun _ => []
  zeroKind := fun _ => ZeroKind.equal

/-! #### Records that go over the wire unchanged -/

/-- The field is excluded from the wire: its tag is empty or `-`. -/
def Field.excluded (f : Field) : Bool := decide (f.tag = [] ∨ f.tag = str "-")

/-- The field is positional: its tag is `#`. -/
def Field.positional (f : Field) : Bool := decide (f.tag = str "#")

/-- The field is prefixed: its tag is any other string. -/
def Field.tagged (f : Field) : Bool := !f.excluded && !f.positional

/-- The types with built-in support: `string`, `int`, `int64` and pointers to
them. -/
def Ty.plain : Ty → Bool
  | Ty.string => true
  | Ty.int => true
  | Ty.int64 => true
  | Ty.ptr e => Ty.plain e
  | _ => false

/-- A value of a type with built-in support, with its integers in the 64-bit
range, in canonical form: no pointer to a value whose encoding is empty. -/
def Val.canonical (cd : Codec) : Val → Bool
  | Val.str _ => true
  | Val.int i => decide (-(2 ^ 63) ≤ i ∧ i < 2 ^ 63)
  | Val.int64 i => decide (-(2 ^ 63) ≤ i ∧ i < 2 ^ 63)
  | Val.ptrNil e => Ty.plain e
  | Val.ptrTo w => Val.canonical cd w && decide (marshalValue cd w ≠ Res.ok [])
  | _ => false

/-- A field value in canonical form: a canonical single value, a nil slice, or a
non-empty slice of canonical values of the element type. -/
def FieldVal.canonical (cd : Codec) : FieldVal → Bool
  | FieldVal.one v => Val.canonical cd v
  | FieldVal.sliceNil e => Ty.plain e
  | FieldVal.slice e vs =>
    Ty.plain e && !vs.isEmpty && vs.all fun v => Val.canonical cd v && decide (typeOf v = e)

/-- The field value is the zero value of its type (empty string, 0, nil
pointer, nil slice, zero custom value): what `isZero` returns when it does not
panic. -/
def holdsZero (cd : Codec) : FieldVal → Bool
  | FieldVal.one v => decide (v = zeroOf cd (typeOf v))
  | FieldVal.sliceNil _ => true
  | FieldVal.slice _ _ => false

/-- The field with its value replaced by the zero value of its type. -/
def zeroField (cd : Codec) (f : Field) : Field :=
  { f with val := match f.val with
      | FieldVal.one v => FieldVal.one (zeroOf cd (typeOf v))
      | FieldVal.sliceNil e => FieldVal.sliceNil e
      | FieldVal.slice e _ => FieldVal.sliceNil e }

/-- The encoding of a value: the bytes `marshalValue` returns for it (empty if
it fails). -/
def enc (cd : Codec) (v : Val) : Bytes :=
  match marshalValue cd v with
  | Res.ok b => b
  | _ => []

/-- The tokens a field puts on the line: none for an excluded field and for a
prefixed field holding its zero value, the encoded value for a positional field,
tag and encoded value for a prefixed single value, and one tag-and-value token
per element for a prefixed slice. -/
def fieldTokens (cd : Codec) (f : Field) : List Bytes :=
  if f.excluded then []
  else if f.positional then
    match f.val with
    | FieldVal.one v => [enc cd v]
    | _ => []
  else if holdsZero cd f.val then []
  else
    match f.val with
    | FieldVal.one v => [f.tag ++ enc cd v]
    | FieldVal.sliceNil _ => []
    | FieldVal.slice _ vs => vs.map fun v => f.tag ++ enc cd v

/-- The state of `Marshal` after `writeItem` wrote the tokens `toks` in order
(a positional token as it is, a prefixed token with its tag in front). -/
def writeAll (st : WState) : List Bytes → WState
  | [] => st
  | t :: ts => writeAll { buf := st.buf ++ (if st.first then [] else [32]) ++ t, first := false } ts

/-- The token list `sub` after the field loop of `Unmarshal` has visited the
fields `fs`: every positional field it visited took the first token. -/
def subAfter (cd : Codec) : List Field → List Bytes → List Bytes
  | [], sub => sub
  | f :: fs, sub => subAfter cd fs (unmarshalField cd f sub).2.1

/-- A sample struct, first part: two positional fields and an excluded one. -/
def sampleHead : List Field :=
  [⟨"A", true, str "#", FieldVal.one (Val.str (str "a b"))⟩,
   ⟨"B", true, str "#", FieldVal.one (Val.int 0)⟩,
   ⟨"X", true, str "-", FieldVal.one (Val.int 5)⟩]

/-- A sample struct, second part: a prefixed string, a prefixed slice of
strings, a nil optional and an optional pointing to 0. -/
def sampleTail : List Field :=
  [⟨"N", true, str "NI", FieldVal.one (Val.str (str "x"))⟩,
   ⟨"S", true, str "SU", FieldVal.slice Ty.string [Val.str (str "p"), Val.str []]⟩,
   ⟨"P", true, str "PP", FieldVal.one (Val.ptrNil Ty.int)⟩,
   ⟨"Q", true, str "QQ", FieldVal.one (Val.ptrTo (Val.int 0))⟩]

end Adc

/-! ### Package `autoreg` (`hublist/autoreg/autoreg.go`) -/

namespace Autoreg

/-- Error values that occur in `autoreg.go`: the `io` and `bufio` sentinels, the
errors built in the file, a `strconv` parse error, and `ext` for any error value
handed in by a collaborator (transport, `nmdc` package, registry). -/
inductive Err where
  | EOF
  | ErrUnexpectedEOF
  | ErrShortBuffer
  | ErrNoProgress
  | ErrTooLong
  | lockTooLong
  | expectedNMDCLock
  | expectedLock (got : Bytes)
  | expectedKey
  | wrongKey
  | strconvErr (s : Bytes)
  | ext (code : Nat)
  deriving DecidableEq, Repr

/-- `Info`: `Users` is a Go `int`, `Share` a `uint64`. -/
structure Info where
  Name : Bytes
  Host : Bytes
  Desc : Bytes
  Users : Int
  Share : Nat
  deriving DecidableEq, Repr

/-- The replacer `escaper`: every `|` becomes `&#124;`, other bytes are copied. -/
def escaper (s : Bytes) : Bytes :=
  s.flatMap fun b => if b = 124 then [38, 35, 49, 50, 52, 59] else [b]

/-- One answer of an `io.Reader`: the bytes it has ready and the error it
returns with them (`none` is a nil error). -/
structure ReadEv where
  data : Bytes
  err : Option Err
  deriving DecidableEq, Repr

/-- An `io.Reader`: the answers it will give, in order; once they are used up
every `Read` returns `(0, io.EOF)`. -/
abbrev Reader := List ReadEv

/-- The call `r.Read(p)` with `len(p) = k`: the bytes stored into `p`, the error
returned, and the reader afterwards.  An answer longer than `p` is delivered up
to `len(p)` with a nil error and the rest stays for the next call. -/
def Reader.read (r : Reader) (k : Nat) : Bytes × Option Err × Reader :=
  match r with
  | [] => ([], some Err.EOF, [])
  | ev :: rest =>
    if ev.data.length ≤ k then (ev.data, ev.err, rest)
    else (ev.data.take k, none, { data := ev.data.drop k, err := ev.err } :: rest)

/-- The slice `buf` after `data` was stored at index `i` (as `Read(buf[i:])` does). -/
def storeAt (buf : Bytes) (i : Nat) (data : Bytes) : Bytes :=
  buf.take i ++ data ++ buf.drop (i + data.length)

/-- `bytes.Index(s, []byte("|"))`: index of the first `|`, or `-1`. -/
def indexPipe (s : Bytes) : Int :=
  if s.indexOf 124 < s.length then (s.indexOf 124 : Int) else -1

/-- What `scanOneTo` returns, together with the contents of `buf` afterwards. -/
structure ScanResult where
  tokenEnd : Int
  consumed : Int
  err : Option Err
  buf : Bytes
  deriving DecidableEq, Repr

/-- The `for i := 0; i < len(buf);` loop of `scanOneTo`, entered with index `i`;
`fuel` bounds the number of iterations and `none` means it ran out. -/
def scanLoop : Nat → Reader → Bytes → Nat → Option ScanResult
  | 0, _, _, _ => none
  | fuel + 1, r, buf, i =>
    if i < buf.length then
      match r.read (buf.length - i) with
      | (data, some Err.EOF, _) =>
        some { tokenEnd := -1, consumed := 0, err := some Err.ErrUnexpectedEOF,
               buf := storeAt buf i data }
      | (data, some e, _) =>
        some { tokenEnd := -1, consumed := 0, err := some e, buf := storeAt buf i data }
      | (data, none, r1) =>
        let n := data.length
        let buf1 := storeAt buf i data
        let j := indexPipe ((buf1.drop i).take n)
        if 0 < j then
          some { tokenEnd := i + j, consumed := i + n, err := none, buf := buf1 }
        else scanLoop fuel r1 buf1 (i + n)
    else
      some { tokenEnd := -1, consumed := 0, err := some Err.ErrShortBuffer, buf := buf }

/-- `scanOneTo(r, buf)`.  Every iteration either uses up one answer of the
reader or fills the buffer, so `r.length + 1` iterations are enough
(`scanOneTo_returns`). -/
def scanOneTo (r : Reader) (buf : Bytes) : Option ScanResult :=
  scanLoop (r.length + 1) r buf 0

/-! #### Collaborators of `autoreg.go` -/

set_option linter.dupNamespace false in
/-- `nmdc.Key`: the struct whose field `Key` the server compares. -/
structure Key where
  Key : Bytes
  deriving DecidableEq, Repr

/-- The operations of package `nmdc` and the constants of package `version` that
`autoreg.go` calls.  They live outside the file and are parameters here; `L` is
the type `nmdc.Lock`. -/
structure Nmdc (L : Type) where
  /-- The literal `&nmdc.Lock{Lock: lock, PK: pk}`. -/
  newLock : Bytes → Bytes → L
  /-- `lock.MarshalNMDC()`. -/
  lockMarshal : L → Except Err Bytes
  /-- `lock.UnmarshalNMDC(data)` on a zero `nmdc.Lock`. -/
  lockUnmarshal : Bytes → Except Err L
  /-- `lock.Key()`, the key derivation. -/
  lockKey : L → Key
  /-- `key.MarshalNMDC()`. -/
  keyMarshal : Key → Except Err Bytes
  /-- `key.UnmarshalNMDC(data)` on a zero `nmdc.Key`. -/
  keyUnmarshal : Bytes → Except Err Key
  /-- `nmdc.Unescape`. -/
  Unescape : Bytes → Bytes
  /-- `version.Name`. -/
  versionName : Bytes
  /-- `version.Vers`. -/
  versionVers : Bytes

/-- The `io.ReadWriteCloser` handed to `registerOn` and `serve`: what its reader
will deliver, and the errors its `Write` and `Close` return. -/
structure Conn where
  rd : Reader
  writeErr : Option Err
  closeErr : Option Err

/-! #### Client: `registerOn` -/

/-- What `registerOn` did: the error it returned, the bytes it passed to
`c.Write` (if it got that far), and whether it called `c.Close`. -/
structure ClientResult where
  err : Option Err
  wrote : Option Bytes
  closed : Bool
  deriving DecidableEq, Repr

/-- The bytes `registerOn` collects in `buf` after the `$Key` token was built
from `data := key.MarshalNMDC()`. -/
def registration (data : Bytes) (info : Info) (host : Bytes) : Bytes :=
  str "$Key " ++ data ++ [124]
    ++ escaper info.Name ++ [124]
    ++ info.Host ++ [124]
    ++ escaper info.Desc ++ [124]
    ++ Strconv.Itoa info.Users ++ [124]
    ++ Strconv.FormatUint info.Share ++ [124]
    ++ (if host ≠ [] then host ++ [124] else [])

/-- `registerOn(c, info, host)`; `none` only if `scanOneTo` ran out of fuel. -/
def registerOn {L : Type} (nm : Nmdc L) (c : Conn) (info : Info) (host : Bytes) :
    Option ClientResult :=
  match scanOneTo c.rd (List.replicate 512 0) with
  | none => none
  | some sr =>
    match sr.err with
    | some Err.ErrShortBuffer => some { err := some Err.lockTooLong, wrote := none, closed := false }
    | some e => some { err := some e, wrote := none, closed := false }
    | none =>
      if sr.tokenEnd < 0 then
        some { err := some Err.expectedNMDCLock, wrote := none, closed := false }
      else
        let b := sr.buf.take sr.tokenEnd.toNat
        if ¬ (str "$Lock ") <+: b then
          some { err := some (Err.expectedLock b), wrote := none, closed := false }
        else
          match nm.lockUnmarshal (b.drop 6) with
          | .error e => some { err := some e, wrote := none, closed := false }
          | .ok lock =>
            match nm.keyMarshal (nm.lockKey lock) with
            | .error e => some { err := some e, wrote := none, closed := false }
            | .ok data =>
              match c.writeErr with
              | some e =>
                some { err := some e, wrote := some (registration data info host), closed := false }
              | none =>
                some { err := c.closeErr, wrote := some (registration data info host),
                       closed := true }

/-! #### Server: `bufio.Scanner` as `serve` configures it

`serve` calls `r.Buffer(b, cap(b))` with `len(b) = cap(b) = 2048`, so the scanner
buffer has 2048 bytes and may not grow, and installs the split function that
cuts at the first `|`. -/

/-- Length of the slice `b` in `serve`, which is also the scanner's token limit. -/
def bufSize : Nat := 2048

/-- State of the `bufio.Scanner`: the reader, the index `start`, the buffered
bytes `buf[start:end]`, the sticky error and the last token. -/
structure Scanner where
  rd : Reader
  start : Nat
  pending : Bytes
  err : Option Err
  token : Bytes
  deriving DecidableEq, Repr

/-- `setErr`: records the error unless another one (not `io.EOF`) is recorded. -/
def Scanner.setErr (s : Scanner) (e : Err) : Scanner :=
  if s.err = none ∨ s.err = some Err.EOF then { s with err := some e } else s

/-- `Scanner.Err()`: the recorded error, with `io.EOF` reported as nil. -/
def Scanner.Err (s : Scanner) : Option Err :=
  if s.err = some Err.EOF then none else s.err

/-- One pass of the scanner loop either ends the call to `Scan` or goes on. -/
inductive Step where
  | done (ok : Bool) (s : Scanner)
  | more (s : Scanner)

/-- First half of the loop body of `Scan`: if bytes are buffered or an error is
recorded, the split function of `serve` runs on `buf[start:end]` with
`atEOF = (s.err != nil)`. -/
def Scanner.trySplit (s : Scanner) : Step :=
  if s.pending ≠ [] ∨ s.err ≠ none then
    if 0 ≤ indexPipe s.pending then
      let i := (indexPipe s.pending).toNat
      Step.done true { s with start := s.start + (i + 1), pending := s.pending.drop (i + 1),
                              token := s.pending.take i }
    else if s.err ≠ none then
      Step.done false (s.setErr Err.ErrUnexpectedEOF)
    else
      Step.more { s with token := [] }
  else
    Step.more s

/-- The inner loop of `Scan` that calls `Read(buf[end:len(buf)])` until it gets
bytes or an error; `k` is the number of empty reads still allowed, starting at
`maxConsecutiveEmptyReads + 1 = 101`. -/
def fillLoop (space : Nat) : Nat → Reader → Bytes × Option Err × Reader
  | 0, r => ([], some Err.ErrNoProgress, r)
  | k + 1, r =>
    match r.read space with
    | (d, some e, r1) => (d, some e, r1)
    | (d, none, r1) => if 0 < d.length then (d, none, r1) else fillLoop space k r1

/-- The index `start` after the step "shift data to beginning of buffer if
there's lots of empty space or space is needed". -/
def Scanner.shiftStart (s : Scanner) : Nat :=
  if 0 < s.start ∧ (s.start + s.pending.length = bufSize ∨ bufSize / 2 < s.start) then 0
  else s.start

/-- Second half of the loop body of `Scan`: stop on a recorded error, move the
buffered bytes to the front when that is needed, fail with `ErrTooLong` when the
buffer is full, otherwise read more input. -/
def Scanner.readMore (s : Scanner) : Step :=
  if s.err ≠ none then
    Step.done false { s with start := 0, pending := [] }
  else if s.shiftStart + s.pending.length = bufSize then
    Step.done false ({ s with start := s.shiftStart }.setErr Err.ErrTooLong)
  else
    match fillLoop (bufSize - (s.shiftStart + s.pending.length)) 101 s.rd with
    | (d, some e, r1) =>
      Step.more ({ s with rd := r1, start := s.shiftStart, pending := s.pending ++ d }.setErr e)
    | (d, none, r1) =>
      Step.more { s with rd := r1, start := s.shiftStart, pending := s.pending ++ d }

/-- The `for` loop of `Scan`, bounded by `fuel` passes. -/
def Scanner.scanLoop : Nat → Scanner → Option (Bool × Scanner)
  | 0, _ => none
  | fuel + 1, s =>
    match s.trySplit with
    | Step.done ok s1 => some (ok, s1)
    | Step.more s0 =>
      match s0.readMore with
      | Step.done ok s1 => some (ok, s1)
      | Step.more s1 => scanLoop fuel s1

/-- Bytes and answers a reader still holds; every pass of the scanner loop that
goes on lowers it or records an error. -/
def Reader.size (r : Reader) : Nat := (r.map fun ev => ev.data.length + 1).sum

/-- All bytes a reader will deliver, in order. -/
def Reader.bytes (r : Reader) : Bytes := r.flatMap fun ev => ev.data

/-- The input the scanner has not yet turned into tokens: the buffered bytes
followed by what the reader still holds. -/
def Scanner.stream (s : Scanner) : Bytes := s.pending ++ Reader.bytes s.rd

/-- `r.Scan()`; the fuel is enough for the call to return (`Scan_returns`). -/
def Scanner.Scan (s : Scanner) : Option (Bool × Scanner) :=
  Scanner.scanLoop (Reader.size s.rd + 2) s

/-- The byte stream made of the tokens `ts`, each followed by the delimiter `|`,
and then `rest`. -/
def frame (ts : List Bytes) (rest : Bytes) : Bytes :=
  ts.foldr (fun t acc => t ++ 124 :: acc) rest

/-- A scanner between two calls of `Scan` on a well-behaved transport: no error
recorded, the buffered bytes fit the buffer, and every answer the reader still
holds is a non-empty chunk with a nil error. -/
def Scanner.Ready (s : Scanner) : Prop :=
  s.err = none ∧ s.start + s.pending.length ≤ bufSize ∧
    ∀ ev ∈ s.rd, ev.err = none ∧ ev.data ≠ []

/-! #### Server: `serve` -/

/-- How a call ended: it returned an error value (`none` is nil) or panicked. -/
inductive Ret where
  | returned (e : Option Err)
  | panicked
  deriving DecidableEq, Repr

/-- What `serve` did: how it ended, the bytes it passed to `c.Write`, the
arguments of its calls of `RegisterHub` in order, and the scanner as it left it
(`none` before the scanner exists). -/
structure ServeResult where
  ret : Ret
  wrote : Option Bytes
  calls : List Info
  sc : Option Scanner
  deriving DecidableEq, Repr

/-- The closure `readStringRaw`: the token text and the error returned. -/
def readStringRaw (r : Scanner) : Option (Bytes × Option Err × Scanner) :=
  match r.Scan with
  | none => none
  | some (false, r1) => some ([], r1.Err, r1)
  | some (true, r1) => some (r1.token, none, r1)

/-- The closure `readString`: `readStringRaw`, then `nmdc.Unescape`. -/
def readString {L : Type} (nm : Nmdc L) (r : Scanner) : Option (Bytes × Option Err × Scanner) :=
  match readStringRaw r with
  | none => none
  | some (_, some e, r1) => some ([], some e, r1)
  | some (s, none, r1) => some (nm.Unescape s, none, r1)

/-- The part of `serve` after the key was accepted: read the five fields, parse
the two numbers and call `RegisterHub`. -/
def serveFields {L : Type} (nm : Nmdc L) (RegisterHub : Info → Option Err) (msg : Bytes)
    (r : Scanner) : Option ServeResult :=
  match readString nm r with
  | none => none
  | some (_, some e, r1) => some ⟨Ret.returned (some e), some msg, [], some r1⟩
  | some (name, none, r1) =>
  match readStringRaw r1 with
  | none => none
  | some (_, some e, r2) => some ⟨Ret.returned (some e), some msg, [], some r2⟩
  | some (host, none, r2) =>
  match readString nm r2 with
  | none => none
  | some (_, some e, r3) => some ⟨Ret.returned (some e), some msg, [], some r3⟩
  | some (desc, none, r3) =>
  match readStringRaw r3 with
  | none => none
  | some (_, some e, r4) => some ⟨Ret.returned (some e), some msg, [], some r4⟩
  | some (s4, none, r4) =>
  match Strconv.Atoi s4 with
  | none => some ⟨Ret.returned (some (Err.strconvErr s4)), some msg, [], some r4⟩
  | some users =>
  match readStringRaw r4 with
  | none => none
  | some (_, some e, r5) => some ⟨Ret.returned (some e), some msg, [], some r5⟩
  | some (s5, none, r5) =>
  match Strconv.ParseUint s5 with
  | none => some ⟨Ret.returned (some (Err.strconvErr s5)), some msg, [], some r5⟩
  | some share =>
    let info : Info := { Name := name, Host := host, Desc := desc, Users := users, Share := share }
    some ⟨Ret.returned (RegisterHub info), some msg, [info], some r5⟩

/-- The lock `serve` sends: `&nmdc.Lock{Lock: "hubAutoReg", PK: version.Name + " " + version.Vers}`. -/
def serverLock {L : Type} (nm : Nmdc L) : L :=
  nm.newLock (str "hubAutoReg") (nm.versionName ++ [32] ++ nm.versionVers)

/-- `(*Server).serve(c)` with the registry `s.r` given by `RegisterHub`; `none`
only if a `Scan` ran out of fuel.  The deferred `c.Close()` runs on every path. -/
def serve {L : Type} (nm : Nmdc L) (RegisterHub : Info → Option Err) (c : Conn) :
    Option ServeResult :=
  match nm.lockMarshal (serverLock nm) with
  | .error e => some ⟨Ret.returned (some e), none, [], none⟩
  | .ok data =>
    -- `i := copy(b, "$Lock "); i += copy(b[i:], data); b[i] = '|'`
    let i := 6 + min data.length (bufSize - 6)
    if bufSize ≤ i then some ⟨Ret.panicked, none, [], none⟩
    else
      let msg := str "$Lock " ++ data.take (bufSize - 6) ++ [124]
      match c.writeErr with
      | some e => some ⟨Ret.returned (some e), some msg, [], none⟩
      | none =>
        match Scanner.Scan { rd := c.rd, start := 0, pending := [], err := none, token := [] } with
        | none => none
        | some (false, r1) => some ⟨Ret.returned r1.Err, some msg, [], some r1⟩
        | some (true, r1) =>
          if ¬ (str "$Key ") <+: r1.token then
            some ⟨Ret.returned (some Err.expectedKey), some msg, [], some r1⟩
          else
            match nm.keyUnmarshal (r1.token.drop 5) with
            | .error e => some ⟨Ret.returned (some e), some msg, [], some r1⟩
            | .ok key =>
              if (nm.lockKey (serverLock nm)).Key ≠ key.Key then
                some ⟨Ret.returned (some Err.wrongKey), some msg, [], some r1⟩
              else serveFields nm RegisterHub msg r1

/-! #### A concrete stand-in for the collaborators -/

/-- Modelled from the spec: `nmdc.Unescape` is not among the source files; this
is the replacer that the registration exchange needs from it, turning every
`&#124;` back into `|` and copying all other bytes. -/
def unescapePipe : Bytes → Bytes
  | 38 :: 35 :: 49 :: 50 :: 52 :: 59 :: rest => 124 :: unescapePipe rest
  | b :: rest => b :: unescapePipe rest
  | [] => []

/-- Modelled from the spec: a deterministic stand-in for package `nmdc` and the
`version` constants, which are not among the source files.  A lock is the pair
of challenge and party key, written as `<challenge> Pk=<party-key>`; the key
derivation is a fixed function of the challenge; a key is written verbatim.  It
is used to run `registerOn` and `serve` on concrete inputs. -/
def stubNmdc : Nmdc (Bytes × Bytes) where
  newLock := fun lock pk => (lock, pk)
  lockMarshal := fun l => .ok (l.1 ++ str " Pk=" ++ l.2)
  lockUnmarshal := fun d => .ok (d.takeWhile (fun b => b != 32), (d.dropWhile (fun b => b != 32)).drop 4)
  lockKey := fun l => { Key := l.1.reverse }
  keyMarshal := fun k => .ok k.Key
  keyUnmarshal := fun d => .ok { Key := d }
  Unescape := unescapePipe
  versionName := str "go-dcpp"
  versionVers := str "0.1"

end Autoreg

/-! ## Part 2: lemmas and theorems -/

namespace Strconv

theorem fmtDigits_mem (fuel : Nat) : ∀ (n : Nat) (acc : Bytes) (b : Nat),
    b ∈ fmtDigits fuel n acc → b ∈ acc ∨ (48 ≤ b ∧ b ≤ 57) := by
  induction fuel with
  | zero => intro n acc b h; exact Or.inl h
  | succ fuel ih =>
    intro n acc b h
    simp only [fmtDigits] at h
    split at h
    · rcases List.mem_cons.mp h with h1 | h1
      · right; omega
      · exact Or.inl h1
    · rcases ih _ _ _ h with h1 | h1
      · rcases List.mem_cons.mp h1 with h2 | h2
        · right; omega
        · exact Or.inl h2
      · exact Or.inr h1

theorem fmtDigits_ne_nil (fuel : Nat) : ∀ (n : Nat) (acc : Bytes),
    (0 < fuel ∨ acc ≠ []) → fmtDigits fuel n acc ≠ [] := by
  induction fuel with
  | zero => intro n acc h; rcases h with h | h; · omega
            exact h
  | succ fuel ih =>
    intro n acc _
    simp only [fmtDigits]
    split
    · simp
    · exact ih _ _ (Or.inr (by simp))

theorem FormatUint_digits (n b : Nat) (h : b ∈ FormatUint n) : 48 ≤ b ∧ b ≤ 57 := by
  rcases fmtDigits_mem 20 n [] b h with h1 | h1
  · simp at h1
  · exact h1

theorem FormatUint_ne_nil (n : Nat) : FormatUint n ≠ [] :=
  fmtDigits_ne_nil 20 n [] (Or.inl (by omega))

theorem parseDigits_fmtDigits (fuel : Nat) : ∀ (n : Nat) (acc : Bytes),
    n < 10 ^ fuel → n < 2 ^ 64 →
    parseDigits (fmtDigits fuel n acc) 0 = parseDigits acc n := by
  induction fuel with
  | zero =>
    intro n acc h _
    have : n = 0 := by simpa using h
    subst this
    rfl
  | succ fuel ih =>
    intro n acc h h64
    simp only [fmtDigits]
    split
    · rename_i hlt
      have h1 : 48 ≤ 48 + n ∧ 48 + n ≤ 57 := by omega
      have h2 : 0 * 10 + (48 + n - 48) = n := by omega
      simp only [parseDigits, h1, and_self, if_true, h2, h64]
    · rename_i hge
      have hdiv : n / 10 < 10 ^ fuel := by
        rw [Nat.div_lt_iff_lt_mul (by omega)]
        rw [pow_succ] at h
        exact h
      rw [ih (n / 10) _ hdiv (by omega)]
      have h1 : 48 ≤ 48 + n % 10 ∧ 48 + n % 10 ≤ 57 := by omega
      have h2 : n / 10 * 10 + (48 + n % 10 - 48) = n := by omega
      simp only [parseDigits, h1, and_self, if_true, h2, h64]

theorem ParseUint_FormatUint (n : Nat) (h : n < 2 ^ 64) : ParseUint (FormatUint n) = some n := by
  have h20 : n < 10 ^ 20 := by
    have : (2 : Nat) ^ 64 < 10 ^ 20 := by norm_num
    omega
  simp only [ParseUint, FormatUint_ne_nil, if_false]
  rw [FormatUint, parseDigits_fmtDigits 20 n [] h20 h]
  rfl

theorem ParseInt_FormatInt (i : Int) (hlo : -(2 ^ 63) ≤ i) (hhi : i < 2 ^ 63) :
    ParseInt (FormatInt i) = some i := by
  by_cases hneg : i < 0
  · have hn : i.natAbs < 2 ^ 64 := by omega
    have hle : ¬ (2 ^ 63 < i.natAbs) := by omega
    simp only [FormatInt, hneg, if_true, ParseInt, or_true, ParseUint_FormatUint _ hn]
    simp only [decide_True, Bool.not_true, Bool.false_and, Bool.true_and, hle, decide_False,
      if_false, if_true, Bool.false_eq_true]
    congr 1
    omega
  · have hn : i.toNat < 2 ^ 64 := by omega
    have hlt : ¬ (2 ^ 63 ≤ i.toNat) := by omega
    simp only [FormatInt, hneg, if_false]
    obtain ⟨c, rest, hcr⟩ : ∃ c rest, FormatUint i.toNat = c :: rest :=
      List.exists_cons_of_ne_nil (FormatUint_ne_nil _)
    have hc := FormatUint_digits i.toNat c (by rw [hcr]; exact List.mem_cons_self _ _)
    have h45 : ¬ (c = 45) := by omega
    have hpu := ParseUint_FormatUint _ hn
    rw [hcr] at hpu
    rw [hcr]
    have h43b : ¬ (c = 43 ∨ False) := by
      intro h
      rcases h with h | h
      · omega
      · exact h
    simp only [ParseInt, h45, h43b, if_false, hpu, decide_False, hlt, Bool.not_false,
      Bool.true_and, Bool.false_and, Bool.false_eq_true]
    congr 1
    omega

theorem Atoi_Itoa (i : Int) (hlo : -(2 ^ 63) ≤ i) (hhi : i < 2 ^ 63) :
    Atoi (Itoa i) = some i :=
  ParseInt_FormatInt i hlo hhi

theorem FormatInt_bytes (i : Int) (b : Nat) (h : b ∈ FormatInt i) :
    b = 45 ∨ (48 ≤ b ∧ b ≤ 57) := by
  simp only [FormatInt] at h
  split at h
  · rcases List.mem_cons.mp h with h1 | h1
    · exact Or.inl h1
    · exact Or.inr (FormatUint_digits _ _ h1)
  · exact Or.inr (FormatUint_digits _ _ h)

theorem fmtDigits_length (fuel : Nat) : ∀ (n : Nat) (acc : Bytes),
    (fmtDigits fuel n acc).length ≤ fuel + acc.length := by
  induction fuel with
  | zero => intro n acc; simp [fmtDigits]
  | succ fuel ih =>
    intro n acc
    simp only [fmtDigits]
    split
    · simp only [List.length_cons]; omega
    · have := ih (n / 10) ((48 + n % 10) :: acc)
      simp only [List.length_cons] at this
      omega

theorem FormatUint_length (n : Nat) : (FormatUint n).length ≤ 20 := by
  have := fmtDigits_length 20 n []
  simpa [FormatUint] using this

theorem FormatInt_length (i : Int) : (FormatInt i).length ≤ 21 := by
  simp only [FormatInt]
  split
  · have := FormatUint_length i.natAbs
    simp only [List.length_cons]; omega
  · have := FormatUint_length i.toNat
    omega

theorem FormatInt_ne_nil (i : Int) : FormatInt i ≠ [] := by
  simp only [FormatInt]
  split
  · simp
  · exact FormatUint_ne_nil _

end Strconv

namespace Adc

theorem unescape_cons_of_ne (a : Nat) (l : Bytes) (h : a ≠ 92) :
    unescape (a :: l) = a :: unescape l := by
  cases l with
  | nil => simp [unescape]
  | cons b rest => simp [unescape, h]

theorem unescape_escape (s : Bytes) : unescape (escape s) = s := by
  induction s with
  | nil => simp [escape, unescape]
  | cons b rest ih =>
    by_cases h1 : b = 92
    · subst h1; simp [escape, unescape, ih]
    · by_cases h2 : b = 32
      · subst h2; simp [escape, unescape, ih]
      · by_cases h3 : b = 10
        · subst h3; simp [escape, unescape, ih]
        · simp only [escape, h1, h2, h3, if_false]
          rw [List.singleton_append, unescape_cons_of_ne _ _ h1, ih]

/-- C2: for every string `s` that does not contain the delimiter `|` (it may
contain backslashes, spaces and newlines), `unescape (escape s) = s`.  (The
hypothesis is the claim's; the proof does not use it.) -/
theorem escape_roundtrip (s : Bytes) (_h : 124 ∉ s) : unescape (escape s) = s :=
  unescape_escape s

theorem escape_roundtrip_witness :
    124 ∉ str "a b\\c\nd\\s" ∧ unescape (escape (str "a b\\c\nd\\s")) = str "a b\\c\nd\\s" :=
  ⟨by decide, escape_roundtrip (str "a b\\c\nd\\s") (by decide)⟩

theorem escape_no_space (s : Bytes) : 32 ∉ escape s ∧ 10 ∉ escape s := by
  induction s with
  | nil => simp [escape]
  | cons b rest ih =>
    simp only [escape]
    split
    · simp [ih.1, ih.2]
    · split
      · simp [ih.1, ih.2]
      · split
        · simp [ih.1, ih.2]
        · rename_i h1 h2 h3
          simp only [List.singleton_append, List.mem_cons, not_or]
          exact ⟨⟨fun h => h2 h.symm, ih.1⟩, ⟨fun h => h3 h.symm, ih.2⟩⟩

theorem FormatInt_no_space (i : Int) : 32 ∉ Strconv.FormatInt i := by
  intro h
  have := Strconv.FormatInt_bytes i 32 h
  omega

theorem marshalValue_no_space (cd : Codec)
    (hcd : ∀ id p b, cd.MarshalAdc id p = .ok b → 32 ∉ b) :
    ∀ (v : Val) (sv : Bytes), marshalValue cd v = Res.ok sv → 32 ∉ sv := by
  intro v
  induction v with
  | str s => intro sv h; simp only [marshalValue, Res.ok.injEq] at h; subst h
             exact (escape_no_space s).1
  | int i => intro sv h; simp only [marshalValue, Res.ok.injEq] at h; subst h
             exact FormatInt_no_space i
  | int64 i => intro sv h; simp only [marshalValue, Res.ok.injEq] at h; subst h
               exact FormatInt_no_space i
  | bool b => intro sv h; simp [marshalValue] at h
  | uint64 n => intro sv h; simp [marshalValue] at h
  | custom id p =>
    intro sv h
    simp only [marshalValue] at h
    cases hm : cd.MarshalAdc id p with
    | error e => rw [hm] at h; simp at h
    | ok b => rw [hm] at h; simp only [Res.ok.injEq] at h; subst h; exact hcd id p b hm
  | ptrNil e =>
    intro sv h
    cases e <;> simp [marshalValue] at h <;> subst h <;> simp
  | ptrTo w ih =>
    intro sv h
    cases w with
    | custom id p =>
      simp only [marshalValue] at h
      cases hm : cd.MarshalAdc id p with
      | error e => rw [hm] at h; simp at h
      | ok b => rw [hm] at h; simp only [Res.ok.injEq] at h; subst h; exact hcd id p b hm
    | str s => exact ih sv (by simpa [marshalValue] using h)
    | int i => exact ih sv (by simpa [marshalValue] using h)
    | int64 i => exact ih sv (by simpa [marshalValue] using h)
    | bool b => simp [marshalValue] at h
    | uint64 n => simp [marshalValue] at h
    | ptrNil e => exact ih sv (by simpa [marshalValue] using h)
    | ptrTo u => exact ih sv (by simpa [marshalValue] using h)

theorem marshalFields_append (cd : Codec) (a b : List Field) : ∀ (st : WState),
    marshalFields cd (a ++ b) st =
      match marshalFields cd a st with
      | Res.ok st1 => marshalFields cd b st1
      | Res.error e => Res.error e
      | Res.panic => Res.panic := by
  induction a with
  | nil => intro st; simp [marshalFields]
  | cons f fs ih =>
    intro st
    simp only [List.cons_append, marshalFields]
    cases marshalField cd f st with
    | ok st1 => exact ih st1
    | error e => rfl
    | panic => rfl

theorem marshalField_zero (cd : Codec) (f : Field) (st : WState)
    (h3 : f.tag ≠ str "#") (hz : isZero cd (!f.exported) f.val = some true) :
    marshalField cd f st = Res.ok st := by
  simp only [marshalField]
  split
  · rfl
  · simp [h3, hz]

theorem marshalField_positional (cd : Codec) (f : Field) (st st1 : WState)
    (h : f.tag = str "#") (hok : marshalField cd f st = Res.ok st1) :
    ∃ v sv, f.val = FieldVal.one v ∧ marshalValue cd v = Res.ok sv ∧
      st1 = { buf := st.buf ++ (if st.first then [] else [32]) ++ sv, first := false } := by
  have h1 : ¬ (str "#" = [] ∨ str "#" = str "-") := by decide
  simp only [marshalField, h, h1, if_false, ne_eq, not_true_eq_false] at hok
  cases hex : f.exported with
  | false => rw [hex] at hok; simp at hok
  | true =>
  rw [hex] at hok
  simp only [Bool.true_eq_false, if_false] at hok
  cases hv : f.val with
  | one v =>
    rw [hv] at hok
    simp only at hok
    cases hm : marshalValue cd v with
    | ok sv =>
      rw [hm] at hok
      simp only [Res.ok.injEq] at hok
      exact ⟨v, sv, rfl, hm, by rw [← hok]; simp [writeItem]⟩
    | error e => rw [hm] at hok; simp at hok
    | panic => rw [hm] at hok; simp at hok
  | sliceNil e => rw [hv] at hok; simp at hok
  | slice e vs => rw [hv] at hok; simp at hok

/-- C3 (code evaluated at the failing input): for a struct with two positional
fields and the line `a`, whose token list has one token, `Unmarshal` decodes the
first field and then indexes `sub[0]` on the empty list: the call panics instead
of returning an error. -/
theorem Unmarshal_missing_positional_panics :
    Unmarshal noCodec (str "a")
        [⟨"A", true, str "#", FieldVal.one (Val.str [])⟩, ⟨"B", true, str "#", FieldVal.one (Val.str [])⟩] =
      ([⟨"A", true, str "#", FieldVal.one (Val.str (str "a"))⟩,
        ⟨"B", true, str "#", FieldVal.one (Val.str [])⟩], Outcome.panic) := by
  decide

theorem isZero_some (cd : Codec) (ro : Bool) (fv : FieldVal) (b : Bool)
    (h : isZero cd ro fv = some b) : b = holdsZero cd fv := by
  cases fv with
  | sliceNil e => simp [isZero] at h; simp [holdsZero, h]
  | slice e vs => simp [isZero] at h; simp [holdsZero, h]
  | one v =>
    cases v with
    | custom id p =>
      simp only [isZero] at h
      cases hz : cd.zeroKind id with
      | uncomparable => rw [hz] at h; simp at h
      | isNil => rw [hz] at h; simp at h; simp [holdsZero, zeroOf, typeOf, h]
      | equal =>
        rw [hz] at h
        cases ro <;> simp at h
        simp [holdsZero, zeroOf, typeOf, h]
    | ptrNil e => simp [isZero] at h; simp [holdsZero, zeroOf, typeOf, h]
    | ptrTo w => simp [isZero] at h; simp [holdsZero, zeroOf, typeOf, h]
    | _ =>
      cases ro <;> simp only [isZero, if_true, if_false, Bool.false_eq_true, reduceCtorEq,
        Option.some.injEq] at h
      simp only [holdsZero, h]

theorem isZero_exported (cd : Codec) (f : Field) (hex : f.exported = true)
    (hk : ∀ id p, f.val = FieldVal.one (Val.custom id p) →
      cd.zeroKind id ≠ ZeroKind.uncomparable) :
    isZero cd (!f.exported) f.val = some (holdsZero cd f.val) := by
  cases hv : f.val with
  | sliceNil e => simp [isZero, holdsZero]
  | slice e vs => simp [isZero, holdsZero]
  | one v =>
    cases v with
    | custom id p =>
      have := hk id p hv
      cases hz : cd.zeroKind id with
      | uncomparable => exact absurd hz this
      | isNil => simp [isZero, holdsZero, hz, hex, zeroOf, typeOf]
      | equal => simp [isZero, holdsZero, hz, hex, zeroOf, typeOf]
    | _ => simp [isZero, holdsZero, hex, zeroOf, typeOf]

/-- C6 (amended): a prefixed field for which `isZero` returns true adds nothing
to the output of `Marshal`: the result is that of the struct without the field.
For an exported field whose type `==` can compare, `isZero` returns, and it
returns true exactly when the field holds its type's zero value (`holdsZero`:
empty string, 0, nil pointer, nil slice, zero custom value).  A positional field adds exactly one item on every
successful `Marshal`: the encoding `sv` of its value, written once after the
separator.  `sv` contains no space as long as the custom codecs emit none, so it
is one token of the line. -/
theorem Marshal_zero_omission (cd : Codec) (pre post : List Field) (f : Field) :
    (f.tag ≠ str "#" → isZero cd (!f.exported) f.val = some true →
        Marshal cd (pre ++ f :: post) = Marshal cd (pre ++ post)) ∧
    (f.exported = true →
      (∀ id p, f.val = FieldVal.one (Val.custom id p) →
        cd.zeroKind id ≠ ZeroKind.uncomparable) →
      isZero cd (!f.exported) f.val = some (holdsZero cd f.val)) ∧
    (f.tag = str "#" → ∀ out, Marshal cd (pre ++ f :: post) = Res.ok out →
        ∃ st v sv st2, marshalFields cd pre { buf := [], first := true } = Res.ok st ∧
          f.val = FieldVal.one v ∧ marshalValue cd v = Res.ok sv ∧
          marshalFields cd post
            { buf := st.buf ++ (if st.first then [] else [32]) ++ sv, first := false } = Res.ok st2 ∧
          out = st2.buf ∧
          ((∀ id p b, cd.MarshalAdc id p = .ok b → 32 ∉ b) → 32 ∉ sv)) := by
  refine ⟨?_, isZero_exported cd f, ?_⟩
  · intro h3 hz
    simp only [Marshal, marshalFields_append]
    cases marshalFields cd pre { buf := [], first := true } with
    | ok st => simp only [marshalFields, marshalField_zero cd f st h3 hz]
    | error e => rfl
    | panic => rfl
  · intro htag out hout
    simp only [Marshal, marshalFields_append] at hout
    cases hpre : marshalFields cd pre { buf := [], first := true } with
    | error e => rw [hpre] at hout; simp at hout
    | panic => rw [hpre] at hout; simp at hout
    | ok st =>
      rw [hpre] at hout
      simp only [marshalFields] at hout
      cases hf : marshalField cd f st with
      | error e => rw [hf] at hout; simp at hout
      | panic => rw [hf] at hout; simp at hout
      | ok st1 =>
        rw [hf] at hout
        simp only at hout
        obtain ⟨v, sv, hv, hm, hst1⟩ := marshalField_positional cd f st st1 htag hf
        cases hpost : marshalFields cd post st1 with
        | error e => rw [hpost] at hout; simp at hout
        | panic => rw [hpost] at hout; simp at hout
        | ok st2 =>
          rw [hpost] at hout
          simp only [Res.ok.injEq] at hout
          refine ⟨st, v, sv, st2, rfl, hv, hm, ?_, hout.symm, ?_⟩
          · rw [← hst1]; exact hpost
          · intro hcd
            exact marshalValue_no_space cd hcd v sv hm

theorem Marshal_zero_omission_witness :
    ((⟨"N", true, str "NI", FieldVal.one (Val.str [])⟩ : Field).tag ≠ str "#" ∧
      isZero noCodec (!(⟨"N", true, str "NI", FieldVal.one (Val.str [])⟩ : Field).exported)
        (⟨"N", true, str "NI", FieldVal.one (Val.str [])⟩ : Field).val = some true ∧
      Marshal noCodec ([⟨"A", true, str "#", FieldVal.one (Val.str (str "a b"))⟩] ++
          ⟨"N", true, str "NI", FieldVal.one (Val.str [])⟩ ::
            [⟨"C", true, str "CC", FieldVal.one (Val.int 7)⟩]) =
        Marshal noCodec ([⟨"A", true, str "#", FieldVal.one (Val.str (str "a b"))⟩] ++
          [⟨"C", true, str "CC", FieldVal.one (Val.int 7)⟩])) ∧
    isZero noCodec (!(⟨"N", true, str "NI", FieldVal.one (Val.int 3)⟩ : Field).exported)
        (⟨"N", true, str "NI", FieldVal.one (Val.int 3)⟩ : Field).val =
      some (holdsZero noCodec (⟨"N", true, str "NI", FieldVal.one (Val.int 3)⟩ : Field).val) ∧
    ((⟨"B", true, str "#", FieldVal.one (Val.int 0)⟩ : Field).tag = str "#" ∧
      Marshal noCodec ([⟨"A", true, str "#", FieldVal.one (Val.str (str "a b"))⟩] ++
          ⟨"B", true, str "#", FieldVal.one (Val.int 0)⟩ ::
            [⟨"C", true, str "CC", FieldVal.one (Val.int 7)⟩]) =
        Res.ok (str "a\\sb 0 CC7") ∧
      ∃ st v sv st2,
        marshalFields noCodec [⟨"A", true, str "#", FieldVal.one (Val.str (str "a b"))⟩]
          { buf := [], first := true } = Res.ok st ∧
        (⟨"B", true, str "#", FieldVal.one (Val.int 0)⟩ : Field).val = FieldVal.one v ∧
        marshalValue noCodec v = Res.ok sv ∧
        marshalFields noCodec [⟨"C", true, str "CC", FieldVal.one (Val.int 7)⟩]
          { buf := st.buf ++ (if st.first then [] else [32]) ++ sv, first := false } = Res.ok st2 ∧
        str "a\\sb 0 CC7" = st2.buf ∧
        ((∀ id p b, noCodec.MarshalAdc id p = .ok b → 32 ∉ b) → 32 ∉ sv)) :=
  ⟨⟨by decide, by decide,
     (Marshal_zero_omission noCodec [⟨"A", true, str "#", FieldVal.one (Val.str (str "a b"))⟩]
        [⟨"C", true, str "CC", FieldVal.one (Val.int 7)⟩]
        ⟨"N", true, str "NI", FieldVal.one (Val.str [])⟩).1 (by decide) (by decide)⟩,
   (Marshal_zero_omission noCodec [] [] ⟨"N", true, str "NI", FieldVal.one (Val.int 3)⟩).2.1
      rfl (fun _ _ h => by simp at h),
   ⟨by decide, by decide,
     (Marshal_zero_omission noCodec [⟨"A", true, str "#", FieldVal.one (Val.str (str "a b"))⟩]
        [⟨"C", true, str "CC", FieldVal.one (Val.int 7)⟩]
        ⟨"B", true, str "#", FieldVal.one (Val.int 0)⟩).2.2 (by decide) _ (by decide)⟩⟩

/-- C6 (counterexample): an unexported prefixed `int` field holding 0.  `Marshal`
panics in `isZero` (`v.Interface()` on a value from an unexported field) where
the struct without the field gives the line `a`; and an unexported positional
field makes `Marshal` panic instead of writing one token. -/
theorem Marshal_unexported_zero_panics :
    Marshal noCodec [⟨"A", true, str "#", FieldVal.one (Val.str (str "a"))⟩,
        ⟨"n", false, str "NI", FieldVal.one (Val.int 0)⟩] = Res.panic ∧
    Marshal noCodec [⟨"A", true, str "#", FieldVal.one (Val.str (str "a"))⟩] =
      Res.ok (str "a") ∧
    Marshal noCodec [⟨"b", false, str "#", FieldVal.one (Val.int 0)⟩] = Res.panic := by
  decide

/-! ### Round trip of `Marshal` and `Unmarshal` -/

theorem typeOf_zeroOf (cd : Codec) (t : Ty) : typeOf (zeroOf cd t) = t := by
  cases t <;> rfl

theorem escape_eq_nil (s : Bytes) (h : escape s = []) : s = [] := by
  cases s with
  | nil => rfl
  | cons b rest =>
    simp only [escape] at h
    split at h
    · simp at h
    · split at h
      · simp at h
      · split at h <;> simp at h

theorem marshalValue_ptrTo (cd : Codec) (w : Val) :
    marshalValue cd (Val.ptrTo w) = marshalValue cd w := by
  cases w <;> rfl

/-- A canonical value is encoded without error into bytes without a space, and
decoding these bytes into the zero value of its type gives the value back. -/
theorem value_roundtrip (cd : Codec) : ∀ (v : Val), Val.canonical cd v = true →
    ∃ b, marshalValue cd v = Res.ok b ∧ 32 ∉ b ∧
      unmarshalTy cd b (typeOf v) (zeroOf cd (typeOf v)) = (v, none) := by
  intro v
  induction v with
  | str s =>
    intro _
    refine ⟨escape s, rfl, (escape_no_space s).1, ?_⟩
    simp only [typeOf, unmarshalTy]
    split
    · rename_i h
      rw [escape_eq_nil s h]
    · rw [unescape_escape]
  | int i =>
    intro h
    simp only [Val.canonical, decide_eq_true_eq] at h
    refine ⟨Strconv.Itoa i, rfl, FormatInt_no_space i, ?_⟩
    simp only [typeOf, unmarshalTy, Strconv.Itoa, Strconv.FormatInt_ne_nil, if_false,
      Strconv.Atoi, Strconv.ParseInt_FormatInt i h.1 h.2]
  | int64 i =>
    intro h
    simp only [Val.canonical, decide_eq_true_eq] at h
    refine ⟨Strconv.FormatInt i, rfl, FormatInt_no_space i, ?_⟩
    simp only [typeOf, unmarshalTy, Strconv.FormatInt_ne_nil, if_false,
      Strconv.ParseInt_FormatInt i h.1 h.2]
  | bool b => intro h; simp [Val.canonical] at h
  | uint64 n => intro h; simp [Val.canonical] at h
  | custom id p => intro h; simp [Val.canonical] at h
  | ptrNil e =>
    intro h
    simp only [Val.canonical] at h
    refine ⟨[], ?_, by simp, ?_⟩
    · cases e <;> first | rfl | simp [Ty.plain] at h
    · simp [typeOf, unmarshalTy]
  | ptrTo w ih =>
    intro h
    simp only [Val.canonical, Bool.and_eq_true, decide_eq_true_eq] at h
    obtain ⟨b, hb, hsp, hrt⟩ := ih h.1
    refine ⟨b, by rw [marshalValue_ptrTo cd w, hb], hsp, ?_⟩
    have hne : b ≠ [] := by
      intro h0
      rw [h0] at hb
      exact h.2 hb
    simp only [typeOf, unmarshalTy, hne, if_false, hrt]

theorem writeAll_append (st : WState) (a b : List Bytes) :
    writeAll st (a ++ b) = writeAll (writeAll st a) b := by
  induction a generalizing st with
  | nil => rfl
  | cons t ts ih => simp only [List.cons_append, writeAll]; exact ih _

theorem writeAll_buf (toks : List Bytes) (st : WState) (hf : st.first = false) :
    (writeAll st toks).buf = st.buf ++ (toks.map fun t => 32 :: t).flatten ∧
      (writeAll st toks).first = false := by
  induction toks generalizing st with
  | nil => simp [writeAll, hf]
  | cons t ts ih =>
    simp only [writeAll, hf]
    obtain ⟨h1, h2⟩ := ih { buf := st.buf ++ [32] ++ t, first := false } rfl
    simp only [Bool.false_eq_true, if_false]
    rw [h1]
    exact ⟨by simp, h2⟩

theorem writeAll_init (toks : List Bytes) :
    (writeAll { buf := [], first := true } toks).buf = [32].intercalate toks := by
  cases toks with
  | nil => rfl
  | cons t ts =>
    simp only [writeAll, if_true, List.nil_append, List.append_nil]
    rw [(writeAll_buf ts { buf := t, first := false } rfl).1]
    simp only [List.intercalate, List.intersperse]
    induction ts generalizing t with
    | nil => simp
    | cons u us ih =>
      simp only [List.map_cons, List.flatten_cons, List.intersperse_cons_cons]
      have := ih u
      simp only [List.flatten_cons] at this ⊢
      rw [← this]
      simp

theorem enc_eq (cd : Codec) (v : Val) (b : Bytes) (h : marshalValue cd v = Res.ok b) :
    enc cd v = b := by
  simp [enc, h]

theorem marshalElems_tokens (cd : Codec) (name : String) (tag : Bytes) (htag : tag ≠ str "#") :
    ∀ (vs : List Val) (st : WState), (∀ v ∈ vs, Val.canonical cd v = true) →
    marshalElems cd name tag vs st = Res.ok (writeAll st (vs.map fun v => tag ++ enc cd v)) := by
  intro vs
  induction vs with
  | nil => intro st _; rfl
  | cons v rest ih =>
    intro st h
    obtain ⟨b, hb, _, _⟩ := value_roundtrip cd v (h v (List.mem_cons_self _ _))
    simp only [marshalElems, hb, List.map_cons, writeAll, enc_eq cd v b hb]
    rw [ih _ (fun w hw => h w (List.mem_cons_of_mem _ hw))]
    simp [writeItem, htag]

theorem tag_cases (f : Field) :
    (f.excluded = true ↔ (f.tag = [] ∨ f.tag = str "-")) ∧
    (f.positional = true ↔ f.tag = str "#") ∧
    (f.tagged = true ↔ (¬ (f.tag = [] ∨ f.tag = str "-") ∧ f.tag ≠ str "#")) := by
  simp [Field.excluded, Field.positional, Field.tagged]

theorem excluded_not_positional (f : Field) (h : f.positional = true) : f.excluded = false := by
  have h1 := (tag_cases f).2.1.mp h
  simp only [Field.excluded, h1]
  decide

/-- A field that is excluded, or positional with a canonical single value, or
prefixed with a canonical value. -/
theorem marshalField_tokens (cd : Codec) (f : Field) (st : WState)
    (h : f.excluded = true ∨
      (f.positional = true ∧ ∃ v, f.val = FieldVal.one v ∧ Val.canonical cd v = true) ∨
      (f.tagged = true ∧ FieldVal.canonical cd f.val = true))
    (hex : f.excluded = true ∨ f.exported = true) :
    marshalField cd f st = Res.ok (writeAll st (fieldTokens cd f)) := by
  rcases h with h | ⟨hp, v, hv, hc⟩ | ⟨ht, hc⟩
  · have h1 := (tag_cases f).1.mp h
    simp [marshalField, fieldTokens, h, h1, writeAll]
  · have h1 := (tag_cases f).2.1.mp hp
    have h0 : ¬ (str "#" = [] ∨ str "#" = str "-") := by decide
    have hx : f.exported = true := by
      rcases hex with hex | hex
      · rw [excluded_not_positional f hp] at hex; exact absurd hex (by decide)
      · exact hex
    obtain ⟨b, hb, _, _⟩ := value_roundtrip cd v hc
    simp only [marshalField, fieldTokens, excluded_not_positional f hp, hp, h1, h0, hv, hb,
      enc_eq cd v b hb, writeAll, writeItem, if_true, if_false, ne_eq, not_true_eq_false,
      false_and, Bool.false_eq_true, hx, Bool.true_eq_false]
  · obtain ⟨h1, h2⟩ := (tag_cases f).2.2.mp ht
    have he : f.excluded = false := by
      simp only [Field.tagged, Bool.and_eq_true, Bool.not_eq_true'] at ht
      exact ht.1
    have hpn : f.positional = false := by
      simp only [Field.tagged, Bool.and_eq_true, Bool.not_eq_true'] at ht
      exact ht.2
    have hx : f.exported = true := by
      rcases hex with hex | hex
      · rw [he] at hex; exact absurd hex (by decide)
      · exact hex
    have hiz := isZero_exported cd f hx (fun id p hv => by
      rw [hv] at hc; simp [FieldVal.canonical, Val.canonical] at hc)
    simp only [marshalField, h1, h2, if_false, ne_eq, not_false_eq_true, if_true, hiz]
    by_cases hz : holdsZero cd f.val = true
    · simp [fieldTokens, hz, he, hpn, writeAll]
    · have hz0 : holdsZero cd f.val = false := by simpa using hz
      simp only [fieldTokens, hz0, he, hpn, if_false, Bool.false_eq_true, hx,
        Bool.true_eq_false]
      cases hv : f.val with
      | one v =>
        rw [hv] at hc
        obtain ⟨b, hb, _, _⟩ := value_roundtrip cd v hc
        simp [hb, enc_eq cd v b hb, writeAll, writeItem, h2]
      | sliceNil e => rw [hv] at hz; simp [holdsZero] at hz
      | slice e vs =>
        rw [hv] at hc
        simp only [FieldVal.canonical, Bool.and_eq_true, List.all_eq_true, decide_eq_true_eq] at hc
        simp only
        exact marshalElems_tokens cd f.name f.tag h2 vs st (fun w hw => (hc.2 w hw).1)

theorem marshalFields_tokens (cd : Codec) : ∀ (r : List Field) (st : WState),
    (∀ f ∈ r, f.excluded = true ∨
      (f.positional = true ∧ ∃ v, f.val = FieldVal.one v ∧ Val.canonical cd v = true) ∨
      (f.tagged = true ∧ FieldVal.canonical cd f.val = true)) →
    (∀ f ∈ r, f.excluded = true ∨ f.exported = true) →
    marshalFields cd r st = Res.ok (writeAll st (r.flatMap (fieldTokens cd))) := by
  intro r
  induction r with
  | nil => intro st _ _; rfl
  | cons f fs ih =>
    intro st h hex
    simp only [marshalFields, marshalField_tokens cd f st (h f (List.mem_cons_self _ _))
      (hex f (List.mem_cons_self _ _)), List.flatMap_cons, writeAll_append]
    exact ih _ (fun g hg => h g (List.mem_cons_of_mem _ hg))
      (fun g hg => hex g (List.mem_cons_of_mem _ hg))

theorem canonical_plain (cd : Codec) : ∀ (v : Val), Val.canonical cd v = true →
    Ty.plain (typeOf v) = true := by
  intro v
  induction v with
  | ptrTo w ih =>
    intro h
    simp only [Val.canonical, Bool.and_eq_true] at h
    exact ih h.1
  | ptrNil e => intro h; exact h
  | str s => intro _; rfl
  | int i => intro _; rfl
  | int64 i => intro _; rfl
  | bool b => intro h; simp [Val.canonical] at h
  | uint64 n => intro h; simp [Val.canonical] at h
  | custom id p => intro h; simp [Val.canonical] at h

theorem field_eta (f : Field) (fv : FieldVal) (h : f.val = fv) :
    ({ name := f.name, exported := f.exported, tag := f.tag, val := fv } : Field) = f := by
  cases f
  simp only at h
  rw [h]

theorem field_eta_exported (f : Field) (fv : FieldVal) (h : f.val = fv)
    (hx : f.exported = true) :
    ({ name := f.name, exported := true, tag := f.tag, val := fv } : Field) = f := by
  rw [← hx]
  exact field_eta f fv h

theorem zeroField_tag (cd : Codec) (f : Field) : (zeroField cd f).tag = f.tag := rfl

theorem zeroField_of_holdsZero (cd : Codec) (f : Field) (h : holdsZero cd f.val = true) :
    zeroField cd f = f := by
  apply field_eta
  cases hv : f.val with
  | sliceNil e => rfl
  | slice e vs => rw [hv] at h; simp [holdsZero] at h
  | one v =>
    rw [hv] at h
    simp only [holdsZero, decide_eq_true_eq] at h
    simp only
    rw [← h]

theorem unmarshalField_excluded (cd : Codec) (f : Field) (sub : List Bytes)
    (h : f.excluded = true) :
    unmarshalField cd (zeroField cd f) sub = (zeroField cd f, sub, Outcome.ok) := by
  have h1 := (tag_cases f).1.mp h
  simp [unmarshalField, zeroField_tag, h1]

theorem zeroField_exported (cd : Codec) (f : Field) :
    (zeroField cd f).exported = f.exported := rfl

theorem unmarshalField_positional (cd : Codec) (f : Field) (v : Val) (sub : List Bytes)
    (hp : f.positional = true) (hv : f.val = FieldVal.one v) (hc : Val.canonical cd v = true)
    (hx : f.exported = true) :
    unmarshalField cd (zeroField cd f) (enc cd v :: sub) = (f, sub, Outcome.ok) := by
  have h1 := (tag_cases f).2.1.mp hp
  have h0 : ¬ (str "#" = [] ∨ str "#" = str "-") := by decide
  obtain ⟨b, hb, _, hrt⟩ := value_roundtrip cd v hc
  have hz : (zeroField cd f).val = FieldVal.one (zeroOf cd (typeOf v)) := by
    simp [zeroField, hv]
  simp only [unmarshalField, zeroField_tag, zeroField_exported, hx, Bool.true_eq_false,
    h1, h0, if_false, if_true, hz, unmarshalFieldVal,
    unmarshalValue, typeOf_zeroOf, enc_eq cd v b hb, hrt]
  simp only [zeroField, h1]
  rw [← h1]
  rw [field_eta_exported f _ hv hx]

theorem unmarshalElems_enc (cd : Codec) (e : Ty) : ∀ (vs : List Val),
    (∀ v ∈ vs, Val.canonical cd v = true ∧ typeOf v = e) →
    unmarshalElems cd e (vs.map (enc cd)) = .ok vs := by
  intro vs
  induction vs with
  | nil => intro _; rfl
  | cons v rest ih =>
    intro h
    obtain ⟨hc, ht⟩ := h v (List.mem_cons_self _ _)
    obtain ⟨b, hb, _, hrt⟩ := value_roundtrip cd v hc
    rw [ht] at hrt
    simp only [List.map_cons, unmarshalElems, enc_eq cd v b hb, hrt,
      ih (fun w hw => h w (List.mem_cons_of_mem _ hw))]

theorem zero_not_custom (cd : Codec) (t : Ty) (h : Ty.plain t = true) :
    ∀ id p, zeroOf cd t ≠ Val.custom id p := by
  intro id p
  cases t <;> simp [zeroOf, Ty.plain] at h ⊢

/-- The values selected for the tag of a prefixed field are its own. -/
theorem unmarshalField_tagged (cd : Codec) (f : Field) (sub : List Bytes)
    (ht : f.tagged = true) (hc : FieldVal.canonical cd f.val = true)
    (hm : matching f.tag sub = (fieldTokens cd f).map fun t => t.drop f.tag.length)
    (hx : f.exported = true) :
    unmarshalField cd (zeroField cd f) sub = (f, sub, Outcome.ok) := by
  obtain ⟨h1, h2⟩ := (tag_cases f).2.2.mp ht
  have he : f.excluded = false := by
    simp only [Field.tagged, Bool.and_eq_true, Bool.not_eq_true'] at ht
    exact ht.1
  have hpn : f.positional = false := by
    simp only [Field.tagged, Bool.and_eq_true, Bool.not_eq_true'] at ht
    exact ht.2
  by_cases hz : holdsZero cd f.val = true
  · have hm0 : matching (zeroField cd f).tag sub = [] := by
      rw [zeroField_tag, hm]
      simp [fieldTokens, he, hpn, hz]
    simp only [unmarshalField, zeroField_tag, h1, h2, if_false]
    rw [zeroField_tag] at hm0
    rw [hm0]
    simp only
    rw [zeroField_of_holdsZero cd f hz]
  · cases hv : f.val with
    | sliceNil e => rw [hv] at hz; simp [holdsZero] at hz
    | one v =>
      rw [hv] at hc hz
      have hc1 : Val.canonical cd v = true := hc
      obtain ⟨b, hb, _, hrt⟩ := value_roundtrip cd v hc1
      have hm1 : matching f.tag sub = [enc cd v] := by
        rw [hm]
        simp [fieldTokens, he, hpn, hz, hv]
      have hzv : (zeroField cd f).val = FieldVal.one (zeroOf cd (typeOf v)) := by
        simp [zeroField, hv]
      have hnc := zero_not_custom cd (typeOf v) (canonical_plain cd v hc1)
      have hum : unmarshalValue cd (enc cd v) (zeroOf cd (typeOf v)) = (v, none) := by
        simp only [unmarshalValue, typeOf_zeroOf, enc_eq cd v b hb, hrt]
      simp only [unmarshalField, zeroField_tag, zeroField_exported, hx, Bool.true_eq_false,
        h1, h2, if_false, hm1, hzv]
      cases hzt : zeroOf cd (typeOf v) with
      | custom id p => exact absurd hzt (hnc id p)
      | _ =>
        rw [hzt] at hum
        simp only [ne_eq, not_true_eq_false, if_false, hum]
        exact congrArg (fun x => (x, sub, Outcome.ok)) (field_eta_exported f _ hv hx)
    | slice e vs =>
      rw [hv] at hc hz
      simp only [FieldVal.canonical, Bool.and_eq_true, List.all_eq_true, decide_eq_true_eq,
        Bool.not_eq_true', List.isEmpty_eq_false] at hc
      obtain ⟨⟨_, hne⟩, hall⟩ := hc
      have hm1 : matching f.tag sub = vs.map (enc cd) := by
        rw [hm]
        simp [fieldTokens, he, hpn, hz, hv]
      have hzv : (zeroField cd f).val = FieldVal.sliceNil e := by
        simp [zeroField, hv]
      have hel := unmarshalElems_enc cd e vs hall
      obtain ⟨v0, vrest, hvs⟩ : ∃ v0 vrest, vs.map (enc cd) = v0 :: vrest := by
        cases vs with
        | nil => exact absurd rfl hne
        | cons a t => exact ⟨_, _, rfl⟩
      rw [hvs] at hm1 hel
      simp only [unmarshalField, zeroField_tag, zeroField_exported, hx, Bool.true_eq_false,
        h1, h2, if_false, hm1, hzv, hel]
      exact congrArg (fun x => (x, sub, Outcome.ok)) (field_eta_exported f _ hv hx)

theorem unmarshalFields_cons_ok (cd : Codec) (f f1 : Field) (fs : List Field)
    (sub sub1 : List Bytes) (h : unmarshalField cd f sub = (f1, sub1, Outcome.ok)) :
    unmarshalFields cd (f :: fs) sub =
      (f1 :: (unmarshalFields cd fs sub1).1, (unmarshalFields cd fs sub1).2) := by
  simp only [unmarshalFields, h]

/-- The positional fields take their tokens from the front of the list. -/
theorem unmarshalFields_positional (cd : Codec) : ∀ (P Z : List Field) (T : List Bytes),
    (∀ f ∈ P, f.excluded = true ∨
      (f.positional = true ∧ ∃ v, f.val = FieldVal.one v ∧ Val.canonical cd v = true)) →
    (∀ f ∈ P, f.excluded = true ∨ f.exported = true) →
    unmarshalFields cd (P.map (zeroField cd) ++ Z) (P.flatMap (fieldTokens cd) ++ T) =
      (P.map (fun f => if f.excluded then zeroField cd f else f) ++ (unmarshalFields cd Z T).1,
        (unmarshalFields cd Z T).2) := by
  intro P
  induction P with
  | nil => intro Z T _ _; rfl
  | cons f fs ih =>
    intro Z T h hxp
    have ih1 := ih Z T (fun g hg => h g (List.mem_cons_of_mem _ hg))
      (fun g hg => hxp g (List.mem_cons_of_mem _ hg))
    have hxf := hxp f (List.mem_cons_self _ _)
    rcases h f (List.mem_cons_self _ _) with he | ⟨hp, v, hv, hc⟩
    · have htok : fieldTokens cd f = [] := by simp [fieldTokens, he]
      simp only [List.map_cons, List.cons_append, List.flatMap_cons, htok, List.nil_append]
      rw [unmarshalFields_cons_ok cd _ _ _ _ _ (unmarshalField_excluded cd f _ he), ih1]
      simp [he]
    · have hex := excluded_not_positional f hp
      have hx : f.exported = true := by
        rcases hxf with h0 | h0
        · rw [hex] at h0; exact absurd h0 (by decide)
        · exact h0
      have htok : fieldTokens cd f = [enc cd v] := by simp [fieldTokens, hex, hp, hv]
      simp only [List.map_cons, List.cons_append, List.flatMap_cons, htok, List.nil_append]
      rw [unmarshalFields_cons_ok cd _ _ _ _ _ (unmarshalField_positional cd f v _ hp hv hc hx),
        ih1]
      simp [hex]

/-- The prefixed fields each find their own tokens. -/
theorem unmarshalFields_tagged (cd : Codec) (T : List Bytes) : ∀ (Q : List Field),
    (∀ f ∈ Q, f.excluded = true ∨
      (f.tagged = true ∧ FieldVal.canonical cd f.val = true ∧
        matching f.tag T = (fieldTokens cd f).map fun t => t.drop f.tag.length)) →
    (∀ f ∈ Q, f.excluded = true ∨ f.exported = true) →
    unmarshalFields cd (Q.map (zeroField cd)) T =
      (Q.map (fun f => if f.excluded then zeroField cd f else f), Outcome.ok) := by
  intro Q
  induction Q with
  | nil => intro _ _; rfl
  | cons f fs ih =>
    intro h hxp
    have ih1 := ih (fun g hg => h g (List.mem_cons_of_mem _ hg))
      (fun g hg => hxp g (List.mem_cons_of_mem _ hg))
    have hxf := hxp f (List.mem_cons_self _ _)
    rcases h f (List.mem_cons_self _ _) with he | ⟨ht, hc, hm⟩
    · simp only [List.map_cons]
      rw [unmarshalFields_cons_ok cd _ _ _ _ _ (unmarshalField_excluded cd f _ he), ih1]
      simp [he]
    · have hex : f.excluded = false := by
        simp only [Field.tagged, Bool.and_eq_true, Bool.not_eq_true'] at ht
        exact ht.1
      have hx : f.exported = true := by
        rcases hxf with h0 | h0
        · rw [hex] at h0; exact absurd h0 (by decide)
        · exact h0
      simp only [List.map_cons]
      rw [unmarshalFields_cons_ok cd _ _ _ _ _ (unmarshalField_tagged cd f _ ht hc hm hx), ih1]
      simp [hex]

theorem matching_append (tag : Bytes) (a b : List Bytes) :
    matching tag (a ++ b) = matching tag a ++ matching tag b := by
  simp [matching]

theorem matching_nil_of_forall (tag : Bytes) (l : List Bytes)
    (h : ∀ t ∈ l, ¬ tag <+: t) : matching tag l = [] := by
  simp only [matching, List.map_eq_nil_iff, List.filter_eq_nil_iff, List.isPrefixOf_iff_prefix]
  exact h

theorem fieldTokens_form (cd : Codec) (f : Field) (ht : f.tagged = true) :
    ∀ t ∈ fieldTokens cd f, ∃ x, t = f.tag ++ x := by
  have he : f.excluded = false := by
    simp only [Field.tagged, Bool.and_eq_true, Bool.not_eq_true'] at ht
    exact ht.1
  have hpn : f.positional = false := by
    simp only [Field.tagged, Bool.and_eq_true, Bool.not_eq_true'] at ht
    exact ht.2
  intro t hmem
  simp only [fieldTokens, he, hpn, Bool.false_eq_true, if_false] at hmem
  split at hmem
  · simp at hmem
  · split at hmem
    · simp only [List.mem_singleton] at hmem
      exact ⟨_, hmem⟩
    · simp at hmem
    · simp only [List.mem_map] at hmem
      obtain ⟨v, _, hv⟩ := hmem
      exact ⟨_, hv.symm⟩

theorem matching_self (cd : Codec) (f : Field) (ht : f.tagged = true) :
    matching f.tag (fieldTokens cd f) = (fieldTokens cd f).map fun t => t.drop f.tag.length := by
  have hall : (fieldTokens cd f).filter (fun ss => f.tag.isPrefixOf ss) = fieldTokens cd f := by
    rw [List.filter_eq_self]
    intro t hmem
    obtain ⟨x, hx⟩ := fieldTokens_form cd f ht t hmem
    rw [List.isPrefixOf_iff_prefix, hx]
    exact List.prefix_append _ _
  simp only [matching, hall]

theorem matching_other (cd : Codec) (f g : Field) (hg : g.excluded = true ∨ g.tagged = true)
    (h : g.tagged = true → ¬ f.tag <+: g.tag ∧ ¬ g.tag <+: f.tag) :
    matching f.tag (fieldTokens cd g) = [] := by
  rcases hg with hg | hg
  · simp [fieldTokens, hg, matching]
  · apply matching_nil_of_forall
    intro t hmem hpre
    obtain ⟨x, hx⟩ := fieldTokens_form cd g hg t hmem
    have h2 : g.tag <+: t := by rw [hx]; exact List.prefix_append _ _
    rcases List.prefix_or_prefix_of_prefix hpre h2 with h3 | h3
    · exact (h hg).1 h3
    · exact (h hg).2 h3

theorem matching_flatMap_nil (cd : Codec) (tag : Bytes) : ∀ (Q : List Field),
    (∀ g ∈ Q, matching tag (fieldTokens cd g) = []) →
    matching tag (Q.flatMap (fieldTokens cd)) = [] := by
  intro Q
  induction Q with
  | nil => intro _; rfl
  | cons g gs ih =>
    intro h
    rw [List.flatMap_cons, matching_append, h g (List.mem_cons_self _ _),
      ih (fun x hx => h x (List.mem_cons_of_mem _ hx))]
    rfl

/-- With tags of which none is the start of another, the tokens selected for the
tag of a prefixed field are exactly the tokens the field itself wrote. -/
theorem matching_own (cd : Codec) : ∀ (Q : List Field),
    (∀ g ∈ Q, g.excluded = true ∨ g.tagged = true) →
    (Q.filter Field.tagged).Pairwise (fun f g => ¬ f.tag <+: g.tag ∧ ¬ g.tag <+: f.tag) →
    ∀ f ∈ Q, f.tagged = true →
      matching f.tag (Q.flatMap (fieldTokens cd)) =
        (fieldTokens cd f).map fun t => t.drop f.tag.length := by
  intro Q
  induction Q with
  | nil => intro _ _ f hf; simp at hf
  | cons g gs ih =>
    intro hall hpw f hf hft
    have hg := hall g (List.mem_cons_self _ _)
    have hall1 : ∀ x ∈ gs, x.excluded = true ∨ x.tagged = true :=
      fun x hx => hall x (List.mem_cons_of_mem _ hx)
    rw [List.flatMap_cons, matching_append]
    by_cases hgt : g.tagged = true
    · rw [List.filter_cons_of_pos hgt, List.pairwise_cons] at hpw
      obtain ⟨hhead, htail⟩ := hpw
      rcases List.mem_cons.mp hf with rfl | hmem
      · rw [matching_self cd f hft, matching_flatMap_nil cd f.tag gs, List.append_nil]
        intro x hx
        apply matching_other cd f x (hall1 x hx)
        intro hxt
        exact hhead x (List.mem_filter.mpr ⟨hx, hxt⟩)
      · have hR := hhead f (List.mem_filter.mpr ⟨hmem, hft⟩)
        rw [matching_other cd f g hg (fun _ => ⟨hR.2, hR.1⟩), List.nil_append]
        exact ih hall1 htail f hmem hft
    · have hge : g.excluded = true := by
        rcases hg with h | h
        · exact h
        · exact absurd h hgt
      rw [List.filter_cons_of_neg hgt] at hpw
      have hne : f ≠ g := by
        intro h
        rw [h] at hft
        exact hgt hft
      have hmem : f ∈ gs := by
        rcases List.mem_cons.mp hf with h | h
        · exact absurd h hne
        · exact h
      rw [matching_other cd f g (Or.inl hge) (fun h => absurd h hgt), List.nil_append]
      exact ih hall1 hpw f hmem hft

theorem enc_no_space (cd : Codec) (v : Val) (h : Val.canonical cd v = true) :
    32 ∉ enc cd v := by
  obtain ⟨b, hb, hsp, _⟩ := value_roundtrip cd v h
  rw [enc_eq cd v b hb]
  exact hsp

theorem fieldTokens_no_space (cd : Codec) (f : Field)
    (h : f.excluded = true ∨
      (f.positional = true ∧ ∃ v, f.val = FieldVal.one v ∧ Val.canonical cd v = true) ∨
      (f.tagged = true ∧ FieldVal.canonical cd f.val = true ∧ 32 ∉ f.tag)) :
    ∀ t ∈ fieldTokens cd f, 32 ∉ t := by
  intro t hmem
  rcases h with he | ⟨hp, v, hv, hc⟩ | ⟨ht, hc, htag⟩
  · simp [fieldTokens, he] at hmem
  · simp only [fieldTokens, excluded_not_positional f hp, hp, hv, Bool.false_eq_true, if_false,
      if_true, List.mem_singleton] at hmem
    rw [hmem]
    exact enc_no_space cd v hc
  · have he : f.excluded = false := by
      simp only [Field.tagged, Bool.and_eq_true, Bool.not_eq_true'] at ht
      exact ht.1
    have hpn : f.positional = false := by
      simp only [Field.tagged, Bool.and_eq_true, Bool.not_eq_true'] at ht
      exact ht.2
    simp only [fieldTokens, he, hpn, Bool.false_eq_true, if_false] at hmem
    split at hmem
    · simp at hmem
    · cases hv : f.val with
      | one v =>
        rw [hv] at hmem hc
        simp only [List.mem_singleton] at hmem
        rw [hmem]
        intro h32
        rcases List.mem_append.mp h32 with h1 | h1
        · exact htag h1
        · exact enc_no_space cd v hc h1
      | sliceNil e => rw [hv] at hmem; simp at hmem
      | slice e vs =>
        rw [hv] at hmem hc
        simp only [FieldVal.canonical, Bool.and_eq_true, List.all_eq_true,
          decide_eq_true_eq] at hc
        simp only [List.mem_map] at hmem
        obtain ⟨v, hvm, hvt⟩ := hmem
        rw [← hvt]
        intro h32
        rcases List.mem_append.mp h32 with h1 | h1
        · exact htag h1
        · exact enc_no_space cd v (hc.2 v hvm).1 h1

theorem matching_empty_line (tag : Bytes) (h : tag ≠ []) : matching tag [[]] = [] := by
  apply matching_nil_of_forall
  intro t ht hpre
  simp only [List.mem_singleton] at ht
  rw [ht] at hpre
  exact h (List.prefix_nil.mp hpre)

/-- Round trip through the wire for a struct whose positional fields come
first. -/
theorem roundtrip_core (cd : Codec) (pos pre : List Field)
    (hpos : ∀ f ∈ pos, f.excluded = true ∨
      (f.positional = true ∧ ∃ v, f.val = FieldVal.one v ∧ Val.canonical cd v = true))
    (hpre : ∀ f ∈ pre, f.excluded = true ∨
      (f.tagged = true ∧ FieldVal.canonical cd f.val = true ∧ 32 ∉ f.tag))
    (htags : (pre.filter Field.tagged).Pairwise
      (fun f g => ¬ f.tag <+: g.tag ∧ ¬ g.tag <+: f.tag))
    (hexp : ∀ f ∈ pos ++ pre, f.excluded = true ∨ f.exported = true) :
    ∃ line, Marshal cd (pos ++ pre) = Res.ok line ∧
      Unmarshal cd line ((pos ++ pre).map (zeroField cd)) =
        ((pos ++ pre).map (fun f => if f.excluded then zeroField cd f else f), Outcome.ok) := by
  have hxpos : ∀ f ∈ pos, f.excluded = true ∨ f.exported = true :=
    fun f hf => hexp f (List.mem_append_left _ hf)
  have hxpre : ∀ f ∈ pre, f.excluded = true ∨ f.exported = true :=
    fun f hf => hexp f (List.mem_append_right _ hf)
  have hall : ∀ f ∈ pos ++ pre, f.excluded = true ∨
      (f.positional = true ∧ ∃ v, f.val = FieldVal.one v ∧ Val.canonical cd v = true) ∨
      (f.tagged = true ∧ FieldVal.canonical cd f.val = true) := by
    intro f hf
    rcases List.mem_append.mp hf with h | h
    · rcases hpos f h with h1 | h1
      · exact Or.inl h1
      · exact Or.inr (Or.inl h1)
    · rcases hpre f h with h1 | h1
      · exact Or.inl h1
      · exact Or.inr (Or.inr ⟨h1.1, h1.2.1⟩)
  have hM := marshalFields_tokens cd (pos ++ pre) { buf := [], first := true } hall hexp
  refine ⟨[32].intercalate ((pos ++ pre).flatMap (fieldTokens cd)), ?_, ?_⟩
  · simp only [Marshal, hM, writeAll_init]
  · have hpre2 : ∀ g ∈ pre, g.excluded = true ∨ g.tagged = true := by
      intro g hg
      rcases hpre g hg with h | h
      · exact Or.inl h
      · exact Or.inr h.1
    simp only [Unmarshal, List.map_append, List.flatMap_append]
    by_cases hnil : pos.flatMap (fieldTokens cd) ++ pre.flatMap (fieldTokens cd) = []
    · obtain ⟨hp0, hq0⟩ := List.append_eq_nil.mp hnil
      have hsub : List.splitOn 32 ([32].intercalate
          (pos.flatMap (fieldTokens cd) ++ pre.flatMap (fieldTokens cd))) =
          pos.flatMap (fieldTokens cd) ++ [[]] := by
        rw [hp0, hq0]
        rfl
      rw [hsub, unmarshalFields_positional cd pos _ _ hpos hxpos,
        unmarshalFields_tagged cd [[]] pre ?_ hxpre]
      intro f hf
      rcases hpre f hf with h | ⟨ht, hc, _⟩
      · exact Or.inl h
      · refine Or.inr ⟨ht, hc, ?_⟩
        have hne : f.tag ≠ [] := fun h0 => ((tag_cases f).2.2.mp ht).1 (Or.inl h0)
        have hft : fieldTokens cd f = [] := by
          have := List.flatMap_eq_nil_iff.mp hq0
          exact this f hf
        rw [matching_empty_line f.tag hne, hft]
        rfl
    · have hsp : ∀ l ∈ pos.flatMap (fieldTokens cd) ++ pre.flatMap (fieldTokens cd), 32 ∉ l := by
        intro l hl
        rcases List.mem_append.mp hl with h | h
        · obtain ⟨f, hf, hfl⟩ := List.mem_flatMap.mp h
          refine fieldTokens_no_space cd f ?_ l hfl
          rcases hpos f hf with h1 | h1
          · exact Or.inl h1
          · exact Or.inr (Or.inl h1)
        · obtain ⟨f, hf, hfl⟩ := List.mem_flatMap.mp h
          refine fieldTokens_no_space cd f ?_ l hfl
          rcases hpre f hf with h1 | h1
          · exact Or.inl h1
          · exact Or.inr (Or.inr h1)
      rw [List.splitOn_intercalate _ 32 hsp hnil,
        unmarshalFields_positional cd pos _ _ hpos hxpos,
        unmarshalFields_tagged cd (pre.flatMap (fieldTokens cd)) pre ?_ hxpre]
      intro f hf
      rcases hpre f hf with h | ⟨ht, hc, _⟩
      · exact Or.inl h
      · exact Or.inr ⟨ht, hc, matching_own cd pre hpre2 htags f hf ht⟩

/-- C1 (amended): take a struct without custom-codec fields whose positional and
prefixed fields are all exported, whose positional fields (each a single value)
are all declared before its prefixed fields, whose prefixed tags contain no
space and are such that none is the start of another, and whose values are
canonical (64-bit integers, nil rather than an empty slice, nil rather than a
pointer to an empty encoding).  Then `Marshal` succeeds, and `Unmarshal` of its
output into the zero value of the struct succeeds and gives back every
positional and prefixed field; excluded fields stay at zero. -/
theorem Marshal_Unmarshal_roundtrip (cd : Codec) (pos pre : List Field)
    (hpos : ∀ f ∈ pos, f.excluded = true ∨
      (f.positional = true ∧ ∃ v, f.val = FieldVal.one v ∧ Val.canonical cd v = true))
    (hpre : ∀ f ∈ pre, f.excluded = true ∨
      (f.tagged = true ∧ FieldVal.canonical cd f.val = true ∧ 32 ∉ f.tag))
    (htags : (pre.filter Field.tagged).Pairwise
      (fun f g => ¬ f.tag <+: g.tag ∧ ¬ g.tag <+: f.tag))
    (hexp : ∀ f ∈ pos ++ pre, f.excluded = true ∨ f.exported = true) :
    ∃ line, Marshal cd (pos ++ pre) = Res.ok line ∧
      Unmarshal cd line ((pos ++ pre).map (zeroField cd)) =
        ((pos ++ pre).map (fun f => if f.excluded then zeroField cd f else f), Outcome.ok) :=
  roundtrip_core cd pos pre hpos hpre htags hexp

theorem Marshal_Unmarshal_roundtrip_witness :
    (sampleTail.filter Field.tagged).Pairwise
      (fun f g => ¬ f.tag <+: g.tag ∧ ¬ g.tag <+: f.tag) ∧
    (∀ f ∈ sampleHead ++ sampleTail, f.excluded = true ∨ f.exported = true) ∧
    Marshal noCodec (sampleHead ++ sampleTail) = Res.ok (str "a\\sb 0 NIx SUp SU QQ0") ∧
    ∃ line, Marshal noCodec (sampleHead ++ sampleTail) = Res.ok line ∧
      Unmarshal noCodec line ((sampleHead ++ sampleTail).map (zeroField noCodec)) =
        ((sampleHead ++ sampleTail).map (fun f => if f.excluded then zeroField noCodec f else f),
          Outcome.ok) := by
  refine ⟨by decide, by decide, by decide,
    Marshal_Unmarshal_roundtrip noCodec sampleHead sampleTail ?_ ?_ (by decide) (by decide)⟩
  · intro f hf
    simp only [sampleHead, List.mem_cons, List.mem_singleton, List.not_mem_nil, or_false] at hf
    rcases hf with rfl | rfl | rfl
    · exact Or.inr ⟨by decide, _, rfl, by decide⟩
    · exact Or.inr ⟨by decide, _, rfl, by decide⟩
    · exact Or.inl (by decide)
  · intro f hf
    simp only [sampleTail, List.mem_cons, List.mem_singleton, List.not_mem_nil, or_false] at hf
    rcases hf with rfl | rfl | rfl | rfl
    · exact Or.inr ⟨by decide, by decide, by decide⟩
    · exact Or.inr ⟨by decide, by decide, by decide⟩
    · exact Or.inr ⟨by decide, by decide, by decide⟩
    · exact Or.inr ⟨by decide, by decide, by decide⟩

/-- C1 (counterexample): six structs with only `string` and `int` fields in
canonical form on which the round trip fails.  (a) An excluded field holding 5
comes back as 0.  (b) A positional slice field makes `Marshal` fail.  (c) A
prefixed field declared before a positional one: the positional field receives
the token `NIx` of the prefixed field.  (d) Tags `A` and `AB`: the token `ABx`
written for the first field is also taken for the second.  (e) A tag with a
space: its token is split in two and the field stays empty.  (f) An unexported
positional field: `Marshal` panics in `rv.Field(i).Interface()`. -/
theorem roundtrip_fails_outside_wire_form :
    (Marshal noCodec [⟨"X", true, str "-", FieldVal.one (Val.int 5)⟩] = Res.ok [] ∧
      Unmarshal noCodec [] [⟨"X", true, str "-", FieldVal.one (Val.int 0)⟩] =
        ([⟨"X", true, str "-", FieldVal.one (Val.int 0)⟩], Outcome.ok)) ∧
    Marshal noCodec [⟨"S", true, str "#", FieldVal.slice Ty.string [Val.str (str "a")]⟩] =
      Res.error (Err.cannotMarshal "S" Err.unsupportedType) ∧
    (Marshal noCodec [⟨"N", true, str "NI", FieldVal.one (Val.str (str "x"))⟩,
        ⟨"P", true, str "#", FieldVal.one (Val.str (str "y"))⟩] = Res.ok (str "NIx y") ∧
      Unmarshal noCodec (str "NIx y") [⟨"N", true, str "NI", FieldVal.one (Val.str [])⟩,
        ⟨"P", true, str "#", FieldVal.one (Val.str [])⟩] =
        ([⟨"N", true, str "NI", FieldVal.one (Val.str (str "x"))⟩,
          ⟨"P", true, str "#", FieldVal.one (Val.str (str "NIx"))⟩], Outcome.ok)) ∧
    (Marshal noCodec [⟨"A", true, str "A", FieldVal.one (Val.str (str "Bx"))⟩,
        ⟨"B", true, str "AB", FieldVal.one (Val.str [])⟩] = Res.ok (str "ABx") ∧
      Unmarshal noCodec (str "ABx") [⟨"A", true, str "A", FieldVal.one (Val.str [])⟩,
        ⟨"B", true, str "AB", FieldVal.one (Val.str [])⟩] =
        ([⟨"A", true, str "A", FieldVal.one (Val.str (str "Bx"))⟩,
          ⟨"B", true, str "AB", FieldVal.one (Val.str (str "x"))⟩], Outcome.ok)) ∧
    (Marshal noCodec [⟨"A", true, str "A B", FieldVal.one (Val.str (str "x"))⟩] = Res.ok (str "A Bx") ∧
      Unmarshal noCodec (str "A Bx") [⟨"A", true, str "A B", FieldVal.one (Val.str [])⟩] =
        ([⟨"A", true, str "A B", FieldVal.one (Val.str [])⟩], Outcome.ok)) ∧
    Marshal noCodec [⟨"a", false, str "#", FieldVal.one (Val.str (str "x"))⟩] = Res.panic := by
  decide

/-! ### Framing of escaped strings, excluded fields -/

theorem splitOn_no_sep (l : Bytes) (h : 32 ∉ l) : l.splitOn 32 = [l] := by
  have h1 := List.splitOn_intercalate [l] 32 (by simpa using h) (by simp)
  simpa [List.intercalate] using h1

/-- C18: for every string `s`, `escape s` contains no space and no newline, so a
string value is encoded (by `marshalValue`) into bytes that form exactly one
space-separated token. -/
theorem escape_is_one_token (cd : Codec) (s : Bytes) :
    32 ∉ escape s ∧ 10 ∉ escape s ∧
      marshalValue cd (Val.str s) = Res.ok (escape s) ∧
      (escape s).splitOn 32 = [escape s] :=
  ⟨(escape_no_space s).1, (escape_no_space s).2, rfl, splitOn_no_sep _ (escape_no_space s).1⟩

theorem unmarshalField_skip (cd : Codec) (f : Field) (sub : List Bytes)
    (h : f.excluded = true) : unmarshalField cd f sub = (f, sub, Outcome.ok) := by
  have h1 := (tag_cases f).1.mp h
  simp [unmarshalField, h1]

theorem unmarshalFields_length (cd : Codec) : ∀ (r : List Field) (sub : List Bytes),
    (unmarshalFields cd r sub).1.length = r.length := by
  intro r
  induction r with
  | nil => intro sub; rfl
  | cons f fs ih =>
    intro sub
    simp only [unmarshalFields]
    rcases hu : unmarshalField cd f sub with ⟨f1, sub1, out⟩
    cases out with
    | ok => simp [ih]
    | error e => simp
    | panic => simp

theorem unmarshalFields_append_ok (cd : Codec) (rest : List Field) :
    ∀ (pre : List Field) (sub : List Bytes), (unmarshalFields cd pre sub).2 = Outcome.ok →
    unmarshalFields cd (pre ++ rest) sub =
      ((unmarshalFields cd pre sub).1 ++ (unmarshalFields cd rest (subAfter cd pre sub)).1,
        (unmarshalFields cd rest (subAfter cd pre sub)).2) := by
  intro pre
  induction pre with
  | nil => intro sub _; rfl
  | cons f fs ih =>
    intro sub h
    simp only [unmarshalFields, List.cons_append, subAfter] at h ⊢
    rcases hu : unmarshalField cd f sub with ⟨f1, sub1, out⟩
    rw [hu] at h
    cases out with
    | ok =>
      simp only [List.append_eq] at h ⊢
      rw [ih sub1 h]
      rfl
    | error e => simp at h
    | panic => simp at h

theorem unmarshalFields_append_stop (cd : Codec) (rest : List Field) :
    ∀ (pre : List Field) (sub : List Bytes), (unmarshalFields cd pre sub).2 ≠ Outcome.ok →
    unmarshalFields cd (pre ++ rest) sub =
      ((unmarshalFields cd pre sub).1 ++ rest, (unmarshalFields cd pre sub).2) := by
  intro pre
  induction pre with
  | nil => intro sub h; exact absurd rfl h
  | cons f fs ih =>
    intro sub h
    simp only [unmarshalFields, List.cons_append] at h ⊢
    rcases hu : unmarshalField cd f sub with ⟨f1, sub1, out⟩
    rw [hu] at h
    cases out with
    | ok =>
      simp only [List.append_eq] at h ⊢
      rw [ih sub1 h]
      rfl
    | error e => rfl
    | panic => rfl

theorem marshalField_skip (cd : Codec) (f : Field) (st : WState) (h : f.excluded = true) :
    marshalField cd f st = Res.ok st := by
  have h1 := (tag_cases f).1.mp h
  simp [marshalField, h1]

theorem marshalFields_excluded_irrelevant (cd : Codec) (r1 r2 : List Field)
    (h : List.Forall₂ (fun f g => f = g ∨ (f.excluded = true ∧ g.excluded = true)) r1 r2) :
    ∀ st, marshalFields cd r1 st = marshalFields cd r2 st := by
  induction h with
  | nil => intro st; rfl
  | cons hfg _ ih =>
    intro st
    rcases hfg with rfl | ⟨h1, h2⟩
    · simp only [marshalFields]
      cases marshalField cd _ st with
      | ok st1 => exact ih st1
      | error e => rfl
      | panic => rfl
    · simp only [marshalFields, marshalField_skip cd _ st h1, marshalField_skip cd _ st h2]
      exact ih st

theorem unmarshalFields_excluded_kept (cd : Codec) : ∀ (r : List Field) (sub : List Bytes)
    (i : Nat) (f : Field), r[i]? = some f → f.excluded = true →
    (unmarshalFields cd r sub).1[i]? = some f := by
  intro r
  induction r with
  | nil => intro sub i f h; simp at h
  | cons f0 fs ih =>
    intro sub i f h hex
    simp only [unmarshalFields]
    rcases hu : unmarshalField cd f0 sub with ⟨f1, sub1, out⟩
    cases i with
    | zero =>
      simp only [List.getElem?_cons_zero, Option.some.injEq] at h
      subst h
      rw [unmarshalField_skip cd f0 sub hex] at hu
      simp only [Prod.mk.injEq] at hu
      obtain ⟨h1, _, h3⟩ := hu
      subst h1 h3
      simp
    | succ j =>
      simp only [List.getElem?_cons_succ] at h
      cases out with
      | ok => simpa using ih sub1 j f h hex
      | error e => simpa using h
      | panic => simpa using h

/-- C17: fields whose tag is empty or `-` are never written and never read.  Two
structs that agree field by field except in excluded fields give the same result
of `Marshal`, and `Unmarshal` leaves every excluded field of the target as it
was, for every input line and however the call ends. -/
theorem excluded_fields_off_the_wire (cd : Codec) :
    (∀ r1 r2 : List Field,
      List.Forall₂ (fun f g => f = g ∨ (f.excluded = true ∧ g.excluded = true)) r1 r2 →
      Marshal cd r1 = Marshal cd r2) ∧
    (∀ (line : Bytes) (r : List Field) (i : Nat) (f : Field), r[i]? = some f →
      f.excluded = true → (Unmarshal cd line r).1[i]? = some f) := by
  constructor
  · intro r1 r2 h
    simp only [Marshal, marshalFields_excluded_irrelevant cd r1 r2 h]
  · intro line r i f h hex
    exact unmarshalFields_excluded_kept cd r _ i f h hex

theorem excluded_fields_off_the_wire_witness :
    (Marshal noCodec [⟨"A", true, str "#", FieldVal.one (Val.str (str "a"))⟩,
        ⟨"X", true, str "-", FieldVal.one (Val.int 5)⟩, ⟨"N", true, str "NI", FieldVal.one (Val.int 7)⟩] =
      Marshal noCodec [⟨"A", true, str "#", FieldVal.one (Val.str (str "a"))⟩,
        ⟨"Y", true, [], FieldVal.one (Val.str (str "no"))⟩, ⟨"N", true, str "NI", FieldVal.one (Val.int 7)⟩]) ∧
    (Unmarshal noCodec (str "b NI9 -3")
        [⟨"A", true, str "#", FieldVal.one (Val.str (str "a"))⟩,
         ⟨"X", true, str "-", FieldVal.one (Val.int 5)⟩,
         ⟨"N", true, str "NI", FieldVal.one (Val.int 7)⟩]).1[1]? =
      some ⟨"X", true, str "-", FieldVal.one (Val.int 5)⟩ :=
  ⟨(excluded_fields_off_the_wire noCodec).1 _ _
      (List.Forall₂.cons (Or.inl rfl)
        (List.Forall₂.cons (Or.inr ⟨by decide, by decide⟩)
          (List.Forall₂.cons (Or.inl rfl) List.Forall₂.nil))),
   (excluded_fields_off_the_wire noCodec).2 (str "b NI9 -3") _ 1 _ (by decide) (by decide)⟩

/-! ### Wire order -/

theorem marshalElems_writeAll (cd : Codec) (name : String) (tag : Bytes) (htag : tag ≠ str "#") :
    ∀ (vs : List Val) (st st1 : WState), marshalElems cd name tag vs st = Res.ok st1 →
    st1 = writeAll st (vs.map fun v => tag ++ enc cd v) := by
  intro vs
  induction vs with
  | nil => intro st st1 h; simp only [marshalElems, Res.ok.injEq] at h; rw [← h]; rfl
  | cons v rest ih =>
    intro st st1 h
    simp only [marshalElems] at h
    cases hm : marshalValue cd v with
    | ok sv =>
      rw [hm] at h
      have := ih _ _ h
      rw [this]
      simp [writeAll, writeItem, htag, enc_eq cd v sv hm]
    | error e => rw [hm] at h; simp at h
    | panic => rw [hm] at h; simp at h

/-- Whatever the field, a successful pass of the field loop of `Marshal` writes
exactly the tokens of the field. -/
theorem marshalField_writeAll (cd : Codec) (f : Field) (st st1 : WState)
    (h : marshalField cd f st = Res.ok st1) : st1 = writeAll st (fieldTokens cd f) := by
  by_cases hex : f.excluded = true
  · rw [marshalField_skip cd f st hex] at h
    simp only [Res.ok.injEq] at h
    simp [fieldTokens, hex, writeAll, h]
  · have hex0 : f.excluded = false := by simpa using hex
    have h1 : ¬ (f.tag = [] ∨ f.tag = str "-") := fun hc => hex ((tag_cases f).1.mpr hc)
    by_cases hp : f.positional = true
    · obtain ⟨v, sv, hv, hm, hst⟩ := marshalField_positional cd f st st1 ((tag_cases f).2.1.mp hp) h
      simp [fieldTokens, hex0, hp, hv, writeAll, enc_eq cd v sv hm, hst]
    · have hp0 : f.positional = false := by simpa using hp
      have h2 : f.tag ≠ str "#" := fun hc => hp ((tag_cases f).2.1.mpr hc)
      simp only [marshalField, h1, h2, if_false, ne_eq, not_false_eq_true, if_true] at h
      cases hiz : isZero cd (!f.exported) f.val with
      | none => rw [hiz] at h; simp at h
      | some b =>
        have hb := isZero_some cd _ _ b hiz
        rw [hiz] at h
        cases b with
        | true =>
          simp only [Res.ok.injEq] at h
          simp [fieldTokens, hex0, hp0, ← hb, writeAll, h]
        | false =>
          have hz : holdsZero cd f.val = false := hb.symm
          simp only at h
          cases hx : f.exported with
          | false => rw [hx] at h; simp at h
          | true =>
            rw [hx] at h
            simp only [Bool.true_eq_false, if_false] at h
            cases hv : f.val with
            | one v =>
              rw [hv] at h hz
              simp only at h
              cases hm : marshalValue cd v with
              | ok sv =>
                rw [hm] at h
                simp only [Res.ok.injEq] at h
                simp [fieldTokens, hex0, hp0, hz, hv, writeAll, writeItem, h2,
                  enc_eq cd v sv hm, ← h]
              | error e => rw [hm] at h; simp at h
              | panic => rw [hm] at h; simp at h
            | sliceNil e => rw [hv] at hz; simp [holdsZero] at hz
            | slice e vs =>
              rw [hv] at h hz
              simp only at h
              have := marshalElems_writeAll cd f.name f.tag h2 vs st st1 h
              simp [fieldTokens, hex0, hp0, hz, hv, this]

theorem marshalFields_writeAll (cd : Codec) : ∀ (r : List Field) (st st1 : WState),
    marshalFields cd r st = Res.ok st1 → st1 = writeAll st (r.flatMap (fieldTokens cd)) := by
  intro r
  induction r with
  | nil => intro st st1 h; simp only [marshalFields, Res.ok.injEq] at h; rw [← h]; rfl
  | cons f fs ih =>
    intro st st1 h
    simp only [marshalFields] at h
    cases hf : marshalField cd f st with
    | ok st2 =>
      rw [hf] at h
      rw [ih _ _ h, marshalField_writeAll cd f st st2 hf, List.flatMap_cons, writeAll_append]
    | error e => rw [hf] at h; simp at h
    | panic => rw [hf] at h; simp at h

theorem Marshal_eq_intercalate (cd : Codec) (r : List Field) (out : Bytes)
    (h : Marshal cd r = Res.ok out) : out = [32].intercalate (r.flatMap (fieldTokens cd)) := by
  simp only [Marshal] at h
  cases hm : marshalFields cd r { buf := [], first := true } with
  | ok st =>
    rw [hm] at h
    simp only [Res.ok.injEq] at h
    rw [← h, marshalFields_writeAll cd r _ st hm, writeAll_init]
  | error e => rw [hm] at h; simp at h
  | panic => rw [hm] at h; simp at h

theorem flatten_tail_last (ts : List Bytes) : ∀ (pre : Bytes), pre ≠ [] →
    pre.getLast? ≠ some 32 → (∀ t ∈ ts, t ≠ [] ∧ 32 ∉ t) →
    (pre ++ (ts.map fun t => 32 :: t).flatten).getLast? ≠ some 32 := by
  induction ts with
  | nil => intro pre _ h _; simpa using h
  | cons u us ih =>
    intro pre hpre _ hall
    obtain ⟨hu, hsp⟩ := hall u (List.mem_cons_self _ _)
    have key := ih (pre ++ 32 :: u) (by simp) (by
      rw [List.getLast?_append_of_ne_nil _ (by simp)]
      cases u with
      | nil => exact absurd rfl hu
      | cons a t =>
        rw [List.getLast?_cons_cons]
        intro hl
        exact hsp (List.mem_of_getLast?_eq_some hl)) (fun t ht => hall t (List.mem_cons_of_mem _ ht))
    simpa using key

theorem intercalate_cons_eq (t : Bytes) (ts : List Bytes) :
    [32].intercalate (t :: ts) = t ++ (ts.map fun u => 32 :: u).flatten := by
  rw [← writeAll_init]
  simp only [writeAll, if_true, List.nil_append, List.append_nil]
  exact (writeAll_buf ts { buf := t, first := false } rfl).1

/-- C13 (amended): on every successful `Marshal` the output is the list of the
tokens of the fields, field after field in declaration order (`fieldTokens`:
the encoded value alone for a positional field, tag and encoded value for a
non-zero prefixed single value, one tag-and-value token per element in element
order for a prefixed slice, nothing for excluded and zero-valued prefixed
fields), joined by exactly one space.  When no token is empty and no token
contains a space, the output neither begins nor ends with a space. -/
theorem Marshal_wire_order (cd : Codec) (r : List Field) (out : Bytes)
    (h : Marshal cd r = Res.ok out) :
    out = [32].intercalate (r.flatMap (fieldTokens cd)) ∧
    ((∀ t ∈ r.flatMap (fieldTokens cd), t ≠ [] ∧ 32 ∉ t) →
      (∀ rest, out ≠ 32 :: rest) ∧ (∀ init, out ≠ init ++ [32])) := by
  have hout := Marshal_eq_intercalate cd r out h
  refine ⟨hout, fun hall => ?_⟩
  cases htoks : r.flatMap (fieldTokens cd) with
  | nil =>
    rw [htoks] at hout
    have : out = [] := by simpa [List.intercalate] using hout
    subst this
    exact ⟨fun rest => by simp, fun init => by simp⟩
  | cons t ts =>
    rw [htoks] at hout hall
    rw [intercalate_cons_eq] at hout
    obtain ⟨ht, hsp⟩ := hall t (List.mem_cons_self _ _)
    constructor
    · intro rest hr
      rw [hr] at hout
      cases t with
      | nil => exact ht rfl
      | cons a u =>
        simp only [List.cons_append, List.cons.injEq] at hout
        apply hsp
        rw [← hout.1]
        exact List.mem_cons_self _ _
    · intro init hi
      have hl : out.getLast? = some 32 := by rw [hi]; simp
      rw [hout] at hl
      refine flatten_tail_last ts t ht ?_ (fun u hu => hall u (List.mem_cons_of_mem _ hu)) hl
      intro hl2
      exact hsp (List.mem_of_getLast?_eq_some hl2)

theorem Marshal_wire_order_witness :
    Marshal noCodec (sampleHead ++ sampleTail) = Res.ok (str "a\\sb 0 NIx SUp SU QQ0") ∧
    (∀ t ∈ (sampleHead ++ sampleTail).flatMap (fieldTokens noCodec), t ≠ [] ∧ 32 ∉ t) ∧
    str "a\\sb 0 NIx SUp SU QQ0" =
      [32].intercalate ((sampleHead ++ sampleTail).flatMap (fieldTokens noCodec)) ∧
    (∀ rest, str "a\\sb 0 NIx SUp SU QQ0" ≠ 32 :: rest) ∧
    (∀ init, str "a\\sb 0 NIx SUp SU QQ0" ≠ init ++ [32]) :=
  ⟨by decide, by decide,
    (Marshal_wire_order noCodec (sampleHead ++ sampleTail) _ (by decide)).1,
    ((Marshal_wire_order noCodec (sampleHead ++ sampleTail) _ (by decide)).2 (by decide)).1,
    ((Marshal_wire_order noCodec (sampleHead ++ sampleTail) _ (by decide)).2 (by decide)).2⟩

/-- C13 (counterexample): a positional field holding the empty string is
written as an empty token, so the line begins with a space when the field comes
first and ends with a space when it comes last. -/
theorem Marshal_empty_positional_token :
    Marshal noCodec [⟨"A", true, str "#", FieldVal.one (Val.str [])⟩,
        ⟨"B", true, str "#", FieldVal.one (Val.str (str "x"))⟩] = Res.ok (str " x") ∧
    Marshal noCodec [⟨"A", true, str "#", FieldVal.one (Val.str (str "x"))⟩,
        ⟨"B", true, str "#", FieldVal.one (Val.str [])⟩] = Res.ok (str "x ") := by
  decide

/-! ### One field of `Unmarshal` inside the loop -/

theorem unmarshalFields_cons_stop (cd : Codec) (f : Field) (fs : List Field) (sub : List Bytes)
    (h : (unmarshalField cd f sub).2.2 ≠ Outcome.ok) :
    unmarshalFields cd (f :: fs) sub =
      ((unmarshalField cd f sub).1 :: fs, (unmarshalField cd f sub).2.2) := by
  rcases hu : unmarshalField cd f sub with ⟨f1, sub1, out⟩
  rw [hu] at h
  cases out with
  | ok => exact absurd rfl h
  | error e => simp only [unmarshalFields, hu]
  | panic => simp only [unmarshalFields, hu]

theorem unmarshalFields_cons_head (cd : Codec) (f : Field) (fs : List Field) (sub : List Bytes) :
    (unmarshalFields cd (f :: fs) sub).1[0]? = some (unmarshalField cd f sub).1 := by
  simp only [unmarshalFields]
  rcases hu : unmarshalField cd f sub with ⟨f1, sub1, out⟩
  cases out <;> simp

theorem unmarshalFields_cons_outcome (cd : Codec) (f : Field) (fs : List Field)
    (sub : List Bytes) (h : (unmarshalFields cd (f :: fs) sub).2 = Outcome.ok) :
    (unmarshalField cd f sub).2.2 = Outcome.ok := by
  by_contra hne
  rw [unmarshalFields_cons_stop cd f fs sub hne] at h
  exact hne h

/-- The field declared after the fields `pre` is visited with the token list
`subAfter cd pre sub`, provided the loop gets that far; otherwise it is left as
it was. -/
theorem unmarshalFields_at (cd : Codec) (pre post : List Field) (f : Field) (sub : List Bytes) :
    ((unmarshalFields cd pre sub).2 = Outcome.ok →
      (unmarshalFields cd (pre ++ f :: post) sub).1[pre.length]? =
        some (unmarshalField cd f (subAfter cd pre sub)).1) ∧
    ((unmarshalFields cd pre sub).2 ≠ Outcome.ok →
      (unmarshalFields cd (pre ++ f :: post) sub).1[pre.length]? = some f) := by
  have hlen := unmarshalFields_length cd pre sub
  constructor
  · intro h
    rw [unmarshalFields_append_ok cd _ pre sub h]
    simp only
    rw [List.getElem?_append_right (by omega), hlen, Nat.sub_self]
    exact unmarshalFields_cons_head cd f post _
  · intro h
    rw [unmarshalFields_append_stop cd _ pre sub h]
    simp only
    rw [List.getElem?_append_right (by omega), hlen, Nat.sub_self]
    simp

theorem unmarshalField_sub_suffix (cd : Codec) (f : Field) (sub : List Bytes) :
    (unmarshalField cd f sub).2.1 <:+ sub := by
  simp only [unmarshalField]
  split
  · exact List.suffix_refl _
  · split
    · split
      · exact List.suffix_refl _
      · split
        · exact List.suffix_cons _ _
        · split <;> exact List.suffix_cons _ _
    · split
      · exact List.suffix_refl _
      · split
        · exact List.suffix_refl _
        · split
          · split <;> exact List.suffix_refl _
          · split <;> exact List.suffix_refl _
          · split <;> exact List.suffix_refl _
          · split
            · exact List.suffix_refl _
            · split <;> exact List.suffix_refl _

theorem subAfter_suffix (cd : Codec) : ∀ (pre : List Field) (sub : List Bytes),
    subAfter cd pre sub <:+ sub := by
  intro pre
  induction pre with
  | nil => intro sub; exact List.suffix_refl _
  | cons f fs ih =>
    intro sub
    exact (ih _).trans (unmarshalField_sub_suffix cd f sub)

theorem unmarshalField_unmatched (cd : Codec) (f : Field) (sub : List Bytes)
    (hp : f.positional = false) (hm : matching f.tag sub = []) :
    unmarshalField cd f sub = (f, sub, Outcome.ok) := by
  have h2 : f.tag ≠ str "#" := by
    intro hc
    rw [(tag_cases f).2.1.mpr hc] at hp
    exact Bool.noConfusion hp
  simp only [unmarshalField, h2, if_false, hm]
  split <;> rfl

/-- C14 (amended): when no token of the line starts with the tag of a prefixed
field, `Unmarshal` leaves that field as it was before the call, whatever the
target held and however the call ends; the field holds its type's zero value
afterwards exactly when it held it before. -/
theorem Unmarshal_unmatched_field_kept (cd : Codec) (line : Bytes) (pre post : List Field)
    (f : Field) (hp : f.positional = false)
    (hno : ∀ t ∈ line.splitOn 32, ¬ f.tag <+: t) :
    (Unmarshal cd line (pre ++ f :: post)).1[pre.length]? = some f := by
  have hm : matching f.tag (subAfter cd pre (line.splitOn 32)) = [] := by
    apply matching_nil_of_forall
    intro t ht
    exact hno t ((subAfter_suffix cd pre _).subset ht)
  obtain ⟨h1, h2⟩ := unmarshalFields_at cd pre post f (line.splitOn 32)
  by_cases hok : (unmarshalFields cd pre (line.splitOn 32)).2 = Outcome.ok
  · rw [Unmarshal, h1 hok, unmarshalField_unmatched cd f _ hp hm]
  · rw [Unmarshal, h2 hok]

theorem Unmarshal_unmatched_field_kept_witness :
    (∀ t ∈ (str "a NI7").splitOn 32, ¬ (str "SU") <+: t) ∧
    (Unmarshal noCodec (str "a NI7")
        ([⟨"A", true, str "#", FieldVal.one (Val.str [])⟩] ++
          ⟨"S", true, str "SU", FieldVal.one (Val.str (str "old"))⟩ ::
          [⟨"N", true, str "NI", FieldVal.one (Val.int 0)⟩])).1[1]? =
      some ⟨"S", true, str "SU", FieldVal.one (Val.str (str "old"))⟩ :=
  ⟨by decide,
   Unmarshal_unmatched_field_kept noCodec (str "a NI7")
     [⟨"A", true, str "#", FieldVal.one (Val.str [])⟩] [⟨"N", true, str "NI", FieldVal.one (Val.int 0)⟩]
     ⟨"S", true, str "SU", FieldVal.one (Val.str (str "old"))⟩ (by decide) (by decide)⟩

/-- C14 (counterexample): the target holds `old` in the field tagged `SU`, no
token of the line `a NI7` starts with `SU`, `Unmarshal` succeeds, and the field
still holds `old`, not the empty string. -/
theorem Unmarshal_keeps_stale_value :
    Unmarshal noCodec (str "a NI7")
        [⟨"A", true, str "#", FieldVal.one (Val.str [])⟩,
         ⟨"S", true, str "SU", FieldVal.one (Val.str (str "old"))⟩,
         ⟨"N", true, str "NI", FieldVal.one (Val.int 0)⟩] =
      ([⟨"A", true, str "#", FieldVal.one (Val.str (str "a"))⟩,
        ⟨"S", true, str "SU", FieldVal.one (Val.str (str "old"))⟩,
        ⟨"N", true, str "NI", FieldVal.one (Val.int 7)⟩], Outcome.ok) := by
  decide

theorem Unmarshal_stops_at (cd : Codec) (line : Bytes) (pre post : List Field) (f : Field)
    (hpre : (unmarshalFields cd pre (line.splitOn 32)).2 = Outcome.ok)
    (hstop : (unmarshalField cd f (subAfter cd pre (line.splitOn 32))).2.2 ≠ Outcome.ok) :
    Unmarshal cd line (pre ++ f :: post) =
      ((unmarshalFields cd pre (line.splitOn 32)).1 ++
          (unmarshalField cd f (subAfter cd pre (line.splitOn 32))).1 :: post,
        (unmarshalField cd f (subAfter cd pre (line.splitOn 32))).2.2) := by
  rw [Unmarshal, unmarshalFields_append_ok cd _ pre _ hpre,
    unmarshalFields_cons_stop cd f post _ hstop]

theorem unmarshalField_many (cd : Codec) (f : Field) (v : Val) (sub : List Bytes)
    (ht : f.tagged = true) (hx : f.exported = true)
    (hv : f.val = FieldVal.one v) (hnc : ∀ id p, v ≠ Val.custom id p)
    (hmany : 1 < (matching f.tag sub).length) :
    unmarshalField cd f sub = (f, sub, Outcome.error (Err.expectedSingle f.name)) := by
  obtain ⟨h1, h2⟩ := (tag_cases f).2.2.mp ht
  obtain ⟨v0, v1, vrest, hm⟩ : ∃ v0 v1 vrest, matching f.tag sub = v0 :: v1 :: vrest := by
    cases hmm : matching f.tag sub with
    | nil => rw [hmm] at hmany; simp at hmany
    | cons a t =>
      cases t with
      | nil => rw [hmm] at hmany; simp at hmany
      | cons b u => exact ⟨a, b, u, rfl⟩
  simp only [unmarshalField, h1, h2, if_false, hm, hv, hx, Bool.true_eq_false]
  cases v with
  | custom id p => exact absurd rfl (hnc id p)
  | _ => simp

/-- C12 (amended): take an exported prefixed single-valued field whose type has
no custom decoder, reached by the field loop (the fields before it decode
without error).  If more than one token of the remaining token list starts with
its tag, `Unmarshal` returns the error `expected single value` for that field
and leaves the field, and the fields after it, as they were. -/
theorem Unmarshal_expected_single (cd : Codec) (line : Bytes) (pre post : List Field)
    (f : Field) (v : Val)
    (hpre : (unmarshalFields cd pre (line.splitOn 32)).2 = Outcome.ok)
    (ht : f.tagged = true) (hx : f.exported = true)
    (hv : f.val = FieldVal.one v) (hnc : ∀ id p, v ≠ Val.custom id p)
    (hmany : 1 < (matching f.tag (subAfter cd pre (line.splitOn 32))).length) :
    Unmarshal cd line (pre ++ f :: post) =
      ((unmarshalFields cd pre (line.splitOn 32)).1 ++ f :: post,
        Outcome.error (Err.expectedSingle f.name)) := by
  have hu := unmarshalField_many cd f v _ ht hx hv hnc hmany
  have := Unmarshal_stops_at cd line pre post f hpre (by rw [hu]; simp)
  rw [hu] at this
  exact this

theorem Unmarshal_expected_single_witness :
    (unmarshalFields noCodec [⟨"A", true, str "#", FieldVal.one (Val.str [])⟩]
        ((str "NIa NIb NIc").splitOn 32)).2 = Outcome.ok ∧
    1 < (matching (str "NI") (subAfter noCodec [⟨"A", true, str "#", FieldVal.one (Val.str [])⟩]
        ((str "NIa NIb NIc").splitOn 32))).length ∧
    Unmarshal noCodec (str "NIa NIb NIc")
        ([⟨"A", true, str "#", FieldVal.one (Val.str [])⟩] ++
          ⟨"N", true, str "NI", FieldVal.one (Val.str [])⟩ :: []) =
      ((unmarshalFields noCodec [⟨"A", true, str "#", FieldVal.one (Val.str [])⟩]
          ((str "NIa NIb NIc").splitOn 32)).1 ++ ⟨"N", true, str "NI", FieldVal.one (Val.str [])⟩ :: [],
        Outcome.error (Err.expectedSingle "N")) :=
  ⟨by decide, by decide,
   Unmarshal_expected_single noCodec (str "NIa NIb NIc")
     [⟨"A", true, str "#", FieldVal.one (Val.str [])⟩] []
     ⟨"N", true, str "NI", FieldVal.one (Val.str [])⟩ (Val.str []) (by decide) (by decide) rfl
     rfl (fun _ _ h => Val.noConfusion h) (by decide)⟩

/-- C12 (counterexample): a prefixed field of a custom-codec type and the line
`IDa IDb`, in which two tokens start with its tag: `Unmarshal` hands the first
value to `UnmarshalAdc` and returns no error.  And for an unexported prefixed
`string` field and the line `NIa NIb`, `Unmarshal` panics in
`rv.Field(i).Addr().Interface()` before it counts the values. -/
theorem Unmarshal_custom_takes_first :
    Unmarshal noCodec (str "IDa IDb") [⟨"I", true, str "ID", FieldVal.one (Val.custom 0 [])⟩] =
      ([⟨"I", true, str "ID", FieldVal.one (Val.custom 0 (str "a"))⟩], Outcome.ok) ∧
    Unmarshal noCodec (str "NIa NIb") [⟨"n", false, str "NI", FieldVal.one (Val.str [])⟩] =
      ([⟨"n", false, str "NI", FieldVal.one (Val.str [])⟩], Outcome.panic) := by
  decide

theorem marshalValue_unsupported (cd : Codec) (v : Val)
    (hty : typeOf v = Ty.bool ∨ typeOf v = Ty.uint64) :
    marshalValue cd v = Res.error Err.unsupportedType := by
  cases v <;> simp [typeOf] at hty <;> simp [marshalValue]

theorem unmarshalValue_unsupported (cd : Codec) (v : Val) (s : Bytes)
    (hty : typeOf v = Ty.bool ∨ typeOf v = Ty.uint64) (hs : s ≠ []) :
    unmarshalValue cd s v = (v, some Err.unknownType) := by
  cases v <;> simp [typeOf] at hty <;> simp [unmarshalValue, unmarshalTy, typeOf, hs]

theorem marshalField_unsupported (cd : Codec) (f : Field) (v : Val) (st : WState)
    (hx : f.exported = true)
    (hv : f.val = FieldVal.one v) (hty : typeOf v = Ty.bool ∨ typeOf v = Ty.uint64)
    (h : f.positional = true ∨ (f.tagged = true ∧ holdsZero cd f.val = false)) :
    marshalField cd f st = Res.error (Err.cannotMarshal f.name Err.unsupportedType) := by
  have hm := marshalValue_unsupported cd v hty
  rcases h with hp | ⟨ht, hz⟩
  · have h1 := (tag_cases f).2.1.mp hp
    have h0 : ¬ (str "#" = [] ∨ str "#" = str "-") := by decide
    simp [marshalField, h1, h0, hv, hm, hx]
  · obtain ⟨h1, h2⟩ := (tag_cases f).2.2.mp ht
    have hiz := isZero_exported cd f hx (fun id p hc => by
      rw [hv] at hc
      simp only [FieldVal.one.injEq] at hc
      rw [hc] at hty
      simp [typeOf] at hty)
    simp only [marshalField, h1, h2, if_false, ne_eq, not_false_eq_true, if_true, hiz, hz]
    simp [hv, hm, hx]

theorem unmarshalField_unsupported (cd : Codec) (f : Field) (v : Val) (sub : List Bytes)
    (tok : Bytes) (rest : List Bytes) (hx : f.exported = true)
    (hv : f.val = FieldVal.one v) (hty : typeOf v = Ty.bool ∨ typeOf v = Ty.uint64)
    (htok : tok ≠ [])
    (h : (f.positional = true ∧ sub = tok :: rest) ∨
      (f.tagged = true ∧ matching f.tag sub = [tok])) :
    (unmarshalField cd f sub).1 = f ∧
      (unmarshalField cd f sub).2.2 = Outcome.error (Err.onField f.name Err.unknownType) := by
  have hu := unmarshalValue_unsupported cd v tok hty htok
  have hf : ({ f with val := FieldVal.one v } : Field) = f := field_eta f _ hv
  rcases h with ⟨hp, hsub⟩ | ⟨ht, hm⟩
  · have h1 := (tag_cases f).2.1.mp hp
    have h0 : ¬ (str "#" = [] ∨ str "#" = str "-") := by decide
    simp only [unmarshalField, h1, h0, if_false, if_true, hsub, hv, unmarshalFieldVal, hu]
    rw [← h1, ← hv]
    simp only [hx, Bool.true_eq_false, if_false]
    rw [hv]
    exact ⟨field_eta_exported f _ hv hx, trivial⟩
  · obtain ⟨h1, h2⟩ := (tag_cases f).2.2.mp ht
    have hnc : ∀ id p, v ≠ Val.custom id p := by
      intro id p hc; rw [hc] at hty; simp [typeOf] at hty
    simp only [unmarshalField, h1, h2, if_false, hm, hv]
    cases v with
    | custom id p => exact absurd rfl (hnc id p)
    | _ =>
      simp only [hx, Bool.true_eq_false, if_false, ne_eq, not_true_eq_false, hu]
      exact ⟨field_eta_exported f _ hv hx, trivial⟩

/-- C15 (amended): take an exported single-valued field of type `bool` or
`uint64` (no custom codec, no supported kind) that the field loop reaches.
`Marshal` returns the unsupported-type error for it when the field is
positional, or prefixed and not zero-valued.  `Unmarshal` returns the
unknown-type error for it, leaving the field as it was, when a non-empty token
is decoded into it: the field is positional and the next token is non-empty, or
it is prefixed and exactly one token starts with its tag, with a non-empty
rest. -/
theorem unsupported_type_surfaced (cd : Codec) (pre post : List Field) (f : Field) (v : Val)
    (hx : f.exported = true)
    (hv : f.val = FieldVal.one v) (hty : typeOf v = Ty.bool ∨ typeOf v = Ty.uint64) :
    (∀ st, marshalFields cd pre { buf := [], first := true } = Res.ok st →
      (f.positional = true ∨ (f.tagged = true ∧ holdsZero cd f.val = false)) →
      Marshal cd (pre ++ f :: post) =
        Res.error (Err.cannotMarshal f.name Err.unsupportedType)) ∧
    (∀ line tok rest, (unmarshalFields cd pre (line.splitOn 32)).2 = Outcome.ok →
      tok ≠ [] →
      ((f.positional = true ∧ subAfter cd pre (line.splitOn 32) = tok :: rest) ∨
        (f.tagged = true ∧ matching f.tag (subAfter cd pre (line.splitOn 32)) = [tok])) →
      Unmarshal cd line (pre ++ f :: post) =
        ((unmarshalFields cd pre (line.splitOn 32)).1 ++ f :: post,
          Outcome.error (Err.onField f.name Err.unknownType))) := by
  constructor
  · intro st hst h
    have hf := marshalField_unsupported cd f v st hx hv hty h
    simp only [Marshal, marshalFields_append, hst, marshalFields, hf]
  · intro line tok rest hpre htok h
    obtain ⟨h1, h2⟩ := unmarshalField_unsupported cd f v _ tok rest hx hv hty htok h
    have := Unmarshal_stops_at cd line pre post f hpre (by rw [h2]; simp)
    rw [h1, h2] at this
    exact this

theorem unsupported_type_surfaced_witness :
    Marshal noCodec ([⟨"A", true, str "#", FieldVal.one (Val.str (str "a"))⟩] ++
        ⟨"B", true, str "BO", FieldVal.one (Val.bool true)⟩ :: []) =
      Res.error (Err.cannotMarshal "B" Err.unsupportedType) ∧
    Unmarshal noCodec (str "a BO1") ([⟨"A", true, str "#", FieldVal.one (Val.str (str "a"))⟩] ++
        ⟨"B", true, str "BO", FieldVal.one (Val.bool true)⟩ :: []) =
      ((unmarshalFields noCodec [⟨"A", true, str "#", FieldVal.one (Val.str (str "a"))⟩]
          ((str "a BO1").splitOn 32)).1 ++ ⟨"B", true, str "BO", FieldVal.one (Val.bool true)⟩ :: [],
        Outcome.error (Err.onField "B" Err.unknownType)) :=
  ⟨(unsupported_type_surfaced noCodec [⟨"A", true, str "#", FieldVal.one (Val.str (str "a"))⟩] []
      ⟨"B", true, str "BO", FieldVal.one (Val.bool true)⟩ (Val.bool true) rfl rfl
      (Or.inl rfl)).1
      _ rfl (Or.inr ⟨by decide, by decide⟩),
   (unsupported_type_surfaced noCodec [⟨"A", true, str "#", FieldVal.one (Val.str (str "a"))⟩] []
      ⟨"B", true, str "BO", FieldVal.one (Val.bool true)⟩ (Val.bool true) rfl rfl
      (Or.inl rfl)).2
      (str "a BO1") (str "1") [] (by decide) (by decide) (Or.inr ⟨by decide, by decide⟩)⟩

/-- C15 (counterexample): a record whose only wire field is a prefixed `bool`.
With the field zero-valued `Marshal` skips it and returns the empty line; with
no token carrying its tag `Unmarshal` leaves it and returns no error; with an
empty value it is set to `false`; and for a positional `bool` the empty token
sets it to `false` and returns no error.  When the field is unexported, `Marshal`
and `Unmarshal` panic in `Interface()` instead of returning an error. -/
theorem unsupported_type_not_surfaced :
    Marshal noCodec [⟨"B", true, str "BO", FieldVal.one (Val.bool false)⟩] = Res.ok [] ∧
    Unmarshal noCodec (str "NIx") [⟨"B", true, str "BO", FieldVal.one (Val.bool true)⟩] =
      ([⟨"B", true, str "BO", FieldVal.one (Val.bool true)⟩], Outcome.ok) ∧
    Unmarshal noCodec (str "BO") [⟨"B", true, str "BO", FieldVal.one (Val.bool true)⟩] =
      ([⟨"B", true, str "BO", FieldVal.one (Val.bool false)⟩], Outcome.ok) ∧
    Unmarshal noCodec [] [⟨"B", true, str "#", FieldVal.one (Val.bool true)⟩] =
      ([⟨"B", true, str "#", FieldVal.one (Val.bool false)⟩], Outcome.ok) ∧
    Marshal noCodec [⟨"b", false, str "BO", FieldVal.one (Val.bool true)⟩] = Res.panic ∧
    Unmarshal noCodec (str "BO1") [⟨"b", false, str "BO", FieldVal.one (Val.bool true)⟩] =
      ([⟨"b", false, str "BO", FieldVal.one (Val.bool true)⟩], Outcome.panic) := by
  decide

theorem unmarshalElems_ok_map (cd : Codec) (e : Ty) : ∀ (vals : List Bytes) (vs : List Val),
    unmarshalElems cd e vals = .ok vs →
    vs = vals.map (fun sv => (unmarshalTy cd sv e (zeroOf cd e)).1) ∧
      ∀ sv ∈ vals, (unmarshalTy cd sv e (zeroOf cd e)).2 = none := by
  intro vals
  induction vals with
  | nil =>
    intro vs h
    simp only [unmarshalElems, Except.ok.injEq] at h
    subst h
    simp
  | cons sv rest ih =>
    intro vs h
    simp only [unmarshalElems] at h
    rcases hu : unmarshalTy cd sv e (zeroOf cd e) with ⟨v, oe⟩
    rw [hu] at h
    cases oe with
    | some err => simp at h
    | none =>
      simp only at h
      cases hr : unmarshalElems cd e rest with
      | error err => rw [hr] at h; simp at h
      | ok ws =>
        rw [hr] at h
        simp only [Except.ok.injEq] at h
        obtain ⟨h1, h2⟩ := ih ws hr
        subst h
        refine ⟨?_, ?_⟩
        · simp [hu, h1]
        · intro s hs
          rcases List.mem_cons.mp hs with rfl | hs
          · simp [hu]
          · exact h2 s hs

theorem unmarshalFields_append_outcome (cd : Codec) (pre rest : List Field) (sub : List Bytes)
    (h : (unmarshalFields cd (pre ++ rest) sub).2 = Outcome.ok) :
    (unmarshalFields cd pre sub).2 = Outcome.ok ∧
      (unmarshalFields cd rest (subAfter cd pre sub)).2 = Outcome.ok := by
  have hpre : (unmarshalFields cd pre sub).2 = Outcome.ok := by
    by_contra hne
    rw [unmarshalFields_append_stop cd rest pre sub hne] at h
    exact hne h
  refine ⟨hpre, ?_⟩
  rw [unmarshalFields_append_ok cd rest pre sub hpre] at h
  exact h

theorem unmarshalField_slice (cd : Codec) (f : Field) (e : Ty) (sub : List Bytes)
    (ht : f.tagged = true)
    (hs : f.val = FieldVal.sliceNil e ∨ ∃ vs, f.val = FieldVal.slice e vs)
    (hm : matching f.tag sub ≠ [])
    (hok : (unmarshalField cd f sub).2.2 = Outcome.ok) :
    (unmarshalField cd f sub).1 =
        Field.mk f.name f.exported f.tag (FieldVal.slice e
          ((matching f.tag sub).map fun sv => (unmarshalTy cd sv e (zeroOf cd e)).1)) ∧
      ∀ sv ∈ matching f.tag sub, (unmarshalTy cd sv e (zeroOf cd e)).2 = none := by
  obtain ⟨h1, h2⟩ := (tag_cases f).2.2.mp ht
  cases hmm : matching f.tag sub with
  | nil => exact absurd hmm hm
  | cons v0 vrest =>
    have hx : f.exported = true := by
      cases hx : f.exported with
      | true => rfl
      | false => simp [unmarshalField, h1, h2, hmm, hx] at hok
    cases hel : unmarshalElems cd e (v0 :: vrest) with
    | error err =>
      rcases hs with hs | ⟨vs, hs⟩ <;>
        simp [unmarshalField, h1, h2, hmm, hs, hel, hx] at hok
    | ok ws =>
      obtain ⟨hw, hall⟩ := unmarshalElems_ok_map cd e _ ws hel
      refine ⟨?_, hall⟩
      rcases hs with hs | ⟨vs, hs⟩ <;>
        simp only [unmarshalField, h1, h2, if_false, hmm, hs, hel, hw, hx, Bool.true_eq_false]

/-- C16 (amended): take a prefixed slice field without a custom decoder and a
line on which `Unmarshal` succeeds.  Among the tokens of the line left after
every positional field before it has taken one, let at least one start with the
field's tag.  Then the field is set to a slice with one element per such token,
in the order of the line: the j-th element is what `unmarshalValue` decodes
from the j-th such token with the tag cut off, and each of these decodes
succeeds. -/
theorem Unmarshal_repeated_field (cd : Codec) (line : Bytes) (pre post : List Field)
    (f : Field) (e : Ty) (fields : List Field)
    (ht : f.tagged = true)
    (hs : f.val = FieldVal.sliceNil e ∨ ∃ vs, f.val = FieldVal.slice e vs)
    (hok : Unmarshal cd line (pre ++ f :: post) = (fields, Outcome.ok))
    (hm : matching f.tag (subAfter cd pre (line.splitOn 32)) ≠ []) :
    fields[pre.length]? =
        some (Field.mk f.name f.exported f.tag (FieldVal.slice e
          ((matching f.tag (subAfter cd pre (line.splitOn 32))).map
            fun sv => (unmarshalTy cd sv e (zeroOf cd e)).1))) ∧
      ∀ sv ∈ matching f.tag (subAfter cd pre (line.splitOn 32)),
        (unmarshalTy cd sv e (zeroOf cd e)).2 = none := by
  have h2 : (unmarshalFields cd (pre ++ f :: post) (line.splitOn 32)).2 = Outcome.ok := by
    have := congrArg Prod.snd hok
    exact this
  have h1 : (unmarshalFields cd (pre ++ f :: post) (line.splitOn 32)).1 = fields := by
    have := congrArg Prod.fst hok
    exact this
  obtain ⟨hpre, hrest⟩ := unmarshalFields_append_outcome cd pre (f :: post) _ h2
  have hf := unmarshalFields_cons_outcome cd f post _ hrest
  obtain ⟨hval, hall⟩ := unmarshalField_slice cd f e _ ht hs hm hf
  refine ⟨?_, hall⟩
  rw [← h1, (unmarshalFields_at cd pre post f _).1 hpre, hval]

set_option maxRecDepth 100000 in
theorem Unmarshal_repeated_field_witness :
    Unmarshal noCodec (str "SUx a SUy z")
        ([⟨"P", true, str "#", FieldVal.one (Val.str [])⟩] ++
          ⟨"S", true, str "SU", FieldVal.sliceNil Ty.string⟩ ::
            [⟨"Q", true, str "#", FieldVal.one (Val.str [])⟩]) =
      ([⟨"P", true, str "#", FieldVal.one (Val.str (str "SUx"))⟩,
        ⟨"S", true, str "SU", FieldVal.slice Ty.string [Val.str (str "y")]⟩,
        ⟨"Q", true, str "#", FieldVal.one (Val.str (str "a"))⟩], Outcome.ok) ∧
    matching (str "SU") (subAfter noCodec [⟨"P", true, str "#", FieldVal.one (Val.str [])⟩]
        ((str "SUx a SUy z").splitOn 32)) = [str "y"] ∧
    ([⟨"P", true, str "#", FieldVal.one (Val.str (str "SUx"))⟩,
        ⟨"S", true, str "SU", FieldVal.slice Ty.string [Val.str (str "y")]⟩,
        ⟨"Q", true, str "#", FieldVal.one (Val.str (str "a"))⟩] : List Field)[
          ([⟨"P", true, str "#", FieldVal.one (Val.str [])⟩] : List Field).length]? =
      some (Field.mk "S" true (str "SU") (FieldVal.slice Ty.string
          ((matching (str "SU") (subAfter noCodec [⟨"P", true, str "#", FieldVal.one (Val.str [])⟩]
            ((str "SUx a SUy z").splitOn 32))).map
              fun sv => (unmarshalTy noCodec sv Ty.string (zeroOf noCodec Ty.string)).1))) :=
  ⟨by decide!, by decide!,
   (Unmarshal_repeated_field noCodec (str "SUx a SUy z")
      [⟨"P", true, str "#", FieldVal.one (Val.str [])⟩] [⟨"Q", true, str "#", FieldVal.one (Val.str [])⟩]
      ⟨"S", true, str "SU", FieldVal.sliceNil Ty.string⟩ Ty.string
      [⟨"P", true, str "#", FieldVal.one (Val.str (str "SUx"))⟩,
        ⟨"S", true, str "SU", FieldVal.slice Ty.string [Val.str (str "y")]⟩,
        ⟨"Q", true, str "#", FieldVal.one (Val.str (str "a"))⟩]
      (by decide) (Or.inl rfl) (by decide!) (by decide!)).1⟩

/-- C16 (counterexample): the line `SUx SUy` has two tokens that start with the
tag `SU`, and `Unmarshal` succeeds on it, but the positional field declared
first takes the token `SUx`, so the slice field gets one element, not two. -/
theorem Unmarshal_repeated_after_positional :
    ((str "SUx SUy").splitOn 32).filter (fun t => (str "SU").isPrefixOf t) =
      [str "SUx", str "SUy"] ∧
    Unmarshal noCodec (str "SUx SUy")
        [⟨"P", true, str "#", FieldVal.one (Val.str [])⟩,
         ⟨"S", true, str "SU", FieldVal.sliceNil Ty.string⟩] =
      ([⟨"P", true, str "#", FieldVal.one (Val.str (str "SUx"))⟩,
        ⟨"S", true, str "SU", FieldVal.slice Ty.string [Val.str (str "y")]⟩], Outcome.ok) := by
  decide!

end Adc

namespace Autoreg

theorem storeAt_length (buf : Bytes) (i : Nat) (data : Bytes)
    (h : i + data.length ≤ buf.length) : (storeAt buf i data).length = buf.length := by
  simp only [storeAt, List.length_append, List.length_take, List.length_drop]
  omega

theorem storeAt_window (buf : Bytes) (i : Nat) (data : Bytes) (h : i ≤ buf.length) :
    ((storeAt buf i data).drop i).take data.length = data := by
  have h1 : (buf.take i).length = i := by simp [List.length_take, h]
  simp only [storeAt, List.append_assoc]
  rw [List.drop_append_of_le_length (by omega)]
  rw [List.drop_of_length_le (by omega), List.nil_append]
  simp

theorem indexPipe_of_not_mem (s : Bytes) (h : 124 ∉ s) : indexPipe s = -1 := by
  have : ¬ List.indexOf 124 s < s.length := by
    intro hlt
    exact h (List.indexOf_lt_length.mp hlt)
  simp [indexPipe, this]

theorem read_length_le (r : Reader) (k : Nat) : (r.read k).1.length ≤ k := by
  cases r with
  | nil => simp [Reader.read]
  | cons ev rest =>
    simp only [Reader.read]
    split
    · assumption
    · simp [List.length_take]

theorem scanLoop_full (fuel : Nat) (r : Reader) (buf : Bytes) (i : Nat)
    (h : buf.length ≤ i) :
    scanLoop (fuel + 1) r buf i =
      some { tokenEnd := -1, consumed := 0, err := some Err.ErrShortBuffer, buf := buf } := by
  have : ¬ i < buf.length := by omega
  simp [scanLoop, this]

theorem scanLoop_data (fuel : Nat) (r : Reader) (buf : Bytes) (i : Nat) (data : Bytes)
    (r1 : Reader) (h : i < buf.length) (hr : r.read (buf.length - i) = (data, none, r1)) :
    scanLoop (fuel + 1) r buf i =
      if 0 < indexPipe (((storeAt buf i data).drop i).take data.length) then
        some { tokenEnd := i + indexPipe (((storeAt buf i data).drop i).take data.length),
               consumed := i + data.length, err := none, buf := storeAt buf i data }
      else scanLoop fuel r1 (storeAt buf i data) (i + data.length) := by
  simp only [scanLoop, h, if_true, hr]

theorem scanLoop_err (fuel : Nat) (r : Reader) (buf : Bytes) (i : Nat) (data : Bytes)
    (e : Err) (r1 : Reader) (h : i < buf.length)
    (hr : r.read (buf.length - i) = (data, some e, r1)) :
    scanLoop (fuel + 1) r buf i =
      some { tokenEnd := -1, consumed := 0,
             err := some (if e = Err.EOF then Err.ErrUnexpectedEOF else e),
             buf := storeAt buf i data } := by
  simp only [scanLoop, h, if_true, hr]
  cases e <;> simp

/-- The loop returns as soon as the fuel covers the answers still to be read, or
the buffer is already full. -/
theorem scanLoop_isSome (fuel : Nat) : ∀ (r : Reader) (buf : Bytes) (i : Nat),
    (r.length + 1 ≤ fuel ∨ (1 ≤ fuel ∧ buf.length ≤ i)) → (scanLoop fuel r buf i).isSome := by
  induction fuel with
  | zero => intro r buf i h; omega
  | succ fuel ih =>
    intro r buf i h
    by_cases hi : i < buf.length
    · rcases hrd : r.read (buf.length - i) with ⟨data, err, r1⟩
      cases err with
      | some e => rw [scanLoop_err fuel r buf i data e r1 hi hrd]; rfl
      | none =>
        rw [scanLoop_data fuel r buf i data r1 hi hrd]
        split
        · rfl
        · have hfuel : r.length + 1 ≤ fuel + 1 := by omega
          have hdl : data.length ≤ buf.length - i := by
            have := read_length_le r (buf.length - i)
            rw [hrd] at this
            exact this
          apply ih
          cases r with
          | nil => simp [Reader.read] at hrd
          | cons ev rest =>
            simp only [Reader.read] at hrd
            split at hrd
            · simp only [Prod.mk.injEq] at hrd
              left
              rw [← hrd.2.2]
              simp only [List.length_cons] at hfuel
              omega
            · simp only [Prod.mk.injEq] at hrd
              right
              have hlen : data.length = buf.length - i := by
                rw [← hrd.1, List.length_take]
                omega
              rw [storeAt_length buf i data (by omega)]
              simp only [List.length_cons] at hfuel
              omega
    · rw [scanLoop_full fuel r buf i (by omega)]
      rfl

/-- The model of `scanOneTo` never runs out of fuel: the function returns. -/
theorem scanOneTo_returns (r : Reader) (buf : Bytes) : (scanOneTo r buf).isSome :=
  scanLoop_isSome _ r buf 0 (Or.inl (Nat.le_refl _))

theorem scanLoop_short (pre : Reader) : ∀ (fuel : Nat) (rest : Reader) (buf : Bytes) (i : Nat),
    (∀ ev ∈ pre, ev.err = none ∧ ev.data ≠ [] ∧ 124 ∉ ev.data) →
    buf.length ≤ i + (pre.map fun ev => ev.data.length).sum →
    pre.length + 1 ≤ fuel →
    ∃ buf1, buf1.length = buf.length ∧
      scanLoop fuel (pre ++ rest) buf i =
        some { tokenEnd := -1, consumed := 0, err := some Err.ErrShortBuffer, buf := buf1 } := by
  induction pre with
  | nil =>
    intro fuel rest buf i _ hlen hfuel
    obtain ⟨f, rfl⟩ : ∃ f, fuel = f + 1 := ⟨fuel - 1, by simp at hfuel; omega⟩
    exact ⟨buf, rfl, scanLoop_full f _ buf i (by simpa using hlen)⟩
  | cons ev pre ih =>
    intro fuel rest buf i hev hlen hfuel
    obtain ⟨f, rfl⟩ : ∃ f, fuel = f + 1 := ⟨fuel - 1, by simp at hfuel; omega⟩
    by_cases hi : i < buf.length
    · have hev0 := hev ev (List.mem_cons_self _ _)
      by_cases hfit : ev.data.length ≤ buf.length - i
      · have hrd : Reader.read (ev :: (pre ++ rest)) (buf.length - i)
            = (ev.data, none, pre ++ rest) := by
          simp [Reader.read, hfit, hev0.1]
        rw [List.cons_append, scanLoop_data f _ buf i ev.data _ hi hrd,
          storeAt_window buf i ev.data (by omega), indexPipe_of_not_mem _ hev0.2.2]
        simp only [show ¬ ((0 : Int) < -1) by omega, if_false]
        obtain ⟨buf1, hl, hs⟩ := ih f rest (storeAt buf i ev.data) (i + ev.data.length)
          (fun e he => hev e (List.mem_cons_of_mem _ he))
          (by
            rw [storeAt_length buf i ev.data (by omega)]
            simp only [List.map_cons, List.sum_cons] at hlen
            omega)
          (by simp only [List.length_cons] at hfuel; omega)
        exact ⟨buf1, by rw [hl, storeAt_length buf i ev.data (by omega)], hs⟩
      · have hrd : Reader.read (ev :: (pre ++ rest)) (buf.length - i)
            = (ev.data.take (buf.length - i), none,
                { data := ev.data.drop (buf.length - i), err := ev.err } :: (pre ++ rest)) := by
          simp [Reader.read, hfit]
        have htl : (ev.data.take (buf.length - i)).length = buf.length - i := by
          rw [List.length_take]; omega
        have hnp : 124 ∉ ev.data.take (buf.length - i) :=
          fun hm => hev0.2.2 (List.mem_of_mem_take hm)
        rw [List.cons_append, scanLoop_data f _ buf i _ _ hi hrd,
          storeAt_window buf i _ (by omega), indexPipe_of_not_mem _ hnp]
        simp only [show ¬ ((0 : Int) < -1) by omega, if_false]
        have hsl : (storeAt buf i (ev.data.take (buf.length - i))).length = buf.length :=
          storeAt_length buf i _ (by omega)
        obtain ⟨g, rfl⟩ : ∃ g, f = g + 1 :=
          ⟨f - 1, by simp only [List.length_cons] at hfuel; omega⟩
        exact ⟨_, hsl, scanLoop_full g _ _ _ (by rw [hsl, htl]; omega)⟩
    · exact ⟨buf, rfl, scanLoop_full f _ buf i (by omega)⟩

/-- C10: for a buffer of any length `n` and a reader whose first answers are
non-empty chunks without error, holding at least `n` bytes in total and no `|`,
`scanOneTo` returns (the model does not run out of fuel) the short-buffer error
with `tokenEnd = -1` and `consumed = 0`; the buffer keeps its length. -/
theorem scanOneTo_short_buffer (pre rest : Reader) (buf : Bytes)
    (hpre : ∀ ev ∈ pre, ev.err = none ∧ ev.data ≠ [] ∧ 124 ∉ ev.data)
    (hlen : buf.length ≤ (pre.map fun ev => ev.data.length).sum) :
    ∃ buf1, buf1.length = buf.length ∧
      scanOneTo (pre ++ rest) buf =
        some { tokenEnd := -1, consumed := 0, err := some Err.ErrShortBuffer, buf := buf1 } :=
  scanLoop_short pre _ rest buf 0 hpre (by simpa using hlen)
    (by simp only [List.length_append]; omega)

theorem scanOneTo_short_buffer_witness :
    (∀ ev ∈ ([⟨[65, 66], none⟩, ⟨[67, 68, 69], none⟩] : Reader),
        ev.err = none ∧ ev.data ≠ [] ∧ 124 ∉ ev.data) ∧
    ([0, 0, 0, 0] : Bytes).length ≤
        (([⟨[65, 66], none⟩, ⟨[67, 68, 69], none⟩] : Reader).map fun ev => ev.data.length).sum ∧
    ∃ buf1, buf1.length = ([0, 0, 0, 0] : Bytes).length ∧
      scanOneTo ([⟨[65, 66], none⟩, ⟨[67, 68, 69], none⟩] ++ [⟨[124], none⟩]) [0, 0, 0, 0] =
        some { tokenEnd := -1, consumed := 0, err := some Err.ErrShortBuffer, buf := buf1 } :=
  ⟨by decide, by decide,
    scanOneTo_short_buffer [⟨[65, 66], none⟩, ⟨[67, 68, 69], none⟩] [⟨[124], none⟩] [0, 0, 0, 0]
      (by decide) (by decide)⟩

/-- C4 (code evaluated at the failing inputs): a `|` that is the first byte of
the chunk a `Read` delivers is not taken as the delimiter, because the loop tests
`j > 0` on the index inside the chunk.  With the chunks `$Lock X` and `|` the
delimiter at stream index 7 is stored into the buffer and `scanOneTo` still ends
in `io.ErrUnexpectedEOF`; with the chunks `|` and `ab|` it returns index 3
although `buf[0]` is a `|`. -/
theorem scanOneTo_misses_chunk_leading_pipe :
    scanOneTo [⟨str "$Lock X", none⟩, ⟨str "|", none⟩] (List.replicate 12 0) =
        some { tokenEnd := -1, consumed := 0, err := some Err.ErrUnexpectedEOF,
               buf := str "$Lock X|" ++ [0, 0, 0, 0] } ∧
    scanOneTo [⟨str "|", none⟩, ⟨str "ab|", none⟩] (List.replicate 8 0) =
        some { tokenEnd := 3, consumed := 4, err := none,
               buf := str "|ab|" ++ [0, 0, 0, 0] } := by
  decide

/-! ### The scanner of `serve` -/

theorem indexOf_split (l : Bytes) (h : l.indexOf 124 < l.length) :
    l = l.take (l.indexOf 124) ++ 124 :: l.drop (l.indexOf 124 + 1) ∧
      124 ∉ l.take (l.indexOf 124) := by
  induction l with
  | nil => simp at h
  | cons b rest ih =>
    by_cases hb : b = 124
    · subst hb
      simp [List.indexOf_cons_self]
    · have hne : List.indexOf 124 (b :: rest) = List.indexOf 124 rest + 1 := by
        rw [List.indexOf_cons_ne _ hb]
      rw [hne] at h
      have h1 : List.indexOf 124 rest < rest.length := by simpa using h
      obtain ⟨e1, e2⟩ := ih h1
      rw [hne]
      refine ⟨?_, ?_⟩
      · simp only [List.take_succ_cons, List.drop_succ_cons, List.cons_append]
        rw [← e1]
      · simp only [List.take_succ_cons, List.mem_cons, not_or]
        exact ⟨fun h => hb h.symm, e2⟩

theorem read_bytes (r : Reader) (k : Nat) :
    (r.read k).1 ++ Reader.bytes (r.read k).2.2 = Reader.bytes r := by
  cases r with
  | nil => simp [Reader.read, Reader.bytes]
  | cons ev rest =>
    simp only [Reader.read]
    split
    · simp [Reader.bytes]
    · simp [Reader.bytes, ← List.append_assoc]

theorem fillLoop_bytes (space : Nat) (k : Nat) : ∀ (r : Reader),
    (fillLoop space k r).1 ++ Reader.bytes (fillLoop space k r).2.2 = Reader.bytes r := by
  induction k with
  | zero => intro r; simp [fillLoop]
  | succ k ih =>
    intro r
    have hr := read_bytes r space
    rcases hrd : r.read space with ⟨d, e, r1⟩
    rw [hrd] at hr
    simp only [fillLoop, hrd]
    cases e with
    | some e => exact hr
    | none =>
      simp only
      split
      · exact hr
      · rename_i hd
        have hd0 : d = [] := by
          cases d with
          | nil => rfl
          | cons a t => simp at hd
        rw [hd0] at hr
        rw [ih r1]
        simpa using hr

theorem setErr_stream (s : Scanner) (e : Err) : (s.setErr e).stream = s.stream := by
  simp only [Scanner.setErr, Scanner.stream]
  split <;> rfl

theorem trySplit_more (s s0 : Scanner) (h : s.trySplit = Step.more s0) :
    s0.err = none ∧ s.err = none ∧ s0.stream = s.stream ∧ s0.rd = s.rd ∧
      s0.pending = s.pending ∧ s0.start = s.start ∧ 124 ∉ s.pending := by
  simp only [Scanner.trySplit] at h
  split at h
  · split at h
    · simp at h
    · split at h
      · simp at h
      · rename_i h1 h2 h3
        simp only [Step.more.injEq] at h
        have hnp : 124 ∉ s.pending := by
          intro hm
          apply h2
          have : List.indexOf 124 s.pending < s.pending.length := List.indexOf_lt_length.mpr hm
          simp only [indexPipe, this, if_true]
          omega
        have he : s.err = none := by simpa using h3
        rw [← h]
        exact ⟨he, he, rfl, rfl, rfl, rfl, hnp⟩
  · rename_i h1
    simp only [Step.more.injEq] at h
    have h1 : s.pending = [] ∧ s.err = none := by
      simpa [not_or] using h1
    rw [← h]
    refine ⟨h1.2, h1.2, ?_, ?_, ?_, ?_, ?_⟩ <;> first | rfl | trivial | simp [h1.1]

theorem trySplit_done_true (s s1 : Scanner) (h : s.trySplit = Step.done true s1) :
    s.stream = s1.token ++ 124 :: s1.stream ∧ 124 ∉ s1.token ∧ s1.rd = s.rd ∧
      s1.err = s.err ∧ s.pending = s1.token ++ 124 :: s1.pending ∧
      s1.start = s.start + (s1.token.length + 1) := by
  simp only [Scanner.trySplit] at h
  split at h
  · split at h
    · rename_i h1 h2
      simp only [Step.done.injEq, true_and] at h
      subst h
      have hlt : List.indexOf 124 s.pending < s.pending.length := by
        by_contra hc
        simp [indexPipe, hc] at h2
      have hidx : (indexPipe s.pending).toNat = List.indexOf 124 s.pending := by
        simp [indexPipe, hlt]
      obtain ⟨e1, e2⟩ := indexOf_split s.pending hlt
      have hlen : (List.take (List.indexOf 124 s.pending) s.pending).length
          = List.indexOf 124 s.pending := by
        rw [List.length_take]; omega
      refine ⟨?_, ?_, rfl, rfl, ?_, ?_⟩
      · simp only [Scanner.stream, hidx]
        rw [← List.cons_append, ← List.append_assoc, ← e1]
      · simp only [hidx]
        exact e2
      · simp only [hidx]
        exact e1
      · simp only [hidx]
        rw [hlen]
    · split at h
      · simp at h
      · simp at h
  · simp at h

theorem trySplit_done_false (s s1 : Scanner) (h : s.trySplit = Step.done false s1) :
    s1.Err ≠ none := by
  simp only [Scanner.trySplit] at h
  split at h
  · split at h
    · simp at h
    · split at h
      · rename_i h1 h2 h3
        simp only [Step.done.injEq, true_and] at h
        subst h
        cases he : s.err with
        | none => exact absurd he h3
        | some e =>
          by_cases hE : e = Err.EOF
          · subst hE
            simp [Scanner.setErr, Scanner.Err, he]
          · simp [Scanner.setErr, Scanner.Err, he, hE]
      · simp at h
  · simp at h

theorem readMore_more (s s1 : Scanner) (h : s.readMore = Step.more s1) :
    s1.stream = s.stream := by
  simp only [Scanner.readMore] at h
  split at h
  · simp at h
  · split at h
    · simp at h
    · have hb := fillLoop_bytes (bufSize - (s.shiftStart + s.pending.length)) 101 s.rd
      split at h
      · rename_i d e r1 hf
        simp only [Step.more.injEq] at h
        rw [hf] at hb
        rw [← h, setErr_stream]
        simp only [Scanner.stream, List.append_assoc]
        rw [← hb]
      · rename_i d r1 hf
        simp only [Step.more.injEq] at h
        rw [hf] at hb
        rw [← h]
        simp only [Scanner.stream, List.append_assoc]
        rw [← hb]

theorem readMore_done (s s1 : Scanner) (ok : Bool) (herr : s.err = none)
    (h : s.readMore = Step.done ok s1) : ok = false ∧ s1.Err ≠ none := by
  simp only [Scanner.readMore, herr, ne_eq, not_true_eq_false, if_false] at h
  split at h
  · simp only [Step.done.injEq] at h
    obtain ⟨h1, h2⟩ := h
    refine ⟨h1.symm, ?_⟩
    rw [← h2]
    simp [Scanner.setErr, Scanner.Err, herr]
  · split at h <;> simp at h

theorem scanLoop_true (fuel : Nat) : ∀ (s s1 : Scanner),
    Scanner.scanLoop fuel s = some (true, s1) →
    s.stream = s1.token ++ 124 :: s1.stream ∧ 124 ∉ s1.token := by
  induction fuel with
  | zero => intro s s1 h; simp [Scanner.scanLoop] at h
  | succ fuel ih =>
    intro s s1 h
    simp only [Scanner.scanLoop] at h
    cases ht : s.trySplit with
    | done ok s2 =>
      rw [ht] at h
      simp only [Option.some.injEq, Prod.mk.injEq] at h
      obtain ⟨h1, h2⟩ := h
      subst h1 h2
      have := trySplit_done_true s s2 ht
      exact ⟨this.1, this.2.1⟩
    | more s0 =>
      rw [ht] at h
      simp only at h
      have hm := trySplit_more s s0 ht
      cases hr : s0.readMore with
      | done ok s2 =>
        rw [hr] at h
        simp only [Option.some.injEq, Prod.mk.injEq] at h
        have := readMore_done s0 s2 ok hm.1 hr
        rw [this.1] at h
        simp at h
      | more s2 =>
        rw [hr] at h
        simp only at h
        have h3 := ih s2 s1 h
        rw [readMore_more s0 s2 hr, hm.2.2.1] at h3
        exact h3

theorem scanLoop_false (fuel : Nat) : ∀ (s s1 : Scanner),
    Scanner.scanLoop fuel s = some (false, s1) → s1.Err ≠ none := by
  induction fuel with
  | zero => intro s s1 h; simp [Scanner.scanLoop] at h
  | succ fuel ih =>
    intro s s1 h
    simp only [Scanner.scanLoop] at h
    cases ht : s.trySplit with
    | done ok s2 =>
      rw [ht] at h
      simp only [Option.some.injEq, Prod.mk.injEq] at h
      obtain ⟨h1, h2⟩ := h
      subst h1 h2
      exact trySplit_done_false s s2 ht
    | more s0 =>
      rw [ht] at h
      simp only at h
      have hm := trySplit_more s s0 ht
      cases hr : s0.readMore with
      | done ok s2 =>
        rw [hr] at h
        simp only [Option.some.injEq, Prod.mk.injEq] at h
        have := readMore_done s0 s2 ok hm.1 hr
        rw [← h.2]
        exact this.2
      | more s2 =>
        rw [hr] at h
        exact ih s2 s1 h

theorem read_size_le (r : Reader) (k : Nat) : Reader.size (r.read k).2.2 ≤ Reader.size r := by
  cases r with
  | nil => simp [Reader.read, Reader.size]
  | cons ev rest =>
    simp only [Reader.read]
    split
    · simp [Reader.size]
    · simp only [Reader.size, List.map_cons, List.sum_cons, List.length_drop]
      omega

theorem read_size_lt (r : Reader) (k : Nat) (h : (r.read k).1 ≠ []) :
    Reader.size (r.read k).2.2 + 1 ≤ Reader.size r := by
  cases r with
  | nil => simp [Reader.read] at h
  | cons ev rest =>
    simp only [Reader.read] at h ⊢
    split
    · simp only [Reader.size, List.map_cons, List.sum_cons]
      omega
    · rename_i hk
      rw [if_neg hk] at h
      have hk0 : k ≠ 0 := by
        intro h0
        subst h0
        simp at h
      simp only [Reader.size, List.map_cons, List.sum_cons, List.length_drop]
      omega

theorem fillLoop_none_size (space : Nat) (k : Nat) : ∀ (r : Reader) (d : Bytes) (r1 : Reader),
    fillLoop space k r = (d, none, r1) → Reader.size r1 + 1 ≤ Reader.size r := by
  induction k with
  | zero => intro r d r1 h; simp [fillLoop] at h
  | succ k ih =>
    intro r d r1 h
    have hle0 := read_size_le r space
    have hlt0 := read_size_lt r space
    rcases hrd : r.read space with ⟨d0, e0, r0⟩
    rw [hrd] at hle0 hlt0
    have hle : Reader.size r0 ≤ Reader.size r := hle0
    have hlt : d0 ≠ [] → Reader.size r0 + 1 ≤ Reader.size r := hlt0
    cases e0 with
    | some e => simp [fillLoop, hrd] at h
    | none =>
      simp only [fillLoop, hrd] at h
      split at h
      · rename_i hd
        simp only [Prod.mk.injEq, true_and] at h
        rw [← h.2]
        apply hlt
        intro h0
        simp [h0] at hd
      · have := ih r0 d r1 h
        omega

theorem setErr_err_ne_none (s : Scanner) (e : Err) : (s.setErr e).err ≠ none := by
  simp only [Scanner.setErr]
  split
  · simp
  · rename_i h
    intro h1
    exact h (Or.inl h1)

theorem setErr_rd (s : Scanner) (e : Err) : (s.setErr e).rd = s.rd := by
  simp only [Scanner.setErr]
  split <;> rfl

theorem scannerLoop_isSome (fuel : Nat) : ∀ (s : Scanner),
    (Reader.size s.rd + 2 ≤ fuel ∨ (s.err ≠ none ∧ 1 ≤ fuel)) →
    (Scanner.scanLoop fuel s).isSome := by
  induction fuel with
  | zero => intro s h; omega
  | succ fuel ih =>
    intro s h
    simp only [Scanner.scanLoop]
    cases ht : s.trySplit with
    | done ok s2 => rfl
    | more s0 =>
      simp only
      have hm := trySplit_more s s0 ht
      have hfuel : Reader.size s0.rd + 2 ≤ fuel + 1 := by
        rcases h with h | h
        · rw [hm.2.2.2.1]; exact h
        · exact absurd hm.2.1 h.1
      cases hr : s0.readMore with
      | done ok s2 => rfl
      | more s2 =>
        simp only
        apply ih
        simp only [Scanner.readMore, hm.1, ne_eq, not_true_eq_false, if_false] at hr
        split at hr
        · simp at hr
        · split at hr
          · rename_i d e r1 hf
            simp only [Step.more.injEq] at hr
            right
            rw [← hr]
            exact ⟨setErr_err_ne_none _ _, by omega⟩
          · rename_i d r1 hf
            simp only [Step.more.injEq] at hr
            left
            rw [← hr]
            have := fillLoop_none_size _ _ _ _ _ hf
            simp only
            omega

/-- The model of `Scan` never runs out of fuel: the call returns. -/
theorem Scan_returns (s : Scanner) : ∃ ok s1, s.Scan = some (ok, s1) := by
  have h := scannerLoop_isSome (Reader.size s.rd + 2) s (Or.inl (Nat.le_refl _))
  rcases hs : s.Scan with _ | ⟨ok, s1⟩
  · simp only [Scanner.Scan] at hs
    rw [hs] at h
    simp at h
  · exact ⟨ok, s1, rfl⟩

theorem Scan_true (s s1 : Scanner) (h : s.Scan = some (true, s1)) :
    s.stream = s1.token ++ 124 :: s1.stream ∧ 124 ∉ s1.token :=
  scanLoop_true _ s s1 h

theorem Scan_false (s s1 : Scanner) (h : s.Scan = some (false, s1)) : s1.Err ≠ none :=
  scanLoop_false _ s s1 h

/-! ### `serve` -/

theorem token_unique : ∀ (a a1 b b1 : Bytes), a ++ 124 :: b = a1 ++ 124 :: b1 →
    124 ∉ a → 124 ∉ a1 → a = a1 ∧ b = b1 := by
  intro a
  induction a with
  | nil =>
    intro a1 b b1 h _ h2
    cases a1 with
    | nil => simpa using h
    | cons x t =>
      simp only [List.nil_append, List.cons_append, List.cons.injEq] at h
      exact absurd (by rw [← h.1]; exact List.mem_cons_self _ _) h2
  | cons x t ih =>
    intro a1 b b1 h h1 h2
    cases a1 with
    | nil =>
      simp only [List.nil_append, List.cons_append, List.cons.injEq] at h
      exact absurd (by rw [h.1]; exact List.mem_cons_self _ _) h1
    | cons y u =>
      simp only [List.cons_append, List.cons.injEq] at h
      obtain ⟨e1, e2⟩ := ih u b b1 h.2 (fun hm => h1 (List.mem_cons_of_mem _ hm))
        (fun hm => h2 (List.mem_cons_of_mem _ hm))
      exact ⟨by rw [h.1, e1], e2⟩

theorem frame_cons (t : Bytes) (ts : List Bytes) (rest : Bytes) :
    frame (t :: ts) rest = t ++ 124 :: frame ts rest := rfl

theorem frame_count (ts : List Bytes) (rest : Bytes) :
    ts.length ≤ (frame ts rest).count 124 := by
  induction ts with
  | nil => simp
  | cons t ts ih =>
    rw [frame_cons, List.count_append, List.count_cons_self, List.length_cons]
    omega

theorem readStringRaw_returns (r : Scanner) : ∃ s oe r1, readStringRaw r = some (s, oe, r1) := by
  obtain ⟨ok, s1, h⟩ := Scan_returns r
  cases ok with
  | false => exact ⟨[], s1.Err, s1, by simp [readStringRaw, h]⟩
  | true => exact ⟨s1.token, none, s1, by simp [readStringRaw, h]⟩

theorem readStringRaw_ok (r r1 : Scanner) (s : Bytes)
    (h : readStringRaw r = some (s, none, r1)) :
    r.stream = s ++ 124 :: r1.stream ∧ 124 ∉ s ∧ r.Scan = some (true, r1) ∧ r1.token = s := by
  simp only [readStringRaw] at h
  rcases hs : r.Scan with _ | ⟨ok, s1⟩
  · rw [hs] at h; simp at h
  · rw [hs] at h
    cases ok with
    | false =>
      simp only [Option.some.injEq, Prod.mk.injEq] at h
      have := Scan_false r s1 hs
      exact absurd h.2.1 this
    | true =>
      simp only [Option.some.injEq, Prod.mk.injEq, true_and] at h
      obtain ⟨h1, h2⟩ := h
      subst h2
      have := Scan_true r s1 hs
      rw [h1] at this
      exact ⟨this.1, this.2, rfl, h1⟩

theorem readString_returns {L : Type} (nm : Nmdc L) (r : Scanner) :
    ∃ s oe r1, readString nm r = some (s, oe, r1) := by
  obtain ⟨s, oe, r1, h⟩ := readStringRaw_returns r
  cases oe with
  | none => exact ⟨nm.Unescape s, none, r1, by simp [readString, h]⟩
  | some e => exact ⟨[], some e, r1, by simp [readString, h]⟩

theorem readString_ok {L : Type} (nm : Nmdc L) (r r1 : Scanner) (s : Bytes)
    (h : readString nm r = some (s, none, r1)) :
    ∃ t, s = nm.Unescape t ∧ readStringRaw r = some (t, none, r1) := by
  simp only [readString] at h
  rcases hs : readStringRaw r with _ | ⟨t, oe, s1⟩
  · rw [hs] at h; simp at h
  · rw [hs] at h
    cases oe with
    | some e => simp at h
    | none =>
      simp only [Option.some.injEq, Prod.mk.injEq, true_and] at h
      exact ⟨t, h.1.symm, by rw [h.2]⟩

/-- What `serveFields` does on any input: it returns; either it registers
nothing and returns an error, or the input starts with five `|`-terminated
tokens, the fourth and fifth parse as `int` and `uint64`, and the registry is
called once with the info assembled from them. -/
theorem serveFields_spec {L : Type} (nm : Nmdc L) (reg : Info → Option Err) (msg : Bytes)
    (r : Scanner) :
    ∃ res, serveFields nm reg msg r = some res ∧ res.wrote = some msg ∧
      ((res.calls = [] ∧ ∃ e, res.ret = Ret.returned (some e)) ∨
       (∃ t1 t2 t3 t4 t5 r5 users share,
          r.stream = frame [t1, t2, t3, t4, t5] r5.stream ∧
          (∀ t ∈ [t1, t2, t3, t4, t5], 124 ∉ t) ∧
          Strconv.Atoi t4 = some users ∧ Strconv.ParseUint t5 = some share ∧
          res.calls = [⟨nm.Unescape t1, t2, nm.Unescape t3, users, share⟩] ∧
          res.ret = Ret.returned (reg ⟨nm.Unescape t1, t2, nm.Unescape t3, users, share⟩) ∧
          res.sc = some r5)) := by
  unfold serveFields
  obtain ⟨name, oe1, r1, h1⟩ := readString_returns nm r
  rw [h1]
  cases oe1 with
  | some e => exact ⟨_, rfl, rfl, Or.inl ⟨rfl, e, rfl⟩⟩
  | none =>
  obtain ⟨t1, hn, hraw1⟩ := readString_ok nm r r1 name h1
  have k1 := readStringRaw_ok r r1 t1 hraw1
  obtain ⟨host, oe2, r2, h2⟩ := readStringRaw_returns r1
  simp only [h2]
  cases oe2 with
  | some e => exact ⟨_, rfl, rfl, Or.inl ⟨rfl, e, rfl⟩⟩
  | none =>
  have k2 := readStringRaw_ok r1 r2 host h2
  obtain ⟨desc, oe3, r3, h3⟩ := readString_returns nm r2
  simp only [h3]
  cases oe3 with
  | some e => exact ⟨_, rfl, rfl, Or.inl ⟨rfl, e, rfl⟩⟩
  | none =>
  obtain ⟨t3, hd, hraw3⟩ := readString_ok nm r2 r3 desc h3
  have k3 := readStringRaw_ok r2 r3 t3 hraw3
  obtain ⟨s4, oe4, r4, h4⟩ := readStringRaw_returns r3
  simp only [h4]
  cases oe4 with
  | some e => exact ⟨_, rfl, rfl, Or.inl ⟨rfl, e, rfl⟩⟩
  | none =>
  have k4 := readStringRaw_ok r3 r4 s4 h4
  dsimp only
  cases hu : Strconv.Atoi s4 with
  | none => exact ⟨_, rfl, rfl, Or.inl ⟨rfl, _, rfl⟩⟩
  | some users =>
  obtain ⟨s5, oe5, r5, h5⟩ := readStringRaw_returns r4
  simp only [h5]
  cases oe5 with
  | some e => exact ⟨_, rfl, rfl, Or.inl ⟨rfl, e, rfl⟩⟩
  | none =>
  have k5 := readStringRaw_ok r4 r5 s5 h5
  dsimp only
  cases hs : Strconv.ParseUint s5 with
  | none => exact ⟨_, rfl, rfl, Or.inl ⟨rfl, _, rfl⟩⟩
  | some share =>
    refine ⟨_, rfl, rfl, Or.inr ⟨t1, host, t3, s4, s5, r5, users, share, ?_, ?_, hu, hs, ?_, ?_, rfl⟩⟩
    · simp only [frame, List.foldr]
      rw [k1.1, k2.1, k3.1, k4.1, k5.1]
    · intro t ht
      simp only [List.mem_cons, List.mem_singleton, List.not_mem_nil, or_false] at ht
      rcases ht with rfl | rfl | rfl | rfl | rfl
      · exact k1.2.1
      · exact k2.2.1
      · exact k3.2.1
      · exact k4.2.1
      · exact k5.2.1
    · simp only [hn, hd]
    · simp only [hn, hd]

theorem scan_initial_stream (rd : Reader) :
    (⟨rd, 0, [], none, []⟩ : Scanner).stream = Reader.bytes rd := by
  simp [Scanner.stream]

/-- What `serve` does on any connection: it returns; either it registers nothing
(and then it panicked before writing anything, or returned an error), or the
input consists of a key token that decodes to the derived key and five more
tokens, and the registry is called once with the info assembled from them. -/
theorem serve_spec {L : Type} (nm : Nmdc L) (reg : Info → Option Err) (c : Conn) :
    ∃ res, serve nm reg c = some res ∧
      ((res.calls = [] ∧
          ((res.ret = Ret.panicked ∧ res.wrote = none) ∨ ∃ e, res.ret = Ret.returned (some e))) ∨
       (∃ (kd : Bytes) (k : Key) (t1 t2 t3 t4 t5 : Bytes) (r5 : Scanner) (users : Int)
          (share : Nat),
          Reader.bytes c.rd = frame [str "$Key " ++ kd, t1, t2, t3, t4, t5] r5.stream ∧
          (∀ t ∈ [str "$Key " ++ kd, t1, t2, t3, t4, t5], 124 ∉ t) ∧
          nm.keyUnmarshal kd = .ok k ∧ k.Key = (nm.lockKey (serverLock nm)).Key ∧
          Strconv.Atoi t4 = some users ∧ Strconv.ParseUint t5 = some share ∧
          res.calls = [⟨nm.Unescape t1, t2, nm.Unescape t3, users, share⟩] ∧
          res.ret = Ret.returned (reg ⟨nm.Unescape t1, t2, nm.Unescape t3, users, share⟩))) := by
  unfold serve
  cases hl : nm.lockMarshal (serverLock nm) with
  | error e => exact ⟨_, rfl, Or.inl ⟨rfl, Or.inr ⟨e, rfl⟩⟩⟩
  | ok data =>
  dsimp only
  split
  · exact ⟨_, rfl, Or.inl ⟨rfl, Or.inl ⟨rfl, rfl⟩⟩⟩
  · cases hw : c.writeErr with
    | some e => exact ⟨_, rfl, Or.inl ⟨rfl, Or.inr ⟨e, rfl⟩⟩⟩
    | none =>
    dsimp only
    obtain ⟨ok, r1, hs⟩ := Scan_returns ⟨c.rd, 0, [], none, []⟩
    rw [hs]
    cases ok with
    | false =>
      have hne := Scan_false _ r1 hs
      obtain ⟨e, he⟩ : ∃ e, r1.Err = some e := Option.ne_none_iff_exists'.mp hne
      exact ⟨_, rfl, Or.inl ⟨rfl, Or.inr ⟨e, by simp [he]⟩⟩⟩
    | true =>
    have k0 := Scan_true _ r1 hs
    rw [scan_initial_stream] at k0
    dsimp only
    split
    · exact ⟨_, rfl, Or.inl ⟨rfl, Or.inr ⟨_, rfl⟩⟩⟩
    · rename_i hpre
      rw [not_not] at hpre
      obtain ⟨kd, hkd⟩ := hpre
      have hdrop : r1.token.drop 5 = kd := by
        rw [← hkd]
        exact List.drop_left' rfl
      cases hk : nm.keyUnmarshal (r1.token.drop 5) with
      | error e => exact ⟨_, rfl, Or.inl ⟨rfl, Or.inr ⟨e, rfl⟩⟩⟩
      | ok key =>
      dsimp only
      split
      · exact ⟨_, rfl, Or.inl ⟨rfl, Or.inr ⟨_, rfl⟩⟩⟩
      · rename_i hkey
        rw [not_not] at hkey
        obtain ⟨res, hres, _, hcase⟩ := serveFields_spec nm reg
          (str "$Lock " ++ List.take (bufSize - 6) data ++ [124]) r1
        refine ⟨res, hres, ?_⟩
        rcases hcase with ⟨hc, e, he⟩ | ⟨t1, t2, t3, t4, t5, r5, users, share, h1, h2, h3, h4, h5, h6, _⟩
        · exact Or.inl ⟨hc, Or.inr ⟨e, he⟩⟩
        · refine Or.inr ⟨kd, key, t1, t2, t3, t4, t5, r5, users, share, ?_, ?_, ?_, hkey.symm,
            h3, h4, h5, h6⟩
          · rw [frame_cons, hkd, ← h1]
            exact k0.1
          · intro t ht
            rcases List.mem_cons.mp ht with rfl | ht
            · rw [hkd]; exact k0.2
            · exact h2 t ht
          · rw [← hdrop]; exact hk

/-- C9: once the lock is sent and a first token has arrived, `serve` goes on to
the registration fields exactly when that token is `$Key ` followed by bytes
that `key.UnmarshalNMDC` decodes to the key derived from the lock that was sent.
For every other first token it returns an error (`expected $Key`, the decoding
error, or `wrong key`) with no call of the registry, and the scanner is left as
it was right after the first token: no registration field is read. -/
theorem serve_handshake {L : Type} (nm : Nmdc L) (reg : Info → Option Err) (c : Conn)
    (data : Bytes) (r1 : Scanner)
    (hlock : nm.lockMarshal (serverLock nm) = .ok data) (hlen : data.length < bufSize - 6)
    (hw : c.writeErr = none)
    (hscan : Scanner.Scan ⟨c.rd, 0, [], none, []⟩ = some (true, r1)) :
    ((∃ kd k, r1.token = str "$Key " ++ kd ∧ nm.keyUnmarshal kd = .ok k ∧
          k.Key = (nm.lockKey (serverLock nm)).Key) →
        serve nm reg c = serveFields nm reg (str "$Lock " ++ data ++ [124]) r1) ∧
    (¬ (∃ kd k, r1.token = str "$Key " ++ kd ∧ nm.keyUnmarshal kd = .ok k ∧
          k.Key = (nm.lockKey (serverLock nm)).Key) →
        ∃ e, serve nm reg c =
            some ⟨Ret.returned (some e), some (str "$Lock " ++ data ++ [124]), [], some r1⟩ ∧
          (e = Err.expectedKey ∨ e = Err.wrongKey ∨
            ∃ kd, r1.token = str "$Key " ++ kd ∧ nm.keyUnmarshal kd = .error e)) := by
  have hi : ¬ (bufSize ≤ 6 + min data.length (bufSize - 6)) := by
    simp only [bufSize] at hlen ⊢
    omega
  have htake : List.take (bufSize - 6) data = data := List.take_of_length_le (by omega)
  have hserve : serve nm reg c =
      if ¬ (str "$Key ") <+: r1.token then
        some ⟨Ret.returned (some Err.expectedKey), some (str "$Lock " ++ data ++ [124]), [], some r1⟩
      else
        match nm.keyUnmarshal (r1.token.drop 5) with
        | .error e => some ⟨Ret.returned (some e), some (str "$Lock " ++ data ++ [124]), [], some r1⟩
        | .ok key =>
          if (nm.lockKey (serverLock nm)).Key ≠ key.Key then
            some ⟨Ret.returned (some Err.wrongKey), some (str "$Lock " ++ data ++ [124]), [],
              some r1⟩
          else serveFields nm reg (str "$Lock " ++ data ++ [124]) r1 := by
    unfold serve
    simp only [hlock, hi, if_false, hw, hscan, htake]
  rw [hserve]
  constructor
  · rintro ⟨kd, k, htok, hk, hkk⟩
    have hp : (str "$Key ") <+: r1.token := ⟨kd, htok.symm⟩
    have hdrop : r1.token.drop 5 = kd := by rw [htok]; exact List.drop_left' rfl
    simp only [hp, not_true_eq_false, if_false, hdrop, hk, hkk, ne_eq]
  · intro hna
    by_cases hp : (str "$Key ") <+: r1.token
    · obtain ⟨kd, hkd⟩ := hp
      have hp2 : (str "$Key ") <+: r1.token := ⟨kd, hkd⟩
      have hdrop : r1.token.drop 5 = kd := by rw [← hkd]; exact List.drop_left' rfl
      simp only [hp2, not_true_eq_false, if_false, hdrop]
      cases hk : nm.keyUnmarshal kd with
      | error e => exact ⟨e, rfl, Or.inr (Or.inr ⟨kd, hkd.symm, hk⟩)⟩
      | ok key =>
        have hne : (nm.lockKey (serverLock nm)).Key ≠ key.Key := by
          intro heq
          exact hna ⟨kd, key, hkd.symm, hk, heq.symm⟩
        simp only [hne, ne_eq, not_false_eq_true, if_true]
        exact ⟨_, rfl, Or.inr (Or.inl rfl)⟩
    · simp only [hp, not_false_eq_true, if_true]
      exact ⟨_, rfl, Or.inl rfl⟩

theorem frame_inj : ∀ (ts ts1 : List Bytes) (rest rest1 : Bytes),
    ts.length = ts1.length → (∀ t ∈ ts, 124 ∉ t) → (∀ t ∈ ts1, 124 ∉ t) →
    frame ts rest = frame ts1 rest1 → ts = ts1 ∧ rest = rest1 := by
  intro ts
  induction ts with
  | nil =>
    intro ts1 rest rest1 hl _ _ h
    cases ts1 with
    | nil => exact ⟨rfl, h⟩
    | cons t u => simp at hl
  | cons t ts ih =>
    intro ts1 rest rest1 hl h1 h2 h
    cases ts1 with
    | nil => simp at hl
    | cons t1 u =>
      rw [frame_cons, frame_cons] at h
      obtain ⟨e1, e2⟩ := token_unique _ _ _ _ h (h1 t (List.mem_cons_self _ _))
        (h2 t1 (List.mem_cons_self _ _))
      obtain ⟨e3, e4⟩ := ih u rest rest1 (by simpa using hl)
        (fun x hx => h1 x (List.mem_cons_of_mem _ hx))
        (fun x hx => h2 x (List.mem_cons_of_mem _ hx)) e2
      exact ⟨by rw [e1, e3], e4⟩

/-- C8: `serve` returns on every connection.  `RegisterHub` is called at most
once, and only after the key token and five further `|`-terminated tokens were
read and the fourth and fifth parsed as `int` and `uint64`; otherwise nothing is
registered and, once the lock was written, the call returns a non-nil error.
In particular nothing is registered when the stream holds fewer than six `|`
(the key token and fewer than five fields), when its fourth field is not a
decimal `int`, and when its fifth field is not a decimal `uint64`. -/
theorem serve_aborts_without_registering {L : Type} (nm : Nmdc L) (reg : Info → Option Err)
    (c : Conn) :
    ∃ res, serve nm reg c = some res ∧
      ((res.calls = [] ∧
          ((res.ret = Ret.panicked ∧ res.wrote = none) ∨ ∃ e, res.ret = Ret.returned (some e))) ∨
       (∃ (kd : Bytes) (k : Key) (t1 t2 t3 t4 t5 : Bytes) (r5 : Scanner) (users : Int)
          (share : Nat),
          Reader.bytes c.rd = frame [str "$Key " ++ kd, t1, t2, t3, t4, t5] r5.stream ∧
          (∀ t ∈ [str "$Key " ++ kd, t1, t2, t3, t4, t5], 124 ∉ t) ∧
          nm.keyUnmarshal kd = .ok k ∧ k.Key = (nm.lockKey (serverLock nm)).Key ∧
          Strconv.Atoi t4 = some users ∧ Strconv.ParseUint t5 = some share ∧
          res.calls = [⟨nm.Unescape t1, t2, nm.Unescape t3, users, share⟩] ∧
          res.ret = Ret.returned (reg ⟨nm.Unescape t1, t2, nm.Unescape t3, users, share⟩))) ∧
      ((Reader.bytes c.rd).count 124 < 6 →
        res.calls = [] ∧ (res.wrote ≠ none → ∃ e, res.ret = Ret.returned (some e))) ∧
      (∀ key t1 t2 t3 t4 rest, Reader.bytes c.rd = frame [key, t1, t2, t3, t4] rest →
        (∀ t ∈ [key, t1, t2, t3, t4], 124 ∉ t) → Strconv.Atoi t4 = none →
        res.calls = [] ∧ (res.wrote ≠ none → ∃ e, res.ret = Ret.returned (some e))) ∧
      (∀ key t1 t2 t3 t4 t5 rest, Reader.bytes c.rd = frame [key, t1, t2, t3, t4, t5] rest →
        (∀ t ∈ [key, t1, t2, t3, t4, t5], 124 ∉ t) → Strconv.ParseUint t5 = none →
        res.calls = [] ∧ (res.wrote ≠ none → ∃ e, res.ret = Ret.returned (some e))) := by
  obtain ⟨res, hres, hcase⟩ := serve_spec nm reg c
  have hnone : res.calls = [] →
      res.calls = [] ∧ (res.wrote ≠ none → ∃ e, res.ret = Ret.returned (some e)) := by
    intro hc
    refine ⟨hc, fun hw => ?_⟩
    rcases hcase with ⟨_, ⟨_, hw0⟩ | he⟩ | ⟨kd, k, t1, t2, t3, t4, t5, r5, users, share, _, _, _, _,
      _, _, h7, _⟩
    · exact absurd hw0 hw
    · exact he
    · rw [hc] at h7; simp at h7
  refine ⟨res, hres, hcase, ?_, ?_, ?_⟩
  · intro hcount
    apply hnone
    rcases hcase with ⟨hc, _⟩ | ⟨kd, k, t1, t2, t3, t4, t5, r5, users, share, h1, _⟩
    · exact hc
    · have := frame_count [str "$Key " ++ kd, t1, t2, t3, t4, t5] r5.stream
      rw [← h1] at this
      simp only [List.length_cons, List.length_nil] at this
      omega
  · intro key u1 u2 u3 u4 rest hb hp hbad
    apply hnone
    rcases hcase with ⟨hc, _⟩ | ⟨kd, k, t1, t2, t3, t4, t5, r5, users, share, h1, h2, _, _, h5, _⟩
    · exact hc
    · have hfr : frame [key, u1, u2, u3, u4] rest =
          frame [str "$Key " ++ kd, t1, t2, t3, t4] (t5 ++ 124 :: r5.stream) := by
        rw [← hb, h1]; rfl
      obtain ⟨e1, _⟩ := frame_inj [key, u1, u2, u3, u4] [str "$Key " ++ kd, t1, t2, t3, t4]
        rest (t5 ++ 124 :: r5.stream) rfl hp
        (fun t ht => h2 t (by
          simp only [List.mem_cons, List.mem_singleton, List.not_mem_nil, or_false] at ht ⊢
          tauto)) hfr
      simp only [List.cons.injEq, and_true] at e1
      rw [e1.2.2.2.2, h5] at hbad
      simp at hbad
  · intro key u1 u2 u3 u4 u5 rest hb hp hbad
    apply hnone
    rcases hcase with ⟨hc, _⟩ | ⟨kd, k, t1, t2, t3, t4, t5, r5, users, share, h1, h2, _, _, _, h6, _⟩
    · exact hc
    · have hfr : frame [key, u1, u2, u3, u4, u5] rest =
          frame [str "$Key " ++ kd, t1, t2, t3, t4, t5] r5.stream := by
        rw [← hb, h1]
      obtain ⟨e1, _⟩ := frame_inj [key, u1, u2, u3, u4, u5]
        [str "$Key " ++ kd, t1, t2, t3, t4, t5] rest r5.stream rfl hp h2 hfr
      simp only [List.cons.injEq, and_true] at e1
      rw [e1.2.2.2.2.2, h6] at hbad
      simp at hbad

/-! ### Tokens that are there are found -/

theorem trySplit_done_false_err (s s1 : Scanner) (h : s.trySplit = Step.done false s1) :
    s.err ≠ none := by
  simp only [Scanner.trySplit] at h
  split at h
  · split at h
    · simp at h
    · split at h
      · rename_i h3; exact h3
      · simp at h
  · simp at h

theorem pending_le_token (p x tok rest : Bytes) (h : p ++ x = tok ++ 124 :: rest)
    (hp : 124 ∉ p) : p.length ≤ tok.length ∧ (x = [] → False) := by
  rcases List.append_eq_append_iff.mp h with ⟨a, h1, h2⟩ | ⟨c, h1, h2⟩
  · refine ⟨by rw [h1]; simp, ?_⟩
    intro hx
    rw [hx] at h2
    cases a <;> simp at h2
  · cases c with
    | nil =>
      rw [List.append_nil] at h1
      refine ⟨by rw [h1], ?_⟩
      intro hx
      rw [hx] at h2
      simp at h2
    | cons y t =>
      simp only [List.cons_append, List.cons.injEq] at h2
      exfalso
      apply hp
      rw [h1, ← h2.1]
      simp

theorem fillLoop_chunk (space k : Nat) (ev : ReadEv) (rest : Reader)
    (he : ev.err = none) (hd : ev.data ≠ []) (hs : 1 ≤ space) :
    fillLoop space (k + 1) (ev :: rest) =
      if ev.data.length ≤ space then (ev.data, none, rest)
      else (ev.data.take space, none, { data := ev.data.drop space, err := ev.err } :: rest) := by
  have hpos : 0 < ev.data.length := List.length_pos.mpr hd
  by_cases hle : ev.data.length ≤ space
  · simp [fillLoop, Reader.read, hle, he, hpos]
  · have : 0 < (List.take space ev.data).length := by
      rw [List.length_take]; omega
    have h2 : 0 < ev.data.length ∧ 0 < space := ⟨hpos, by omega⟩
    simp [fillLoop, Reader.read, hle, h2]

theorem scanLoop_finds (fuel : Nat) : ∀ (s : Scanner) (tok rest : Bytes) (ok : Bool)
    (s1 : Scanner), s.Ready → s.stream = tok ++ 124 :: rest → 124 ∉ tok →
    tok.length < bufSize → Scanner.scanLoop fuel s = some (ok, s1) →
    ok = true ∧ s1.Ready := by
  induction fuel with
  | zero => intro s tok rest ok s1 _ _ _ _ h; simp [Scanner.scanLoop] at h
  | succ fuel ih =>
    intro s tok rest ok s1 hready hstream htok hlen h
    obtain ⟨herr, hfit, hev⟩ := hready
    simp only [Scanner.scanLoop] at h
    cases ht : s.trySplit with
    | done ok2 s2 =>
      rw [ht] at h
      simp only [Option.some.injEq, Prod.mk.injEq] at h
      obtain ⟨h1, h2⟩ := h
      subst h1 h2
      cases ok2 with
      | false => exact absurd herr (trySplit_done_false_err s s2 ht)
      | true =>
        obtain ⟨_, _, hrd, he, hp, hst⟩ := trySplit_done_true s s2 ht
        refine ⟨rfl, by rw [he]; exact herr, ?_, by rw [hrd]; exact hev⟩
        rw [hst]
        rw [hp] at hfit
        simp only [List.length_append, List.length_cons] at hfit
        omega
    | more s0 =>
      rw [ht] at h
      simp only at h
      obtain ⟨he0, _, hst0, hrd0, hp0, hstart0, hnp⟩ := trySplit_more s s0 ht
      have hpl := pending_le_token s.pending (Reader.bytes s.rd) tok rest hstream hnp
      have hshift : s0.shiftStart + s0.pending.length < bufSize ∧ s0.shiftStart ≤ s0.start := by
        simp only [Scanner.shiftStart, hp0, hstart0]
        split
        · omega
        · rename_i hc
          have : s.start + s.pending.length ≤ bufSize := hfit
          by_cases h0 : 0 < s.start
          · have hne : ¬ (s.start + s.pending.length = bufSize) := fun hx => hc ⟨h0, Or.inl hx⟩
            omega
          · omega
      obtain ⟨ev, rrest, hrd⟩ : ∃ ev rrest, s.rd = ev :: rrest := by
        cases hr : s.rd with
        | nil => exact absurd (by rw [hr]; rfl) hpl.2
        | cons ev rrest => exact ⟨ev, rrest, rfl⟩
      have hev0 := hev ev (by rw [hrd]; exact List.mem_cons_self _ _)
      have hfill := fillLoop_chunk (bufSize - (s0.shiftStart + s0.pending.length)) 100 ev rrest
        hev0.1 hev0.2 (by omega)
      have hrm : s0.readMore =
          if ev.data.length ≤ bufSize - (s0.shiftStart + s0.pending.length) then
            Step.more { s0 with rd := rrest, start := s0.shiftStart,
                                pending := s0.pending ++ ev.data }
          else
            Step.more { s0 with
              rd := { data := ev.data.drop (bufSize - (s0.shiftStart + s0.pending.length)),
                      err := ev.err } :: rrest,
              start := s0.shiftStart,
              pending := s0.pending ++
                ev.data.take (bufSize - (s0.shiftStart + s0.pending.length)) } := by
        have hne : ¬ (s0.shiftStart + s0.pending.length = bufSize) := by omega
        simp only [Scanner.readMore, he0, ne_eq, not_true_eq_false, if_false, hne, hrd0, hrd,
          hfill]
        by_cases hle : ev.data.length ≤ bufSize - (s0.shiftStart + s0.pending.length)
        · simp only [hle, if_true]
        · simp only [hle, if_false]
      cases hr : s0.readMore with
      | done ok2 s2 =>
        rw [hr] at hrm
        split at hrm <;> simp at hrm
      | more s2 =>
        rw [hr] at h
        simp only at h
        have hst2 : s2.stream = tok ++ 124 :: rest := by
          rw [readMore_more s0 s2 hr, hst0]; exact hstream
        refine ih s2 tok rest ok s1 ?_ hst2 htok hlen h
        rw [hr] at hrm
        split at hrm
        · rename_i hle
          simp only [Step.more.injEq] at hrm
          rw [hrm]
          refine ⟨he0, ?_, ?_⟩
          · simp only [List.length_append]
            omega
          · intro e he
            exact hev e (by rw [hrd]; exact List.mem_cons_of_mem _ he)
        · rename_i hnle
          simp only [Step.more.injEq] at hrm
          rw [hrm]
          refine ⟨he0, ?_, ?_⟩
          · simp only [List.length_append, List.length_take]
            omega
          · intro e he
            rcases List.mem_cons.mp he with rfl | he
            · refine ⟨hev0.1, ?_⟩
              intro hnil
              have := congrArg List.length hnil
              simp only [List.length_drop, List.length_nil] at this
              omega
            · exact hev e (by rw [hrd]; exact List.mem_cons_of_mem _ he)

/-- On a well-behaved transport `Scan` finds the next token whenever it is there
and shorter than the buffer. -/
theorem Scan_finds (s : Scanner) (tok rest : Bytes) (hready : s.Ready)
    (hstream : s.stream = tok ++ 124 :: rest) (htok : 124 ∉ tok) (hlen : tok.length < bufSize) :
    ∃ s1, s.Scan = some (true, s1) ∧ s1.token = tok ∧ s1.stream = rest ∧ s1.Ready := by
  obtain ⟨ok, s1, hs⟩ := Scan_returns s
  obtain ⟨hok, hr⟩ := scanLoop_finds _ s tok rest ok s1 hready hstream htok hlen hs
  subst hok
  obtain ⟨h1, h2⟩ := Scan_true s s1 hs
  rw [hstream] at h1
  obtain ⟨e1, e2⟩ := token_unique _ _ _ _ h1 htok h2
  exact ⟨s1, hs, e1.symm, e2.symm, hr⟩

/-! ### Client and server together -/

theorem escaper_no_pipe (s : Bytes) : 124 ∉ escaper s := by
  intro h
  simp only [escaper, List.mem_flatMap] at h
  obtain ⟨b, _, hb⟩ := h
  split at hb
  · simp at hb
  · rename_i hne
    simp only [List.mem_singleton] at hb
    exact hne hb.symm

theorem readStringRaw_finds (r : Scanner) (tok rest : Bytes) (hready : r.Ready)
    (hstream : r.stream = tok ++ 124 :: rest) (htok : 124 ∉ tok) (hlen : tok.length < bufSize) :
    ∃ r1, readStringRaw r = some (tok, none, r1) ∧ r1.stream = rest ∧ r1.Ready := by
  obtain ⟨r1, h1, h2, h3, h4⟩ := Scan_finds r tok rest hready hstream htok hlen
  exact ⟨r1, by simp [readStringRaw, h1, h2], h3, h4⟩

theorem readString_finds {L : Type} (nm : Nmdc L) (r : Scanner) (tok rest : Bytes)
    (hready : r.Ready) (hstream : r.stream = tok ++ 124 :: rest) (htok : 124 ∉ tok)
    (hlen : tok.length < bufSize) :
    ∃ r1, readString nm r = some (nm.Unescape tok, none, r1) ∧ r1.stream = rest ∧ r1.Ready := by
  obtain ⟨r1, h1, h2, h3⟩ := readStringRaw_finds r tok rest hready hstream htok hlen
  exact ⟨r1, by simp [readString, h1], h2, h3⟩

/-- On a well-behaved transport that delivers five fields which fit the buffer
and parse, `serveFields` registers the info assembled from them once. -/
theorem serveFields_frame {L : Type} (nm : Nmdc L) (reg : Info → Option Err) (msg : Bytes)
    (r : Scanner) (t1 t2 t3 t4 t5 rest : Bytes) (users : Int) (share : Nat)
    (hready : r.Ready) (hstream : r.stream = frame [t1, t2, t3, t4, t5] rest)
    (hp : ∀ t ∈ [t1, t2, t3, t4, t5], 124 ∉ t ∧ t.length < bufSize)
    (hu : Strconv.Atoi t4 = some users) (hs : Strconv.ParseUint t5 = some share) :
    ∃ r5, serveFields nm reg msg r =
      some ⟨Ret.returned (reg ⟨nm.Unescape t1, t2, nm.Unescape t3, users, share⟩), some msg,
        [⟨nm.Unescape t1, t2, nm.Unescape t3, users, share⟩], some r5⟩ := by
  have hp1 := hp t1 (by simp)
  have hp2 := hp t2 (by simp)
  have hp3 := hp t3 (by simp)
  have hp4 := hp t4 (by simp)
  have hp5 := hp t5 (by simp)
  simp only [frame, List.foldr] at hstream
  obtain ⟨r1, e1, s1, k1⟩ := readString_finds nm r t1 _ hready hstream hp1.1 hp1.2
  obtain ⟨r2, e2, s2, k2⟩ := readStringRaw_finds r1 t2 _ k1 s1 hp2.1 hp2.2
  obtain ⟨r3, e3, s3, k3⟩ := readString_finds nm r2 t3 _ k2 s2 hp3.1 hp3.2
  obtain ⟨r4, e4, s4, k4⟩ := readStringRaw_finds r3 t4 _ k3 s3 hp4.1 hp4.2
  obtain ⟨r5, e5, _, _⟩ := readStringRaw_finds r4 t5 _ k4 s4 hp5.1 hp5.2
  exact ⟨r5, by simp only [serveFields, e1, e2, e3, e4, e5, hu, hs]⟩

/-- On a well-behaved transport that delivers the key token for the lock that
was sent and then five fields, `serve` registers the info once. -/
theorem serve_frame {L : Type} (nm : Nmdc L) (reg : Info → Option Err) (c : Conn)
    (ld kd : Bytes) (k : Key) (t1 t2 t3 t4 t5 rest : Bytes) (users : Int) (share : Nat)
    (hsl : nm.lockMarshal (serverLock nm) = .ok ld) (hsl_len : ld.length < bufSize - 6)
    (hw : c.writeErr = none) (hev : ∀ ev ∈ c.rd, ev.err = none ∧ ev.data ≠ [])
    (hbytes : Reader.bytes c.rd = frame [str "$Key " ++ kd, t1, t2, t3, t4, t5] rest)
    (hkp : 124 ∉ kd ∧ kd.length + 5 < bufSize)
    (hku : nm.keyUnmarshal kd = .ok k) (hkk : k.Key = (nm.lockKey (serverLock nm)).Key)
    (hp : ∀ t ∈ [t1, t2, t3, t4, t5], 124 ∉ t ∧ t.length < bufSize)
    (hu : Strconv.Atoi t4 = some users) (hs : Strconv.ParseUint t5 = some share) :
    ∃ res, serve nm reg c = some res ∧
      res.calls = [⟨nm.Unescape t1, t2, nm.Unescape t3, users, share⟩] ∧
      res.ret = Ret.returned (reg ⟨nm.Unescape t1, t2, nm.Unescape t3, users, share⟩) := by
  have hi : ¬ (bufSize ≤ 6 + min ld.length (bufSize - 6)) := by
    simp only [bufSize] at hsl_len ⊢
    omega
  have hready : (⟨c.rd, 0, [], none, []⟩ : Scanner).Ready :=
    ⟨rfl, by simp [bufSize], hev⟩
  have hkeytok : 124 ∉ str "$Key " ++ kd := by
    intro hm
    rcases List.mem_append.mp hm with h1 | h1
    · revert h1; decide
    · exact hkp.1 h1
  have hkeylen : (str "$Key " ++ kd).length < bufSize := by
    have : (str "$Key ").length = 5 := by decide
    rw [List.length_append, this]
    omega
  rw [frame_cons] at hbytes
  obtain ⟨r1, h1, htk, hst, hrd⟩ := Scan_finds ⟨c.rd, 0, [], none, []⟩ (str "$Key " ++ kd) _ hready
    (by rw [scan_initial_stream]; exact hbytes) hkeytok hkeylen
  obtain ⟨r5, h5⟩ := serveFields_frame nm reg
    (str "$Lock " ++ List.take (bufSize - 6) ld ++ [124]) r1 t1 t2 t3 t4 t5 rest users share
    hrd hst hp hu hs
  have hpre : (str "$Key ") <+: r1.token := ⟨kd, htk.symm⟩
  have hdrop : r1.token.drop 5 = kd := by rw [htk]; exact List.drop_left' rfl
  refine ⟨⟨Ret.returned (reg ⟨nm.Unescape t1, t2, nm.Unescape t3, users, share⟩),
    some (str "$Lock " ++ List.take (bufSize - 6) ld ++ [124]),
    [⟨nm.Unescape t1, t2, nm.Unescape t3, users, share⟩], some r5⟩, ?_, rfl, rfl⟩
  unfold serve
  simp only [hsl, hi, if_false, hw, h1, hpre, not_true_eq_false, hdrop, hku, hkk, ne_eq, h5]

theorem scanLoop_ok_pos (fuel : Nat) : ∀ (r : Reader) (buf : Bytes) (i : Nat) (sr : ScanResult),
    scanLoop fuel r buf i = some sr → sr.err = none → (i : Int) < sr.tokenEnd := by
  induction fuel with
  | zero => intro r buf i sr h; simp [scanLoop] at h
  | succ fuel ih =>
    intro r buf i sr h herr
    by_cases hi : i < buf.length
    · rcases hrd : r.read (buf.length - i) with ⟨data, err, r1⟩
      cases err with
      | some e =>
        rw [scanLoop_err fuel r buf i data e r1 hi hrd] at h
        simp only [Option.some.injEq] at h
        rw [← h] at herr
        simp at herr
      | none =>
        rw [scanLoop_data fuel r buf i data r1 hi hrd] at h
        split at h
        · rename_i hj
          simp only [Option.some.injEq] at h
          rw [← h]
          simp only
          omega
        · have := ih r1 _ _ sr h herr
          omega
    · rw [scanLoop_full fuel r buf i (by omega)] at h
      simp only [Option.some.injEq] at h
      rw [← h] at herr
      simp at herr

theorem registration_eq_frame (data : Bytes) (info : Info) (host : Bytes) :
    registration data info host =
      frame [str "$Key " ++ data, escaper info.Name, info.Host, escaper info.Desc,
        Strconv.Itoa info.Users, Strconv.FormatUint info.Share]
        (if host = [] then [] else host ++ [124]) := by
  by_cases hh : host = []
  · simp [registration, frame, hh]
  · simp [registration, frame, hh]

/-- The run of `registerOn` once the lock token was read and answered. -/
theorem registerOn_run {L : Type} (nm : Nmdc L) (c : Conn) (info : Info) (host : Bytes)
    (sr : ScanResult) (ld : Bytes) (lock : L) (data : Bytes)
    (hscan : scanOneTo c.rd (List.replicate 512 0) = some sr) (herr : sr.err = none)
    (htok : sr.buf.take sr.tokenEnd.toNat = str "$Lock " ++ ld)
    (hlock : nm.lockUnmarshal ld = .ok lock)
    (hkey : nm.keyMarshal (nm.lockKey lock) = .ok data) :
    registerOn nm c info host =
      some (match c.writeErr with
        | some e => { err := some e, wrote := some (registration data info host), closed := false }
        | none => { err := c.closeErr, wrote := some (registration data info host),
                    closed := true }) := by
  have hpos : ¬ (sr.tokenEnd < 0) := by
    have := scanLoop_ok_pos _ _ _ _ sr hscan herr
    omega
  have hpre : (str "$Lock ") <+: sr.buf.take sr.tokenEnd.toNat := ⟨ld, htok.symm⟩
  have hdrop : (sr.buf.take sr.tokenEnd.toNat).drop 6 = ld := by
    rw [htok]; exact List.drop_left' rfl
  unfold registerOn
  simp only [hscan, herr, hpos, if_false, hpre, not_true_eq_false, hdrop, hlock, hkey]
  cases c.writeErr <;> rfl

/-- C5 (amended): once `registerOn` has read a `$Lock ...|` token that the lock
decoder accepts, the bytes it passes to `Write` are `$Key ` + the marshalled
derived key + `|`, then the five `|`-terminated fields escaped Name, Host
verbatim, escaped Desc, Users in decimal, Share in unsigned decimal, and then,
when the target host is not empty, the target host and a `|`; nothing else. -/
theorem registerOn_payload {L : Type} (nm : Nmdc L) (c : Conn) (info : Info) (host : Bytes)
    (sr : ScanResult) (ld : Bytes) (lock : L) (data : Bytes)
    (hscan : scanOneTo c.rd (List.replicate 512 0) = some sr) (herr : sr.err = none)
    (htok : sr.buf.take sr.tokenEnd.toNat = str "$Lock " ++ ld)
    (hlock : nm.lockUnmarshal ld = .ok lock)
    (hkey : nm.keyMarshal (nm.lockKey lock) = .ok data) :
    ∃ res, registerOn nm c info host = some res ∧
      res.wrote = some (frame [str "$Key " ++ data, escaper info.Name, info.Host,
        escaper info.Desc, Strconv.Itoa info.Users, Strconv.FormatUint info.Share]
        (if host = [] then [] else host ++ [124])) := by
  rw [registerOn_run nm c info host sr ld lock data hscan herr htok hlock hkey,
    ← registration_eq_frame]
  cases c.writeErr with
  | none => exact ⟨_, rfl, rfl⟩
  | some e => exact ⟨_, rfl, rfl⟩

set_option maxRecDepth 100000 in
theorem registerOn_payload_witness :
    scanOneTo [⟨str "$Lock abc Pk=x|", none⟩] (List.replicate 512 0) =
        some ⟨14, 15, none, str "$Lock abc Pk=x|" ++ List.replicate 497 0⟩ ∧
    ∃ res, registerOn stubNmdc ⟨[⟨str "$Lock abc Pk=x|", none⟩], none, none⟩
        ⟨str "TestHub", str "example.com:411", str "A|Test", 5, 1073741824⟩ (str "hub:2501")
          = some res ∧
      res.wrote = some (frame [str "$Key " ++ str "cba", escaper (str "TestHub"),
        str "example.com:411", escaper (str "A|Test"), Strconv.Itoa 5,
        Strconv.FormatUint 1073741824]
        (if str "hub:2501" = [] then [] else str "hub:2501" ++ [124])) :=
  ⟨by decide!,
   registerOn_payload stubNmdc ⟨[⟨str "$Lock abc Pk=x|", none⟩], none, none⟩
     ⟨str "TestHub", str "example.com:411", str "A|Test", 5, 1073741824⟩ (str "hub:2501")
     ⟨14, 15, none, str "$Lock abc Pk=x|" ++ List.replicate 497 0⟩ (str "abc Pk=x")
     (str "abc", str "x") (str "cba") (by decide!) rfl (by decide!) rfl rfl⟩

set_option maxRecDepth 100000 in
/-- C5 (counterexample): with the target host `hub:2501` the bytes written are
the `$Key` token, the five fields and then the sixth field `hub:2501|`, so they
are not the `$Key` token followed by exactly five fields. -/
theorem registerOn_writes_sixth_field :
    registerOn stubNmdc ⟨[⟨str "$Lock abc Pk=x|", none⟩], none, none⟩
        ⟨str "TestHub", str "example.com:411", str "A|Test", 5, 1073741824⟩ (str "hub:2501")
      = some ⟨none, some (str "$Key cba|TestHub|example.com:411|A&#124;Test|5|1073741824|hub:2501|"),
          true⟩ ∧
    str "$Key cba|TestHub|example.com:411|A&#124;Test|5|1073741824|hub:2501|" ≠
      frame [str "$Key " ++ str "cba", escaper (str "TestHub"), str "example.com:411",
        escaper (str "A|Test"), Strconv.Itoa 5, Strconv.FormatUint 1073741824] [] := by
  decide!

/-- C7 (amended): let the client read the lock token the server sent and answer
it, with lock and key codecs that round-trip (and a marshalled key without `|`).
If `Host` contains no `|`, `Name` and `Desc` are unchanged by escaping and then
`nmdc.Unescape`, the key token, escaped `Name`, `Host` and escaped `Desc` are
each shorter than the server's 2048-byte buffer, and `Users` and `Share` are in
the range of their types, then `serve`, fed the bytes the client wrote in
non-empty chunks without transport errors, calls `RegisterHub` exactly once,
with an `Info` equal to the client's, and returns what the registry returns. -/
theorem registration_end_to_end {L : Type} (nm : Nmdc L) (reg : Info → Option Err)
    (cc : Conn) (info : Info) (host : Bytes) (ld kd : Bytes) (lk : L) (k : Key)
    (sr : ScanResult)
    (hsl : nm.lockMarshal (serverLock nm) = .ok ld) (hsl_len : ld.length < bufSize - 6)
    (hscan : scanOneTo cc.rd (List.replicate 512 0) = some sr) (herr : sr.err = none)
    (htok : sr.buf.take sr.tokenEnd.toNat = str "$Lock " ++ ld)
    (hcw : cc.writeErr = none)
    (hlk : nm.lockUnmarshal ld = .ok lk)
    (hder : (nm.lockKey lk).Key = (nm.lockKey (serverLock nm)).Key)
    (hkm : nm.keyMarshal (nm.lockKey lk) = .ok kd) (hkp : 124 ∉ kd)
    (hku : nm.keyUnmarshal kd = .ok k) (hkk : k.Key = (nm.lockKey lk).Key)
    (hun : nm.Unescape (escaper info.Name) = info.Name)
    (hud : nm.Unescape (escaper info.Desc) = info.Desc)
    (hhost : 124 ∉ info.Host)
    (husers : -(2 ^ 63) ≤ info.Users ∧ info.Users < 2 ^ 63) (hshare : info.Share < 2 ^ 64)
    (hl1 : kd.length + 5 < bufSize) (hl2 : (escaper info.Name).length < bufSize)
    (hl3 : info.Host.length < bufSize) (hl4 : (escaper info.Desc).length < bufSize) :
    ∃ w, registerOn nm cc info host = some ⟨cc.closeErr, some w, true⟩ ∧
      ∀ cs : Conn, cs.writeErr = none → (∀ ev ∈ cs.rd, ev.err = none ∧ ev.data ≠ []) →
        Reader.bytes cs.rd = w →
        ∃ res, serve nm reg cs = some res ∧ res.calls = [info] ∧
          res.ret = Ret.returned (reg info) := by
  refine ⟨registration kd info host, ?_, ?_⟩
  · rw [registerOn_run nm cc info host sr ld lk kd hscan herr htok hlk hkm, hcw]
  · intro cs hw hev hbytes
    rw [registration_eq_frame] at hbytes
    have hp : ∀ t ∈ [escaper info.Name, info.Host, escaper info.Desc, Strconv.Itoa info.Users,
        Strconv.FormatUint info.Share], 124 ∉ t ∧ t.length < bufSize := by
      intro t ht
      simp only [List.mem_cons, List.mem_singleton, List.not_mem_nil, or_false] at ht
      rcases ht with rfl | rfl | rfl | rfl | rfl
      · exact ⟨escaper_no_pipe _, hl2⟩
      · exact ⟨hhost, hl3⟩
      · exact ⟨escaper_no_pipe _, hl4⟩
      · refine ⟨?_, ?_⟩
        · intro hm
          have := Strconv.FormatInt_bytes _ _ hm
          omega
        · have := Strconv.FormatInt_length info.Users
          simp only [Strconv.Itoa, bufSize]
          omega
      · refine ⟨?_, ?_⟩
        · intro hm
          have := Strconv.FormatUint_digits _ _ hm
          omega
        · have := Strconv.FormatUint_length info.Share
          simp only [bufSize]
          omega
    obtain ⟨res, h1, h2, h3⟩ := serve_frame nm reg cs ld kd k _ _ _ _ _ _ info.Users info.Share
      hsl hsl_len hw hev hbytes ⟨hkp, hl1⟩ hku (by rw [hkk, hder]) hp
      (Strconv.Atoi_Itoa _ husers.1 husers.2) (Strconv.ParseUint_FormatUint _ hshare)
    rw [hun, hud] at h2 h3
    exact ⟨res, h1, h2, h3⟩

set_option maxRecDepth 100000 in
theorem registration_end_to_end_witness :
    stubNmdc.lockMarshal (serverLock stubNmdc) = .ok (str "hubAutoReg Pk=go-dcpp 0.1") ∧
    scanOneTo [⟨str "$Lock hubAutoReg Pk=go-dcpp 0.1|", none⟩] (List.replicate 512 0) =
      some ⟨31, 32, none, str "$Lock hubAutoReg Pk=go-dcpp 0.1|" ++ List.replicate 480 0⟩ ∧
    stubNmdc.Unescape (escaper (str "A|Test")) = str "A|Test" ∧
    124 ∉ str "example.com:411" ∧
    ∃ res, serve stubNmdc (fun _ => none)
        ⟨[⟨str "$Key geRotuAbuh|Test", none⟩, ⟨str "Hub|example.com:411|A&#124;Te", none⟩,
          ⟨str "st|5|1073741824|hub:2501|", none⟩], none, none⟩ = some res ∧
      res.calls = [⟨str "TestHub", str "example.com:411", str "A|Test", 5, 1073741824⟩] ∧
      res.ret = Ret.returned none := by
  refine ⟨rfl, by decide!, by decide!, by decide!, ?_⟩
  obtain ⟨w, hw, hall⟩ := registration_end_to_end stubNmdc (fun _ => none)
    ⟨[⟨str "$Lock hubAutoReg Pk=go-dcpp 0.1|", none⟩], none, none⟩
    ⟨str "TestHub", str "example.com:411", str "A|Test", 5, 1073741824⟩ (str "hub:2501")
    (str "hubAutoReg Pk=go-dcpp 0.1") (str "geRotuAbuh") (str "hubAutoReg", str "go-dcpp 0.1")
    ⟨str "geRotuAbuh"⟩
    ⟨31, 32, none, str "$Lock hubAutoReg Pk=go-dcpp 0.1|" ++ List.replicate 480 0⟩
    rfl (by decide!) (by decide!) rfl (by decide!) rfl rfl rfl rfl (by decide!) rfl rfl
    (by decide!) (by decide!) (by decide!) (by decide!) (by decide!) (by decide!) (by decide!)
    (by decide!) (by decide!)
  have hw2 : registerOn stubNmdc ⟨[⟨str "$Lock hubAutoReg Pk=go-dcpp 0.1|", none⟩], none, none⟩
      ⟨str "TestHub", str "example.com:411", str "A|Test", 5, 1073741824⟩ (str "hub:2501") =
      some ⟨none, some (str
        "$Key geRotuAbuh|TestHub|example.com:411|A&#124;Test|5|1073741824|hub:2501|"), true⟩ := by
    decide!
  rw [hw2] at hw
  simp only [Option.some.injEq, ClientResult.mk.injEq, and_true, true_and] at hw
  exact hall ⟨[⟨str "$Key geRotuAbuh|Test", none⟩, ⟨str "Hub|example.com:411|A&#124;Te", none⟩,
          ⟨str "st|5|1073741824|hub:2501|", none⟩], none, none⟩ rfl (by decide)
    (by rw [← hw]; decide!)

set_option maxRecDepth 100000 in
/-- C7 (counterexample): `Host` contains no `|` in both cases.  A `Name` that is
the text `&#124;` is sent unchanged (it has no `|` to escape) and unescaped by
the server to `|`, so the registered `Name` differs from the client's.  A `Name`
of 2048 bytes does not fit the server's scanner buffer: `serve` returns
`bufio.ErrTooLong` and registers nothing. -/
theorem registration_not_for_every_info :
    (registerOn stubNmdc ⟨[⟨str "$Lock hubAutoReg Pk=go-dcpp 0.1|", none⟩], none, none⟩
        ⟨str "&#124;", str "h", [], 0, 0⟩ [] =
      some ⟨none, some (str "$Key geRotuAbuh|&#124;|h||0|0|"), true⟩ ∧
     (serve stubNmdc (fun _ => none)
        ⟨[⟨str "$Key geRotuAbuh|&#124;|h||0|0|", none⟩], none, none⟩).map
          (fun r => (r.ret, r.calls)) =
      some (Ret.returned none, [⟨str "|", str "h", [], 0, 0⟩])) ∧
    (registerOn stubNmdc ⟨[⟨str "$Lock hubAutoReg Pk=go-dcpp 0.1|", none⟩], none, none⟩
        ⟨List.replicate 2048 97, str "h", [], 0, 0⟩ [] =
      some ⟨none, some (str "$Key geRotuAbuh|" ++ List.replicate 2048 97 ++ str "|h||0|0|"),
        true⟩ ∧
     (serve stubNmdc (fun _ => none)
        ⟨[⟨str "$Key geRotuAbuh|" ++ List.replicate 2048 97 ++ str "|h||0|0|", none⟩],
          none, none⟩).map (fun r => (r.ret, r.calls)) =
      some (Ret.returned (some Err.ErrTooLong), [])) := by
  decide!

set_option maxRecDepth 100000 in
theorem serve_aborts_without_registering_witness :
    Reader.bytes [⟨str "$Key geRotuAbuh|TestHub|example.com:411|", none⟩,
        ⟨str "A&#124;Test|five|1073741824|", none⟩] =
      frame [str "$Key geRotuAbuh", str "TestHub", str "example.com:411", str "A&#124;Test",
        str "five"] (str "1073741824|") ∧
    Strconv.Atoi (str "five") = none ∧
    ∃ res, serve stubNmdc (fun _ => none)
        ⟨[⟨str "$Key geRotuAbuh|TestHub|example.com:411|", none⟩,
          ⟨str "A&#124;Test|five|1073741824|", none⟩], none, none⟩ = some res ∧
      res.calls = [] ∧ (res.wrote ≠ none → ∃ e, res.ret = Ret.returned (some e)) := by
  refine ⟨by decide!, by decide!, ?_⟩
  obtain ⟨res, h, _, _, hA2, _⟩ := serve_aborts_without_registering stubNmdc (fun _ => none)
    ⟨[⟨str "$Key geRotuAbuh|TestHub|example.com:411|", none⟩,
      ⟨str "A&#124;Test|five|1073741824|", none⟩], none, none⟩
  exact ⟨res, h, hA2 (str "$Key geRotuAbuh") (str "TestHub") (str "example.com:411")
    (str "A&#124;Test") (str "five") (str "1073741824|") (by decide!) (by decide!) (by decide!)⟩

set_option maxRecDepth 100000 in
theorem serve_handshake_witness :
    Scanner.Scan ⟨[⟨str "$Key wrong|TestHub|", none⟩], 0, [], none, []⟩ =
      some (true, ⟨[], 11, str "TestHub|", none, str "$Key wrong"⟩) ∧
    (∃ e, serve stubNmdc (fun _ => none) ⟨[⟨str "$Key wrong|TestHub|", none⟩], none, none⟩ =
        some ⟨Ret.returned (some e), some (str "$Lock " ++ str "hubAutoReg Pk=go-dcpp 0.1" ++ [124]),
          [], some ⟨[], 11, str "TestHub|", none, str "$Key wrong"⟩⟩ ∧
      (e = Err.expectedKey ∨ e = Err.wrongKey ∨
        ∃ kd, (⟨[], 11, str "TestHub|", none, str "$Key wrong"⟩ : Scanner).token = str "$Key " ++ kd ∧
          stubNmdc.keyUnmarshal kd = .error e)) ∧
    Scanner.Scan ⟨[⟨str "$Key geRotuAbuh|TestHub|", none⟩], 0, [], none, []⟩ =
      some (true, ⟨[], 16, str "TestHub|", none, str "$Key geRotuAbuh"⟩) ∧
    serve stubNmdc (fun _ => none) ⟨[⟨str "$Key geRotuAbuh|TestHub|", none⟩], none, none⟩ =
      serveFields stubNmdc (fun _ => none) (str "$Lock " ++ str "hubAutoReg Pk=go-dcpp 0.1" ++ [124])
        ⟨[], 16, str "TestHub|", none, str "$Key geRotuAbuh"⟩ := by
  refine ⟨by decide!, ?_, by decide!, ?_⟩
  · refine (serve_handshake stubNmdc (fun _ => none) ⟨[⟨str "$Key wrong|TestHub|", none⟩], none, none⟩
      (str "hubAutoReg Pk=go-dcpp 0.1") ⟨[], 11, str "TestHub|", none, str "$Key wrong"⟩
      rfl (by decide!) rfl (by decide!)).2 ?_
    rintro ⟨kd, k, h1, h2, h3⟩
    have hkd : kd = str "wrong" := by
      have h0 : str "$Key " ++ str "wrong" = str "$Key " ++ kd := h1
      exact (List.append_cancel_left h0).symm
    subst hkd
    have hk : k = ⟨str "wrong"⟩ := by
      have h4 : (Except.ok ⟨str "wrong"⟩ : Except Err Key) = Except.ok k := h2
      injection h4 with h5
      exact h5.symm
    subst hk
    revert h3
    decide
  · exact (serve_handshake stubNmdc (fun _ => none)
      ⟨[⟨str "$Key geRotuAbuh|TestHub|", none⟩], none, none⟩
      (str "hubAutoReg Pk=go-dcpp 0.1") ⟨[], 16, str "TestHub|", none, str "$Key geRotuAbuh"⟩
      rfl (by decide!) rfl (by decide!)).1 ⟨str "geRotuAbuh", ⟨str "geRotuAbuh"⟩, rfl, rfl, rfl⟩

theorem scanLoop_eof : ∀ (r : Reader) (fuel : Nat) (buf : Bytes) (i : Nat),
    r.length < fuel → (∀ ev ∈ r, ev.err = none ∨ ev.err = some Err.EOF) →
    124 ∉ Reader.bytes r → i + (Reader.bytes r).length < buf.length →
    ∃ buf1, scanLoop fuel r buf i =
      some { tokenEnd := -1, consumed := 0, err := some Err.ErrUnexpectedEOF, buf := buf1 } := by
  intro r
  induction r with
  | nil =>
    intro fuel buf i hf _ _ hlen
    obtain ⟨fuel, rfl⟩ : ∃ k, fuel = k + 1 := ⟨fuel - 1, by simp at hf; omega⟩
    simp only [Reader.bytes, List.flatMap_nil, List.length_nil, Nat.add_zero] at hlen
    refine ⟨storeAt buf i [], ?_⟩
    rw [scanLoop_err fuel [] buf i [] Err.EOF [] hlen rfl]
    simp
  | cons ev rest ih =>
    intro fuel buf i hf herrs hno hlen
    obtain ⟨fuel, rfl⟩ : ∃ k, fuel = k + 1 := ⟨fuel - 1, by simp at hf; omega⟩
    have hb : Reader.bytes (ev :: rest) = ev.data ++ Reader.bytes rest := by
      simp [Reader.bytes]
    rw [hb] at hno hlen
    simp only [List.length_append] at hlen
    simp only [List.mem_append, not_or] at hno
    have hi : i < buf.length := by omega
    have hfit : ev.data.length ≤ buf.length - i := by omega
    have hrd : Reader.read (ev :: rest) (buf.length - i) = (ev.data, ev.err, rest) := by
      simp [Reader.read, hfit]
    rcases herrs ev (List.mem_cons_self _ _) with he | he
    · rw [he] at hrd
      rw [scanLoop_data fuel _ buf i ev.data rest hi hrd,
        storeAt_window buf i ev.data (by omega), indexPipe_of_not_mem _ hno.1]
      simp only [show ¬ ((0 : Int) < -1) by omega, if_false]
      have hl := storeAt_length buf i ev.data (by omega)
      exact ih fuel (storeAt buf i ev.data) (i + ev.data.length)
        (by simp only [List.length_cons] at hf; omega)
        (fun e he1 => herrs e (List.mem_cons_of_mem _ he1)) hno.2 (by rw [hl]; omega)
    · rw [he] at hrd
      refine ⟨storeAt buf i ev.data, ?_⟩
      rw [scanLoop_err fuel _ buf i ev.data Err.EOF rest hi hrd]
      simp

/-- C11: a reader that delivers fewer than `len(buf)` bytes in all, none of
them `|`, each answer with a nil error or with `io.EOF`, and reports `io.EOF`
once its answers are used up: `scanOneTo` returns, with `tokenEnd = -1`,
`consumed = 0` and the error `io.ErrUnexpectedEOF`, so neither with a nil error
nor with `io.ErrShortBuffer`. -/
theorem scanOneTo_unexpected_eof (r : Reader) (buf : Bytes)
    (herrs : ∀ ev ∈ r, ev.err = none ∨ ev.err = some Err.EOF)
    (hno : 124 ∉ Reader.bytes r) (hlen : (Reader.bytes r).length < buf.length) :
    ∃ sr, scanOneTo r buf = some sr ∧ sr.tokenEnd = -1 ∧ sr.consumed = 0 ∧
      sr.err = some Err.ErrUnexpectedEOF ∧ sr.err ≠ none ∧
      sr.err ≠ some Err.ErrShortBuffer := by
  obtain ⟨buf1, h⟩ := scanLoop_eof r (r.length + 1) buf 0 (by omega) herrs hno (by omega)
  exact ⟨_, h, rfl, rfl, rfl, by simp, by simp⟩

theorem scanOneTo_unexpected_eof_witness :
    ∃ sr, scanOneTo [⟨str "$Lo", none⟩, ⟨str "ck", none⟩] (List.replicate 8 0) = some sr ∧
      sr.tokenEnd = -1 ∧ sr.consumed = 0 ∧
      sr.err = some Err.ErrUnexpectedEOF ∧ sr.err ≠ none ∧
      sr.err ≠ some Err.ErrShortBuffer :=
  scanOneTo_unexpected_eof [⟨str "$Lo", none⟩, ⟨str "ck", none⟩] (List.replicate 8 0)
    (by decide) (by decide) (by decide)

theorem indexPipe_pos (s : Bytes) (h : 0 < indexPipe s) :
    0 < s.indexOf 124 ∧ s.indexOf 124 < s.length ∧ indexPipe s = (s.indexOf 124 : Int) ∧
      s[s.indexOf 124]? = some 124 := by
  simp only [indexPipe] at h ⊢
  by_cases hlt : s.indexOf 124 < s.length
  · simp only [hlt, if_true] at h ⊢
    exact ⟨by omega, trivial, trivial, List.getElem?_indexOf (List.indexOf_lt_length.mp hlt)⟩
  · simp only [hlt, if_false] at h
    omega

theorem storeAt_getElem? (buf : Bytes) (i k : Nat) (data : Bytes) (h : i ≤ buf.length)
    (hk : k < data.length) : (storeAt buf i data)[i + k]? = data[k]? := by
  have hw := storeAt_window buf i data h
  have : (((storeAt buf i data).drop i).take data.length)[k]? = (storeAt buf i data)[i + k]? := by
    simp [List.getElem?_take, hk]
  rw [← this, hw]

theorem scanLoop_ok_post (fuel : Nat) : ∀ (r : Reader) (buf : Bytes) (i : Nat) (sr : ScanResult),
    scanLoop fuel r buf i = some sr → sr.err = none → i ≤ buf.length →
    (i : Int) < sr.tokenEnd ∧ sr.tokenEnd < sr.consumed ∧ sr.consumed ≤ (buf.length : Int) ∧
      sr.buf.length = buf.length ∧ sr.buf[sr.tokenEnd.toNat]? = some 124 := by
  induction fuel with
  | zero => intro r buf i sr h; simp [scanLoop] at h
  | succ fuel ih =>
    intro r buf i sr h herr hle
    by_cases hi : i < buf.length
    · rcases hrd : r.read (buf.length - i) with ⟨data, err, r1⟩
      have hdl : data.length ≤ buf.length - i := by
        have := read_length_le r (buf.length - i)
        rw [hrd] at this
        exact this
      have hl := storeAt_length buf i data (by omega)
      cases err with
      | some e =>
        rw [scanLoop_err fuel r buf i data e r1 hi hrd] at h
        simp only [Option.some.injEq] at h
        rw [← h] at herr
        simp at herr
      | none =>
        rw [scanLoop_data fuel r buf i data r1 hi hrd, storeAt_window buf i data hle] at h
        split at h
        · rename_i hj
          obtain ⟨h0, h1, h2, h3⟩ := indexPipe_pos data hj
          simp only [Option.some.injEq] at h
          rw [← h]
          simp only
          rw [h2]
          refine ⟨by omega, by omega, by omega, hl, ?_⟩
          have hn : ((i : Int) + (List.indexOf 124 data : Int)).toNat = i + List.indexOf 124 data := by
            omega
          rw [hn, storeAt_getElem? buf i _ data hle h1, h3]
        · obtain ⟨a, b, c, d, e⟩ := ih r1 _ _ sr h herr (by rw [hl]; omega)
          rw [hl] at c d
          refine ⟨?_, b, c, d, e⟩
          push_cast at a
          omega
    · rw [scanLoop_full fuel r buf i (by omega)] at h
      simp only [Option.some.injEq] at h
      rw [← h] at herr
      simp at herr

theorem registerOn_after_scan {L : Type} (nm : Nmdc L) (c : Conn) (info : Info) (host : Bytes)
    (sr : ScanResult) (hscan : scanOneTo c.rd (List.replicate 512 0) = some sr)
    (herr : sr.err = none) (hpos : ¬ sr.tokenEnd < 0) :
    ∃ res, registerOn nm c info host = some res ∧
      ((¬ (str "$Lock ") <+: sr.buf.take sr.tokenEnd.toNat ∧
          res = { err := some (Err.expectedLock (sr.buf.take sr.tokenEnd.toNat)),
                  wrote := none, closed := false }) ∨
        ((str "$Lock ") <+: sr.buf.take sr.tokenEnd.toNat ∧
          ((∃ e, nm.lockUnmarshal ((sr.buf.take sr.tokenEnd.toNat).drop 6) = .error e ∧
              res = { err := some e, wrote := none, closed := false }) ∨
            (∃ lock, nm.lockUnmarshal ((sr.buf.take sr.tokenEnd.toNat).drop 6) = .ok lock ∧
              ((∃ e, nm.keyMarshal (nm.lockKey lock) = .error e ∧
                  res = { err := some e, wrote := none, closed := false }) ∨
                (∃ data, nm.keyMarshal (nm.lockKey lock) = .ok data ∧
                  res.wrote = some (registration data info host))))))) := by
  unfold registerOn
  simp only [hscan, herr, hpos, if_false]
  by_cases hpre : (str "$Lock ") <+: sr.buf.take sr.tokenEnd.toNat
  · simp only [hpre, not_true_eq_false, if_false]
    cases hl : nm.lockUnmarshal ((sr.buf.take sr.tokenEnd.toNat).drop 6) with
    | error e => exact ⟨_, rfl, Or.inr ⟨trivial, Or.inl ⟨e, rfl, rfl⟩⟩⟩
    | ok lock =>
      dsimp only
      cases hk : nm.keyMarshal (nm.lockKey lock) with
      | error e =>
        exact ⟨_, rfl, Or.inr ⟨trivial, Or.inr ⟨lock, rfl, Or.inl ⟨e, hk, rfl⟩⟩⟩⟩
      | ok data =>
        dsimp only
        cases hw : c.writeErr with
        | some e =>
          exact ⟨_, rfl, Or.inr ⟨trivial, Or.inr ⟨lock, rfl, Or.inr ⟨data, hk, rfl⟩⟩⟩⟩
        | none =>
          exact ⟨_, rfl, Or.inr ⟨trivial, Or.inr ⟨lock, rfl, Or.inr ⟨data, hk, rfl⟩⟩⟩⟩
  · simp only [hpre, not_false_eq_true, if_true]
    exact ⟨_, rfl, Or.inl ⟨trivial, rfl⟩⟩

/-- C20: whenever `scanOneTo` returns a nil error, `0 < tokenEnd < consumed <=
len(buf)` and `buf[tokenEnd]` is `|` in the buffer as the call left it.  So the
test `i < 0` that `registerOn` makes after a nil error is false and the slice
`b[:i]` is in bounds (it has `i` bytes); `registerOn` then ends with the
`expected $Lock` error, with the error of the lock decoder or of the key
encoder, or with a `Write`, and not with `expected NMDC $Lock`. -/
theorem scanOneTo_success_post (r : Reader) (buf : Bytes) (sr : ScanResult)
    (h : scanOneTo r buf = some sr) (herr : sr.err = none) :
    (0 < sr.tokenEnd ∧ sr.tokenEnd < sr.consumed ∧ sr.consumed ≤ (buf.length : Int) ∧
      sr.buf.length = buf.length ∧ sr.buf[sr.tokenEnd.toNat]? = some 124) ∧
    (¬ sr.tokenEnd < 0 ∧ sr.tokenEnd.toNat < sr.buf.length ∧
      (sr.buf.take sr.tokenEnd.toNat).length = sr.tokenEnd.toNat) ∧
    (∀ (L : Type) (nm : Nmdc L) (c : Conn) (info : Info) (host : Bytes),
      c.rd = r → buf = List.replicate 512 0 →
      ∃ res, registerOn nm c info host = some res ∧
        ((¬ (str "$Lock ") <+: sr.buf.take sr.tokenEnd.toNat ∧
            res = { err := some (Err.expectedLock (sr.buf.take sr.tokenEnd.toNat)),
                    wrote := none, closed := false }) ∨
          ((str "$Lock ") <+: sr.buf.take sr.tokenEnd.toNat ∧
            ((∃ e, nm.lockUnmarshal ((sr.buf.take sr.tokenEnd.toNat).drop 6) = .error e ∧
                res = { err := some e, wrote := none, closed := false }) ∨
              (∃ lock, nm.lockUnmarshal ((sr.buf.take sr.tokenEnd.toNat).drop 6) = .ok lock ∧
                ((∃ e, nm.keyMarshal (nm.lockKey lock) = .error e ∧
                    res = { err := some e, wrote := none, closed := false }) ∨
                  (∃ data, nm.keyMarshal (nm.lockKey lock) = .ok data ∧
                    res.wrote = some (registration data info host)))))))) := by
  obtain ⟨a, b, c1, d, e⟩ := scanLoop_ok_post _ r buf 0 sr h herr (Nat.zero_le _)
  have ha : (0 : Int) < sr.tokenEnd := by exact_mod_cast a
  have hlt : sr.tokenEnd.toNat < sr.buf.length := by rw [d]; omega
  refine ⟨⟨ha, b, c1, d, e⟩, ⟨by omega, hlt, ?_⟩, ?_⟩
  · rw [List.length_take]; omega
  · intro L nm c info host hr hb
    subst hr hb
    exact registerOn_after_scan nm c info host sr h herr (by omega)

set_option maxRecDepth 100000 in
theorem scanOneTo_success_post_witness :
    scanOneTo [⟨str "$Lo", none⟩, ⟨str "ck x|y", none⟩] (List.replicate 12 0) =
      some ⟨7, 9, none, str "$Lock x|y" ++ [0, 0, 0]⟩ ∧
    (0 : Int) < 7 ∧ (7 : Int) < 9 ∧ (9 : Int) ≤ ((List.replicate 12 0 : Bytes).length : Int) ∧
      (str "$Lock x|y" ++ [0, 0, 0]).length = (List.replicate 12 0 : Bytes).length ∧
      (str "$Lock x|y" ++ [0, 0, 0])[(7 : Int).toNat]? = some 124 :=
  ⟨by decide!,
   (scanOneTo_success_post [⟨str "$Lo", none⟩, ⟨str "ck x|y", none⟩] (List.replicate 12 0)
      ⟨7, 9, none, str "$Lock x|y" ++ [0, 0, 0]⟩ (by decide!) rfl).1⟩

theorem frame_count_eq (ts : List Bytes) (rest : Bytes) (h : ∀ t ∈ ts, 124 ∉ t) :
    (frame ts rest).count 124 = ts.length + rest.count 124 := by
  induction ts with
  | nil => simp [frame]
  | cons t ts ih =>
    have h1 : t.count 124 = 0 := List.count_eq_zero.mpr (h t (List.mem_cons_self _ _))
    rw [frame_cons, List.count_append, List.count_cons_self, List.length_cons, h1,
      ih (fun u hu => h u (List.mem_cons_of_mem _ hu))]
    omega

theorem escaper_cons (b : Nat) (s : Bytes) :
    escaper (b :: s) = (if b = 124 then str "&#124;" else [b]) ++ escaper s := by
  by_cases hb : b = 124
  · subst hb; rfl
  · simp [escaper, hb]

theorem escaper_id (s : Bytes) (h : 124 ∉ s) : escaper s = s := by
  induction s with
  | nil => rfl
  | cons b s ih =>
    have hb : b ≠ 124 := fun e => h (by simp [e])
    have hs : 124 ∉ s := fun e => h (List.mem_cons_of_mem _ e)
    rw [escaper_cons, if_neg hb, ih hs]
    rfl

theorem Itoa_no_pipe (i : Int) : 124 ∉ Strconv.Itoa i := by
  intro h
  rcases Strconv.FormatInt_bytes i 124 h with h1 | h1 <;> omega

theorem FormatUint_no_pipe (n : Nat) : 124 ∉ Strconv.FormatUint n := by
  intro h
  have := Strconv.FormatUint_digits n 124 h
  omega

theorem registration_fields (data : Bytes) (info : Info) (host : Bytes) :
    registration data info host =
      frame ([str "$Key " ++ data, escaper info.Name, info.Host, escaper info.Desc,
        Strconv.Itoa info.Users, Strconv.FormatUint info.Share] ++
          (if host = [] then [] else [host])) [] := by
  by_cases hh : host = []
  · simp [registration, frame, hh]
  · simp [registration, frame, hh]

theorem registration_fields_no_pipe (data : Bytes) (info : Info) (host : Bytes)
    (hdata : 124 ∉ data) (hhost : 124 ∉ info.Host) (htarget : 124 ∉ host) :
    ∀ t ∈ [str "$Key " ++ data, escaper info.Name, info.Host, escaper info.Desc,
        Strconv.Itoa info.Users, Strconv.FormatUint info.Share] ++
          (if host = [] then [] else [host]), 124 ∉ t := by
  have hk : 124 ∉ str "$Key " ++ data := by
    intro h
    rcases List.mem_append.mp h with h1 | h1
    · revert h1; decide
    · exact hdata h1
  intro t ht
  rcases List.mem_append.mp ht with h1 | h1
  · simp only [List.mem_cons, List.mem_singleton, List.not_mem_nil, or_false] at h1
    rcases h1 with rfl | rfl | rfl | rfl | rfl | rfl
    · exact hk
    · exact escaper_no_pipe _
    · exact hhost
    · exact escaper_no_pipe _
    · exact Itoa_no_pipe _
    · exact FormatUint_no_pipe _
  · by_cases hh : host = []
    · simp [hh] at h1
    · simp only [hh, if_false, List.mem_singleton] at h1
      subst h1
      exact htarget

/-- C19: the escaper output never contains `|`: it is the input with every `|`
replaced by `&#124;` and every other byte copied, so an input without `|` is
returned unchanged.  Hence, when `registerOn` has read a lock token and the key
encoder returned a key without `|`, and neither `info.Host` nor the target host
contains `|`, the bytes passed to `Write` are the fields written, each followed
by one `|`: no field contains `|`, and the number of `|` bytes equals the number
of fields (six, or seven with a target host). -/
theorem escaper_removes_delimiter :
    (∀ s : Bytes, 124 ∉ escaper s ∧ (124 ∉ s → escaper s = s)) ∧
    escaper [] = [] ∧
    (∀ (b : Nat) (s : Bytes),
      escaper (b :: s) = (if b = 124 then str "&#124;" else [b]) ++ escaper s) ∧
    (∀ (L : Type) (nm : Nmdc L) (c : Conn) (info : Info) (host : Bytes)
      (sr : ScanResult) (ld : Bytes) (lock : L) (data : Bytes),
      scanOneTo c.rd (List.replicate 512 0) = some sr → sr.err = none →
      sr.buf.take sr.tokenEnd.toNat = str "$Lock " ++ ld →
      nm.lockUnmarshal ld = .ok lock → nm.keyMarshal (nm.lockKey lock) = .ok data →
      124 ∉ data → 124 ∉ info.Host → 124 ∉ host →
      ∃ res toks, registerOn nm c info host = some res ∧
        res.wrote = some (frame toks []) ∧
        toks = [str "$Key " ++ data, escaper info.Name, info.Host, escaper info.Desc,
          Strconv.Itoa info.Users, Strconv.FormatUint info.Share] ++
            (if host = [] then [] else [host]) ∧
        (∀ t ∈ toks, 124 ∉ t) ∧
        (frame toks []).count 124 = toks.length ∧
        toks.length = if host = [] then 6 else 7) := by
  refine ⟨fun s => ⟨escaper_no_pipe s, escaper_id s⟩, rfl, escaper_cons, ?_⟩
  intro L nm c info host sr ld lock data hscan herr htok hlock hkey hdata hhost htarget
  have hrun := registerOn_run nm c info host sr ld lock data hscan herr htok hlock hkey
  have hno := registration_fields_no_pipe data info host hdata hhost htarget
  have hcount := frame_count_eq _ [] hno
  simp only [List.count_nil, Nat.add_zero] at hcount
  have hlen : ([str "$Key " ++ data, escaper info.Name, info.Host, escaper info.Desc,
      Strconv.Itoa info.Users, Strconv.FormatUint info.Share] ++
        (if host = [] then [] else [host])).length = if host = [] then 6 else 7 := by
    by_cases hh : host = [] <;> simp [hh]
  cases hw : c.writeErr with
  | some e =>
    rw [hw] at hrun
    exact ⟨_, _, hrun, by rw [← registration_fields], rfl, hno, hcount, hlen⟩
  | none =>
    rw [hw] at hrun
    exact ⟨_, _, hrun, by rw [← registration_fields], rfl, hno, hcount, hlen⟩

set_option maxRecDepth 100000 in
theorem escaper_removes_delimiter_witness :
    ∃ res toks, registerOn stubNmdc ⟨[⟨str "$Lock abc Pk=x|", none⟩], none, none⟩
        ⟨str "Test|Hub", str "example.com:411", str "A|Test", 5, 1073741824⟩ (str "hub:2501")
          = some res ∧
      res.wrote = some (frame toks []) ∧
      toks = [str "$Key " ++ str "cba", escaper (str "Test|Hub"), str "example.com:411",
        escaper (str "A|Test"), Strconv.Itoa 5, Strconv.FormatUint 1073741824] ++
          (if str "hub:2501" = [] then [] else [str "hub:2501"]) ∧
      (∀ t ∈ toks, 124 ∉ t) ∧
      (frame toks []).count 124 = toks.length ∧
      toks.length = if str "hub:2501" = [] then 6 else 7 :=
  escaper_removes_delimiter.2.2.2 (Bytes × Bytes) stubNmdc
    ⟨[⟨str "$Lock abc Pk=x|", none⟩], none, none⟩
    ⟨str "Test|Hub", str "example.com:411", str "A|Test", 5, 1073741824⟩ (str "hub:2501")
    ⟨14, 15, none, str "$Lock abc Pk=x|" ++ List.replicate 497 0⟩ (str "abc Pk=x")
    (str "abc", str "x") (str "cba") (by decide!) rfl (by decide!) rfl rfl
    (by decide) (by decide) (by decide)

end Autoreg
